import Mathlib

/-!
# tcpproxy: the output multiplexer, the line renderers, the copier and the handler

A shallow embedding of `output.go` and `main.go`.

* A Go `string` or `[]byte` is the list of its bytes (`Bytes`), each byte a natural number
  below 256.
* An `io.Writer` is modelled by the bytes written to it: every operation that writes returns
  the bytes it appended to the sink, next to the new state of its receiver.
* The flags `-text` and `-width` are the fields of `Config`.
* `fmt` verbs are modelled by `fmtC` (`%c`), `fmtHex2` (`%2.2x`) and `fmtInt44` (`%4.4d`).
-/

namespace Tcpproxy

/-- The bytes of a Go `string` or `[]byte`. -/
abbrev Bytes := List Nat

/-- UTF-8 encoding of the code point `r` (for `r` below `0x110000`). -/
def utf8 (r : Nat) : Bytes :=
  if r < 0x80 then [r]
  else if r < 0x800 then [0xC0 + r / 64, 0x80 + r % 64]
  else if r < 0x10000 then [0xE0 + r / 4096, 0x80 + r / 64 % 64, 0x80 + r % 64]
  else [0xF0 + r / 262144, 0x80 + r / 4096 % 64, 0x80 + r / 64 % 64, 0x80 + r % 64]

/-- The bytes of a string literal of the source. -/
def str (s : String) : Bytes := s.toList.flatMap (fun c => utf8 c.toNat)

/-- Verb `%c` applied to a `byte`: the UTF-8 encoding of the code point with that number,
one byte below 128 and two bytes from 128 on. -/
def fmtC (ch : Nat) : Bytes := utf8 (ch % 256)

/-- One lower-case hexadecimal digit. -/
def hexDigit (d : Nat) : Nat := if d < 10 then 48 + d else 87 + d

/-- Verb `%2.2x` applied to a `byte`: exactly two lower-case hexadecimal digits. -/
def fmtHex2 (ch : Nat) : Bytes := [hexDigit (ch / 16 % 16), hexDigit (ch % 16)]

/-- Decimal digits of `n`, most significant first, in front of `acc`. -/
def decimalAux : Nat → Nat → Bytes → Bytes
  | 0, _, acc => acc
  | fuel + 1, n, acc =>
    if n < 10 then (48 + n) :: acc
    else decimalAux fuel (n / 10) ((48 + n % 10) :: acc)

/-- Decimal rendering of a natural number (`"0"` for zero). -/
def decimal (n : Nat) : Bytes := decimalAux (n + 1) n []

/-- Verb `%4.4d` applied to an `int`: a minus sign for a negative number, then the decimal
digits of the absolute value, padded on the left with zeros to at least four digits. The
width 4 adds nothing, since the precision already yields four characters or more. -/
def fmtInt44 (id : Int) : Bytes :=
  (if id < 0 then [45] else []) ++
    List.replicate (4 - (decimal id.natAbs).length) 48 ++ decimal id.natAbs

/-- The flags of `output.go`, and the capacity the runtime gives a slice that `append`
has to reallocate (`growCap old` for a full slice of capacity `old`). -/
structure Config where
  isText : Bool
  columnWidth : Nat
  growCap : Nat → Nat

/-! ## hexLineWriter -/

/-- State of a `hexLineWriter`: its label (the field `prefix` of the source), and the row
buffer `buf` with its capacity `cap(buf)`. -/
structure hexLineWriter where
  pfx : Bytes
  buf : Bytes
  cap : Nat
deriving DecidableEq, Repr

/-- Constructor `newHexLineWriter`: an empty buffer of capacity `*columnWidth`. -/
def newHexLineWriter (cfg : Config) (pfx : Bytes) : hexLineWriter :=
  { pfx := pfx, buf := [], cap := cfg.columnWidth }

/-- The character of the ASCII column: anything outside 32..126 is shown as a dot. -/
def dotChar (ch : Nat) : Nat := if ch < 32 ∨ 126 < ch then 46 else ch

/-- `strings.Repeat("   ", n)`. -/
def blanks (n : Nat) : Bytes := List.replicate (3 * n) 32

/-- Method `hexLineWriter.flush` (on a non-nil receiver): with a non-empty buffer, the
column padding, one space and the ASCII column, and the buffer is reset; in every case a
newline. -/
def hexLineWriter.flush (lw : hexLineWriter) : hexLineWriter × Bytes :=
  if lw.buf.length > 0 then
    ({ lw with buf := [] },
      blanks (lw.cap - lw.buf.length) ++ [32] ++ (lw.buf.map dotChar).flatMap fmtC ++ [10])
  else
    (lw, [10])

/-- `append(lw.buf, ch)`: the capacity is kept while there is room. -/
def hexLineWriter.push (cfg : Config) (lw : hexLineWriter) (ch : Nat) : hexLineWriter :=
  { lw with
    buf := lw.buf ++ [ch]
    cap := if lw.buf.length < lw.cap then lw.cap else cfg.growCap lw.cap }

/-- One iteration of the loop of `hexLineWriter.write`. -/
def hexLineWriter.writeByte (cfg : Config) (lw : hexLineWriter) (ch : Nat) :
    hexLineWriter × Bytes :=
  let r1 := if lw.buf.length = cfg.columnWidth then lw.flush else (lw, [])
  let o2 := if r1.1.buf.length = 0 then r1.1.pfx ++ [32] else []
  let o3 := [32] ++ fmtHex2 ch
  (r1.1.push cfg ch, r1.2 ++ o2 ++ o3)

/-- Method `hexLineWriter.write`. -/
def hexLineWriter.write (cfg : Config) (lw : hexLineWriter) : Bytes → hexLineWriter × Bytes
  | [] => (lw, [])
  | ch :: rest =>
    let r := lw.writeByte cfg ch
    let r2 := hexLineWriter.write cfg r.1 rest
    (r2.1, r.2 ++ r2.2)

/-! ## textLineWriter -/

/-- State of a `textLineWriter`. -/
structure textLineWriter where
  pfx : Bytes
  isPrefixWritePending : Bool
deriving DecidableEq, Repr

/-- Constructor `newTextLineWriter`: it writes the label and a space at once. -/
def newTextLineWriter (pfx : Bytes) : textLineWriter × Bytes :=
  ({ pfx := pfx, isPrefixWritePending := false }, pfx ++ [32])

/-- One iteration of the loop of `textLineWriter.write`. -/
def textLineWriter.writeByte (lw : textLineWriter) (ch : Nat) : textLineWriter × Bytes :=
  let r1 : textLineWriter × Bytes :=
    if lw.isPrefixWritePending then
      ({ lw with isPrefixWritePending := false }, lw.pfx ++ [32])
    else (lw, [])
  let o2 := fmtC ch
  let lw2 := if ch = 10 then { r1.1 with isPrefixWritePending := true } else r1.1
  (lw2, r1.2 ++ o2)

/-- Method `textLineWriter.write`. -/
def textLineWriter.write (lw : textLineWriter) : Bytes → textLineWriter × Bytes
  | [] => (lw, [])
  | ch :: rest =>
    let r := lw.writeByte ch
    let r2 := textLineWriter.write r.1 rest
    (r2.1, r.2 ++ r2.2)

/-- Method `textLineWriter.flush`: its body is empty. -/
def textLineWriter.flush (lw : textLineWriter) : textLineWriter × Bytes := (lw, [])

/-! ## The multiplexer -/

/-- The interface `lineWriter` with its two implementations. -/
inductive lineWriter where
  | hex (w : hexLineWriter)
  | text (w : textLineWriter)
deriving DecidableEq, Repr

/-- Dynamic dispatch of `write`. -/
def lineWriter.write (cfg : Config) : lineWriter → Bytes → lineWriter × Bytes
  | .hex w, b => ((w.write cfg b).1 |> .hex, (w.write cfg b).2)
  | .text w, b => ((w.write b).1 |> .text, (w.write b).2)

/-- Dynamic dispatch of `flush`. -/
def lineWriter.flush : lineWriter → lineWriter × Bytes
  | .hex w => (.hex w.flush.1, w.flush.2)
  | .text w => (.text w.flush.1, w.flush.2)

/-- The messages of the two channels: `commentMsg` and `dataMsg`. -/
inductive Msg where
  | comment (id : Int) (s : Bytes)
  | data (id : Int) (pfx : Nat) (b : Bytes)
deriving DecidableEq, Repr

/-- Function `makePrefix`: `fmt.Sprintf("%4.4d %c", id, prefix)`. -/
def makePrefix (id : Int) (pfx : Nat) : Bytes := fmtInt44 id ++ [32] ++ fmtC pfx

/-- The local variables of `outputWriter.output`; `lw = none` is the nil interface. -/
structure outputState where
  curId : Int
  curPrefix : Nat
  lw : Option lineWriter
deriving DecidableEq, Repr

/-- The variables of `output` before the first message. -/
def outputState.init : outputState := { curId := 0, curPrefix := 0, lw := none }

/-- The marker of comment lines. -/
def star : Nat := 42

/-- One iteration of the loop of `outputWriter.output`, for the message that `select`
received: the new state and the bytes written to `dest`. -/
def outputStep (cfg : Config) (st : outputState) : Msg → outputState × Bytes
  | .comment id s =>
    let o1 := match st.lw with
      | some lw => lw.flush.2
      | none => []
    let p := makePrefix id star
    ({ st with lw := none }, o1 ++ (p ++ [10] ++ p ++ [32] ++ s ++ [10] ++ p ++ [10]))
  | .data id pfx b =>
    match st.lw with
    | some lw =>
      if st.curId = id ∧ st.curPrefix = pfx then
        ({ st with lw := some (lw.write cfg b).1 }, (lw.write cfg b).2)
      else
        let o1 := lw.flush.2
        let p := makePrefix id pfx
        let r : lineWriter × Bytes :=
          if cfg.isText then ((newTextLineWriter p).1 |> .text, (newTextLineWriter p).2)
          else (.hex (newHexLineWriter cfg p), [])
        let r2 := r.1.write cfg b
        ({ curId := id, curPrefix := pfx, lw := some r2.1 }, o1 ++ r.2 ++ r2.2)
    | none =>
      let p := makePrefix id pfx
      let r : lineWriter × Bytes :=
        if cfg.isText then ((newTextLineWriter p).1 |> .text, (newTextLineWriter p).2)
        else (.hex (newHexLineWriter cfg p), [])
      let r2 := r.1.write cfg b
      ({ curId := id, curPrefix := pfx, lw := some r2.1 }, r.2 ++ r2.2)

/-- The loop of `outputWriter.output` over the messages it receives, in the order in which
it receives them: the final state and everything written to `dest`. -/
def output (cfg : Config) : outputState → List Msg → outputState × Bytes
  | st, [] => (st, [])
  | st, m :: ms =>
    let r := outputStep cfg st m
    let r2 := output cfg r.1 ms
    (r2.1, r.2 ++ r2.2)

/-- Everything `output` writes for the messages `ms`, from its initial state. -/
def rendered (cfg : Config) (ms : List Msg) : Bytes := (output cfg outputState.init ms).2

/-- Capacity after `append` has reallocated the full row buffer of capacity `c`: the Go
runtime gives a byte slice without capacity 8 bytes and doubles a small one (0, 8, 16, 32,
...). It is reached with `-width 0` only; for a width of at least 1 `write` flushes before
the buffer is full. -/
def goGrowCap (c : Nat) : Nat := if c = 0 then 8 else 2 * c

/-- The flag `-width n` (hex mode). -/
def cfgHex (n : Nat) : Config := { isText := false, columnWidth := n, growCap := goGrowCap }

/-- The flags `-text` and `-width n`. -/
def cfgText (n : Nat) : Config := { isText := true, columnWidth := n, growCap := goGrowCap }

/-! ## Reading the output back -/

/-- Function `strings.Split(s, sep)` for a separator of one byte; with the newline as
separator, the lines of an output. -/
def splitOn (sep : Nat) : Bytes → List Bytes
  | [] => [[]]
  | c :: rest =>
    if c = sep then [] :: splitOn sep rest
    else match splitOn sep rest with
      | l :: ls => (c :: l) :: ls
      | [] => [[c]]

/-- The lines of an output. -/
def lines (out : Bytes) : List Bytes := splitOn 10 out

/-- Value of a lower-case hexadecimal digit. -/
def hexVal (c : Nat) : Option Nat :=
  if 48 ≤ c ∧ c ≤ 57 then some (c - 48)
  else if 97 ≤ c ∧ c ≤ 102 then some (c - 87)
  else none

/-- Decodes at most `n` hex columns (a space and two hex digits each) from the start of
`l`, and stops at the first thing that is not a column. -/
def decodeCols : Nat → Bytes → Bytes
  | 0, _ => []
  | n + 1, sp :: h :: l :: rest =>
    if sp = 32 then
      match hexVal h, hexVal l with
      | some a, some b => (16 * a + b) :: decodeCols n rest
      | _, _ => []
    else []
  | _ + 1, _ => []

/-- Removes `p` from the start of `l`, when `l` starts with `p`. -/
def dropLabel : Bytes → Bytes → Option Bytes
  | [], l => some l
  | _ :: _, [] => none
  | a :: p, b :: l => if a = b then dropLabel p l else none

/-- The bytes of one output row of the context with label `label`, read back from its hex
columns: the label and its space are removed, at most `n` columns are decoded, padding and
ASCII column are left out. A line that does not start with the label yields nothing. -/
def decodeRow (n : Nat) (label : Bytes) (line : Bytes) : Bytes :=
  match dropLabel (label ++ [32]) line with
  | some rest => decodeCols n rest
  | none => []

/-- The bytes read back from all rows with label `label` of an output, in output order. -/
def decodeHex (n : Nat) (label : Bytes) (out : Bytes) : Bytes :=
  (lines out).flatMap (decodeRow n label)

/-- Number of hex columns at the start of `l`, counted up to `n`. -/
def countCols (n : Nat) (l : Bytes) : Nat := (decodeCols n l).length

/-- Writes the chunks `bs` one after the other with `hexLineWriter.write`. -/
def hexLineWriter.writes (cfg : Config) (lw : hexLineWriter) : List Bytes → hexLineWriter × Bytes
  | [] => (lw, [])
  | b :: bs =>
    let r := lw.write cfg b
    let r2 := hexLineWriter.writes cfg r.1 bs
    (r2.1, r.2 ++ r2.2)

/-- Writes the chunks `bs` one after the other with `textLineWriter.write`. -/
def textLineWriter.writes (lw : textLineWriter) : List Bytes → textLineWriter × Bytes
  | [] => (lw, [])
  | b :: bs =>
    let r := lw.write b
    let r2 := textLineWriter.writes r.1 bs
    (r2.1, r.2 ++ r2.2)

/-! ## The rows of a hex context -/

/-- The hex columns of the bytes `b`: a space and two hex digits for each. -/
def hexCols (b : Bytes) : Bytes := b.flatMap (fun ch => [32] ++ fmtHex2 ch)

/-- What has been written of the row whose bytes so far are `buf`. -/
def partialLine (p buf : Bytes) : Bytes := if buf.length = 0 then [] else p ++ [32] ++ hexCols buf

/-- A finished row with the bytes `c`, without its newline. -/
def rowLine (n : Nat) (p c : Bytes) : Bytes :=
  p ++ [32] ++ hexCols c ++ (blanks (n - c.length) ++ [32] ++ c.map dotChar)

/-- The rows that get full while `b` is appended to a row holding `buf`. -/
def fullRows (n : Nat) : Bytes → Bytes → List Bytes
  | _, [] => []
  | buf, ch :: rest =>
    if buf.length = n then buf :: fullRows n [ch] rest else fullRows n (buf ++ [ch]) rest

/-- The row buffer after `b` has been appended to a row holding `buf`. -/
def lastBuf (n : Nat) : Bytes → Bytes → Bytes
  | buf, [] => buf
  | buf, ch :: rest =>
    if buf.length = n then lastBuf n [ch] rest else lastBuf n (buf ++ [ch]) rest

/-- Everything a text context with label `p` writes: the label at its creation, then what
`write` writes for the chunks `bs`. -/
def textOut (p : Bytes) (bs : List Bytes) : Bytes :=
  (newTextLineWriter p).2 ++ ((newTextLineWriter p).1.writes bs).2

/-- What follows the first newline of an output. -/
def afterNewline (out : Bytes) : Bytes := (out.dropWhile (fun c => c != 10)).drop 1

/-! ## doCopy -/

/-- What one call `from.Read(b)` returns: `data` are the bytes it left in `b[:n]`, so that
`n = data.length`, and `err` says whether the error is non-nil. -/
structure ReadResult where
  data : Bytes
  err : Bool
deriving DecidableEq, Repr

/-- What one call `to.Write(b2)` returns: `sent`, and whether the error is non-nil. -/
structure WriteResult where
  sent : Int
  err : Bool
deriving DecidableEq, Repr

/-- What `doCopy` does to its surroundings, in the order in which it does it. -/
inductive Effect where
  /-- `from.Read(b)` returned this result. -/
  | read (r : ReadResult)
  /-- `ow.writeData(id, prefix, b2)`. -/
  | writeData (id : Int) (pfx : Nat) (b : Bytes)
  /-- `to.Write(b2)` returned `sent` and an error (`err`) or none. -/
  | write (b2 : Bytes) (sent : Int) (err : Bool)
  /-- `from.Close()`. -/
  | closeFrom
  /-- `to.Close()`. -/
  | closeTo
  /-- `disconnectedBy <- peerName`. -/
  | send (peerName : Bytes)
deriving DecidableEq, Repr

/-- How the loop of `doCopy` ends. The three `return`s of the source are `readErr`,
`zeroRead` and `writeErr`; `badRead` and `badWrite` are the run-time panics of the slice
expressions `b[:n]` and `b2[sent:]`; `blockedRead` and `blockedWrite` stand for a call that
has not returned (the list of results is used up). -/
inductive LoopExit where
  | readErr
  | zeroRead
  | writeErr
  | badRead
  | badWrite
  | blockedRead
  | blockedWrite
deriving DecidableEq, Repr

/-- The loop `for len(b2) > 0 { ... }` of `doCopy`, with the results of the calls of
`to.Write` in `ws`: the effects, how the loop ended when it ended the function (`none` when
it ran to its end), and the results not used. -/
def writeLoop : Bytes → List WriteResult → List Effect × Option LoopExit × List WriteResult
  | b2, [] => if b2.length > 0 then ([], some .blockedWrite, []) else ([], none, [])
  | b2, w :: ws =>
    if b2.length > 0 then
      if w.err then ([.write b2 w.sent true], some .writeErr, ws)
      else if w.sent < 0 ∨ (b2.length : Int) < w.sent then
        ([.write b2 w.sent false], some .badWrite, ws)
      else
        let r := writeLoop (b2.drop w.sent.toNat) ws
        (.write b2 w.sent false :: r.1, r.2.1, r.2.2)
    else ([], none, w :: ws)

/-- Size of the buffer `b` of `doCopy`. -/
def bufSize : Nat := 4 * 1024

/-- The loop `for { ... }` of `doCopy`, with the results of the calls of `from.Read` in
`rs` and of `to.Write` in `ws`. -/
def copyLoop (id : Int) (pfx : Nat) : List ReadResult → List WriteResult → List Effect × LoopExit
  | [], _ => ([], .blockedRead)
  | r :: rs, ws =>
    if r.err then ([.read r], .readErr)
    else if r.data.length = 0 then ([.read r], .zeroRead)
    else if bufSize < r.data.length then ([.read r], .badRead)
    else
      let w := writeLoop r.data ws
      match w.2.1 with
      | some e => (.read r :: .writeData id pfx r.data :: w.1, e)
      | none =>
        let c := copyLoop id pfx rs w.2.2
        (.read r :: .writeData id pfx r.data :: (w.1 ++ c.1), c.2)

/-- Function `doCopy`: the loop, and the deferred function, which runs when the loop
returns or panics. -/
def doCopy (id : Int) (pfx : Nat) (peerName : Bytes) (rs : List ReadResult)
    (ws : List WriteResult) : List Effect × LoopExit :=
  let r := copyLoop id pfx rs ws
  match r.2 with
  | .blockedRead => r
  | .blockedWrite => r
  | _ => (r.1 ++ [.closeFrom, .closeTo, .send peerName], r.2)

/-- The bytes the write side has accepted: the first `sent` bytes of every slice handed
to `to.Write`. -/
def accepted : List Effect → Bytes
  | [] => []
  | .write b2 sent _ :: es => b2.take sent.toNat ++ accepted es
  | _ :: es => accepted es

/-- The non-empty chunks read before the first read error or zero-length read, one
after the other. -/
def chunksRead : List ReadResult → Bytes
  | [] => []
  | r :: rs => if r.err ∨ r.data.length = 0 then [] else r.data ++ chunksRead rs

/-- Every `to.Write` of the run reported `0 ≤ sent ≤ len(b2)`. -/
def writesInRange : List Effect → Bool
  | [] => true
  | .write b2 sent _ :: es => decide (0 ≤ sent ∧ sent ≤ (b2.length : Int)) && writesInRange es
  | _ :: es => writesInRange es

/-- No `to.Write` of the run returned an error. -/
def noWriteError : List Effect → Bool
  | [] => true
  | .write _ _ err :: es => !err && noWriteError es
  | _ :: es => noWriteError es

/-- The effects of the deferred function of `doCopy`. -/
def isTeardown : Effect → Bool
  | .closeFrom => true
  | .closeTo => true
  | .send _ => true
  | _ => false

/-! ## serve -/

/-- `strconv.Atoi` on digits only: the number, or `none` at a byte that is no digit. -/
def parseDigits : Bytes → Nat → Option Nat
  | [], acc => some acc
  | c :: rest, acc => if 48 ≤ c ∧ c ≤ 57 then parseDigits rest (10 * acc + (c - 48)) else none

/-- Function `strconv.Atoi` for the 64-bit `int`: an optional sign, then one decimal digit
or more and nothing else, and a value within the range of `int`; `none` is its error. -/
def Atoi (s : Bytes) : Option Int :=
  let neg := s.head? = some 45
  let ds := if s.head? = some 45 ∨ s.head? = some 43 then s.tail else s
  if ds.length = 0 then none
  else match parseDigits ds 0 with
    | none => none
    | some n =>
      if neg then (if n ≤ 2 ^ 63 then some (-(n : Int)) else none)
      else (if n < 2 ^ 63 then some (n : Int) else none)

/-- The two panics of `serve` (their message texts are not modelled). -/
inductive ServePanic where
  | invalidRemoteAddress
  | portNotInteger
deriving DecidableEq, Repr

/-- Outcome of the first lines of `serve`: a panic, or the connection id. -/
inductive IdResult where
  | panics (k : ServePanic)
  | ok (id : Int)
deriving DecidableEq, Repr

/-- The first lines of `serve`: the connection id from `from.RemoteAddr().String()`. -/
def connId (remoteAddr : Bytes) : IdResult :=
  let f := splitOn 58 remoteAddr
  if f.length ≠ 2 then .panics .invalidRemoteAddress
  else match Atoi (f.getD 1 []) with
    | none => .panics .portNotInteger
    | some id => .ok id

/-- The two connections of a session. -/
inductive Conn where
  | client
  | upstream
deriving DecidableEq, Repr

/-- What `serve` does to its surroundings, in the order in which it does it. -/
inductive ServeEffect where
  /-- `ow.writeComment(id, s)`. -/
  | writeComment (id : Int) (s : Bytes)
  /-- `net.Dial("tcp", raddr)`. -/
  | dial (raddr : Bytes)
  /-- `go doCopy(id, prefix, to, from, c, peerName)`. -/
  | goCopy (id : Int) (pfx : Nat) (dst src : Conn) (peerName : Bytes)
  /-- `<-c` received this name. -/
  | recv (name : Bytes)
  /-- The deferred `from.Close()`. -/
  | closeClient
  /-- A call of `panic`. -/
  | panic (k : ServePanic)
deriving DecidableEq, Repr

/-- Function `serve` for a client whose `RemoteAddr().String()` is `remoteAddr`. `dialRes`
is what `net.Dial` returns: the text of its error, or `to.LocalAddr().String()`; `done` is
the name received from the channel `c`, `none` while nothing has been received. -/
def serve (remoteAddr raddr : Bytes) (dialRes : Except Bytes Bytes) (done : Option Bytes) :
    List ServeEffect :=
  match connId remoteAddr with
  | .panics k => [.panic k, .closeClient]
  | .ok id =>
    .writeComment id (str "client connected (" ++ remoteAddr ++ str ")") ::
    .dial raddr ::
    match dialRes with
    | .error e => [.writeComment id (str "failed to connect to server: " ++ e), .closeClient]
    | .ok localAddr =>
      let s := str "(" ++ remoteAddr ++ str "->" ++ localAddr ++ str ")"
      .writeComment id (str "server connected " ++ s) ::
      .goCopy id 124 .upstream .client (str "client") ::
      .goCopy id 45 .client .upstream (str "server") ::
      match done with
      | none => []
      | some name =>
        [.recv name, .writeComment id (str "disconnected by " ++ name ++ str " " ++ s),
          .closeClient]

/-- The comments among the effects of `serve`. -/
def isComment : ServeEffect → Bool
  | .writeComment _ _ => true
  | _ => false

/-- The copiers started among the effects of `serve`. -/
def isGoCopy : ServeEffect → Bool
  | .goCopy _ _ _ _ _ => true
  | _ => false

/-! ## The blocks of the output, as the specification describes them -/

/-- A block of the output: a comment, or the rows of one render context, which holds the
bytes `b` of the data messages of one `(id, direction)`. -/
inductive Block where
  | comment (id : Int) (s : Bytes)
  | context (id : Int) (d : Nat) (b : Bytes)
deriving DecidableEq, Repr

/-- The block of the open render context, when there is one. -/
def closeBlock : Option (Int × Nat × Bytes) → List Block
  | none => []
  | some (i, d, b) => [.context i d b]

/-- The blocks of a sequence of messages, with `cur` the open render context and its bytes so
far: a comment closes the open context; a data message of the open `(id, direction)` adds
its bytes to it; any other data message closes it and opens a context of its own. At the end
the open context is closed. -/
def blocksFrom : Option (Int × Nat × Bytes) → List Msg → List Block
  | cur, [] => closeBlock cur
  | cur, .comment id s :: ms => closeBlock cur ++ .comment id s :: blocksFrom none ms
  | cur, .data id d b :: ms =>
    match cur with
    | some (i, d0, b0) =>
      if i = id ∧ d0 = d then blocksFrom (some (i, d0, b0 ++ b)) ms
      else .context i d0 b0 :: blocksFrom (some (id, d, b)) ms
    | none => blocksFrom (some (id, d, b)) ms

/-- The rows of a closed hex context with label `p` and bytes `b`: the full rows and the
last row, a newline after each; a context without bytes is an empty line. -/
def hexRows (n : Nat) (p b : Bytes) : Bytes :=
  if (lastBuf n [] b).length = 0 then
    (fullRows n [] b).flatMap (fun c => rowLine n p c ++ [10]) ++ [10]
  else
    (fullRows n [] b ++ [lastBuf n [] b]).flatMap (fun c => rowLine n p c ++ [10])

/-- The text of a block in hex mode. -/
def renderBlock (n : Nat) : Block → Bytes
  | .comment id s =>
    makePrefix id 42 ++ [10] ++ (makePrefix id 42 ++ [32] ++ s ++ [10]) ++ (makePrefix id 42 ++ [10])
  | .context id d b => hexRows n (makePrefix id d) b

/-- What the `flush` of the open line writer would write, were the output closed now. -/
def closing (st : outputState) : Bytes :=
  match st.lw with
  | some lw => lw.flush.2
  | none => []

/-- The state of `output` in hex mode when the open render context is `cur`. -/
def openState (cfg : Config) : Option (Int × Nat × Bytes) → outputState → Prop
  | none, st => st.lw = none
  | some (i, d, b), st =>
    st.curId = i ∧ st.curPrefix = d ∧
      st.lw = some (.hex ((newHexLineWriter cfg (makePrefix i d)).write cfg b).1)

/-- What has been written for the open render context `cur`. -/
def written (cfg : Config) : Option (Int × Nat × Bytes) → Bytes
  | none => []
  | some (i, d, b) => ((newHexLineWriter cfg (makePrefix i d)).write cfg b).2

/-- The lines of a block in hex mode: the three lines of a comment, the rows of a context. -/
def blockLines (n : Nat) : Block → List Bytes
  | .comment id s => [makePrefix id 42, makePrefix id 42 ++ [32] ++ s, makePrefix id 42]
  | .context id d b => (fullRows n [] b ++ [lastBuf n [] b]).map (rowLine n (makePrefix id d))

/-- A comment without a newline in its text, or a data message with at least one byte (as
`doCopy` submits them) and a direction character other than the newline. -/
def plainMsg : Msg → Prop
  | .comment _ s => 10 ∉ s
  | .data _ d b => b ≠ [] ∧ d % 256 ≠ 10

/-- The blocks of plain messages. -/
def plainBlock : Block → Prop
  | .comment _ s => 10 ∉ s
  | .context _ d b => b ≠ [] ∧ d % 256 ≠ 10

/-! ## What a run of doCopy has done -/

/-- Every `to.Write` of the run returned an error or reported `1 ≤ sent ≤ len(b2)`. -/
def writesProgress : List Effect → Bool
  | [] => true
  | .write b2 sent err :: es =>
    (err || decide (1 ≤ sent ∧ sent ≤ (b2.length : Int))) && writesProgress es
  | _ :: es => writesProgress es

/-- The calls of `to.Write` among the effects. -/
def isWrite : Effect → Bool
  | .write _ _ _ => true
  | _ => false

/-- The data messages submitted with `ow.writeData`, in order. -/
def dataEvents : List Effect → List (Int × Nat × Bytes)
  | [] => []
  | .writeData id pfx b :: es => (id, pfx, b) :: dataEvents es
  | _ :: es => dataEvents es

/-- The results of the calls of `from.Read` made, in order. -/
def readsDone : List Effect → List ReadResult
  | [] => []
  | .read r :: es => r :: readsDone es
  | _ :: es => readsDone es

/-- The logged byte stream: the bytes of the data messages submitted. -/
def logged (es : List Effect) : Bytes := (dataEvents es).flatMap (fun e => e.2.2)

/-- A read that `doCopy` tees and forwards: no error and at least one byte. -/
def isChunk (r : ReadResult) : Bool := !r.err && decide (r.data.length ≠ 0)

/-! ## Reading the text output back -/

/-- Removes the label and its space from the start of a line that starts with them. -/
def stripLabel (p l : Bytes) : Bytes :=
  match dropLabel (p ++ [32]) l with
  | some rest => rest
  | none => l

/-- Puts lines together again, with a newline between two lines. -/
def joinLines : List Bytes → Bytes
  | [] => []
  | [l] => l
  | l :: l2 :: ls => l ++ [10] ++ joinLines (l2 :: ls)

/-- An output of text mode once the emitted labels are removed: the label and its space
are taken from the start of every line. -/
def unlabel (p out : Bytes) : Bytes := joinLines ((lines out).map (stripLabel p))

/-- The code points of a UTF-8 text whose characters are all below U+0100. -/
def charsOf : Bytes → Bytes
  | [] => []
  | [c] => [c]
  | c :: c2 :: rest =>
    if c < 128 then c :: charsOf (c2 :: rest)
    else ((c - 192) * 64 + (c2 - 128)) :: charsOf rest

/-! ## The bytes of one context -/

/-- The chunks of the data messages of `(id, d)`, one after the other, in the order of the
messages. -/
def chunksOf (id : Int) (d : Nat) : List Msg → Bytes
  | [] => []
  | .comment _ _ :: ms => chunksOf id d ms
  | .data i d2 b :: ms => (if i = id ∧ d2 = d then b else []) ++ chunksOf id d ms

/-- The bytes of a block when it is a context of `(id, d)`, nothing otherwise. -/
def pick (id : Int) (d : Nat) : Block → Bytes
  | .comment _ _ => []
  | .context i d2 b => if i = id ∧ d2 = d then b else []

/-- A comment without a newline in its text, or a data message of bytes with a direction
byte other than the newline. -/
def lineMsg : Msg → Prop
  | .comment _ s => 10 ∉ s
  | .data _ d b => d < 256 ∧ d ≠ 10 ∧ ∀ x ∈ b, x < 256

/-- The blocks of such messages. -/
def lineBlock : Block → Prop
  | .comment _ s => 10 ∉ s
  | .context _ d b => d < 256 ∧ d ≠ 10 ∧ ∀ x ∈ b, x < 256

/-- The lines of a closed hex context: its rows, or one empty line when it has no bytes. -/
def hexRowLines (n : Nat) (p b : Bytes) : List Bytes :=
  if (lastBuf n [] b).length = 0 then (fullRows n [] b).map (rowLine n p) ++ [[]]
  else (fullRows n [] b ++ [lastBuf n [] b]).map (rowLine n p)

/-- The lines of a block in hex mode, a context without bytes included. -/
def blockRows (n : Nat) : Block → List Bytes
  | .comment id s => [makePrefix id 42, makePrefix id 42 ++ [32] ++ s, makePrefix id 42]
  | .context id d b => hexRowLines n (makePrefix id d) b

/-! ## doCopy and output side by side, with the buffer they share -/

/-- Where `doCopy` stands between two of its steps. -/
inductive CopierAt where
  /-- Before `from.Read(b)`. -/
  | read
  /-- Before the send of `dataMsg{id, prefix, b[:n]}` on `ow.data`. -/
  | send (n : Nat)
  /-- Before the loop over `to.Write` for `b[:n]`. -/
  | write (n : Nat)
  /-- After the loop `for { ... }`. -/
  | done
deriving DecidableEq, Repr

/-- One copier and the multiplexer, with the memory they share. The slice `b2 = b[:n]` that
`doCopy` puts into a `dataMsg` is a view of the array of `b`, not a copy, so `msg.b` in
`output` reads the same memory that the next `from.Read(b)` writes. -/
structure Shared where
  /-- The array of the buffer `b` of `doCopy`. -/
  b : Bytes
  /-- Where `doCopy` stands. -/
  pc : CopierAt
  /-- The results of the calls of `from.Read` still to come. -/
  rs : List ReadResult
  /-- The results of the calls of `to.Write` still to come. -/
  ws : List WriteResult
  /-- The variables of `output`. -/
  st : outputState
  /-- When `output` is inside `for _, ch := range b` of `lw.write(msg.b)`: the length of
  `msg.b` and the index of the next element; `none` when it waits in `select`. -/
  ranging : Option (Nat × Nat)
  /-- What has been written to `dest`. -/
  sink : Bytes
  /-- The chunk of every data message, as it was when the message was sent. -/
  submitted : List Bytes
  /-- The bytes the range loops of `write` have read, that is, rendered. -/
  ranged : Bytes
  /-- The bytes accepted by the write side. -/
  forwarded : Bytes
deriving DecidableEq, Repr

/-- Whose step comes next. -/
inductive Turn where
  | copier
  | mux
deriving DecidableEq, Repr

/-- One step of the copier `doCopy(id, pfx, ...)` or of `output`. A step that cannot be taken
(a call that has not returned, a send while `output` is not in `select`, a `select` without
a message) leaves the state as it is.
* copier, before `Read`: the result is taken, its bytes are stored in `b[:n]`;
* copier, before the send: `output` receives the message in `select` and runs the `data`
  case up to the loop of `lw.write` (this is `outputStep` for the chunk without bytes);
* copier, before the write loop: `writeLoop` for `b[:n]`;
* `output` inside the range loop: one iteration, for the byte now at `b[i]` (this is
  `outputStep` for the chunk of this one byte, in the open context), or the end of the loop. -/
def sharedStep (cfg : Config) (id : Int) (pfx : Nat) (s : Shared) : Turn → Shared
  | .copier =>
    match s.pc with
    | .read =>
      match s.rs with
      | [] => s
      | r :: rs =>
        if r.err then { s with rs := rs, pc := .done }
        else if r.data.length = 0 then { s with rs := rs, pc := .done }
        else if bufSize < r.data.length then { s with rs := rs, pc := .done }
        else { s with rs := rs, b := r.data ++ s.b.drop r.data.length, pc := .send r.data.length }
    | .send n =>
      match s.ranging with
      | some _ => s
      | none =>
        { s with
          st := (outputStep cfg s.st (.data id pfx [])).1
          sink := s.sink ++ (outputStep cfg s.st (.data id pfx [])).2
          ranging := some (n, 0)
          submitted := s.submitted ++ [s.b.take n]
          pc := .write n }
    | .write n =>
      { s with
        forwarded := s.forwarded ++ accepted (writeLoop (s.b.take n) s.ws).1
        ws := (writeLoop (s.b.take n) s.ws).2.2
        pc := if (writeLoop (s.b.take n) s.ws).2.1 = none then .read else .done }
    | .done => s
  | .mux =>
    match s.ranging with
    | none => s
    | some (n, i) =>
      if i < n then
        { s with
          st := (outputStep cfg s.st (.data id pfx [s.b.getD i 0])).1
          sink := s.sink ++ (outputStep cfg s.st (.data id pfx [s.b.getD i 0])).2
          ranged := s.ranged ++ [s.b.getD i 0]
          ranging := some (n, i + 1) }
      else { s with ranging := none }

/-- The steps of a schedule, one after the other. -/
def sharedRun (cfg : Config) (id : Int) (pfx : Nat) : Shared → List Turn → Shared
  | s, [] => s
  | s, t :: ts => sharedRun cfg id pfx (sharedStep cfg id pfx s t) ts

/-- The start: `b := make([]byte, 4*1024)`, `output` in `select` with no context. -/
def sharedInit (rs : List ReadResult) (ws : List WriteResult) : Shared :=
  { b := List.replicate bufSize 0, pc := .read, rs := rs, ws := ws, st := outputState.init,
    ranging := none, sink := [], submitted := [], ranged := [], forwarded := [] }

/-! ## The label of a line -/

/-- The label of the lines of a message: `makePrefix(msg.id, '*')` for a comment,
`makePrefix(msg.id, msg.prefix)` for a data message. -/
def msgLabel : Msg → Bytes
  | .comment id _ => makePrefix id star
  | .data id d _ => makePrefix id d

/-- The label of the lines of a block. -/
def blockLabel : Block → Bytes
  | .comment id _ => makePrefix id star
  | .context id d _ => makePrefix id d

/-- The lines `ls` all start with the label `p` and its space; the piece after the last
newline may be empty instead. -/
def labelled (p : Bytes) (ls : List Bytes) : Prop :=
  (∀ l ∈ ls.dropLast, (p ++ [32]) <+: l) ∧ (∀ l ∈ ls.getLast?, l = [] ∨ (p ++ [32]) <+: l)

/-! ## Lemmas on the hex renderer -/

theorem fmtC_dotChar (c : Nat) : fmtC (dotChar c) = [dotChar c] := by
  have h : dotChar c < 128 := by
    unfold dotChar
    split_ifs <;> omega
  have h2 : dotChar c % 256 = dotChar c := Nat.mod_eq_of_lt (by omega)
  simp [fmtC, utf8, h2, h]

theorem flatMap_fmtC_dotChar (b : Bytes) : (b.map dotChar).flatMap fmtC = b.map dotChar := by
  induction b with
  | nil => rfl
  | cons c b ih => simp [List.flatMap_cons, fmtC_dotChar, ih]

theorem hexCols_append (a b : Bytes) : hexCols (a ++ b) = hexCols a ++ hexCols b := by
  simp [hexCols, List.flatMap_append]

theorem hexCols_single (ch : Nat) : hexCols [ch] = [32] ++ fmtHex2 ch := by
  simp [hexCols]

theorem flush_nonempty (lw : hexLineWriter) (h : 0 < lw.buf.length) :
    lw.flush = ({ lw with buf := [] },
      blanks (lw.cap - lw.buf.length) ++ [32] ++ lw.buf.map dotChar ++ [10]) := by
  simp [hexLineWriter.flush, h, flatMap_fmtC_dotChar]

theorem flush_empty (lw : hexLineWriter) (h : lw.buf.length = 0) : lw.flush = (lw, [10]) := by
  simp [hexLineWriter.flush, h]

theorem writeByte_full (cfg : Config) (hN : 1 ≤ cfg.columnWidth) (lw : hexLineWriter)
    (hc : lw.cap = cfg.columnWidth) (hl : lw.buf.length = cfg.columnWidth) (ch : Nat) :
    lw.writeByte cfg ch =
      ({ lw with buf := [ch] },
        [32] ++ lw.buf.map dotChar ++ [10] ++ (lw.pfx ++ [32]) ++ ([32] ++ fmtHex2 ch)) := by
  have hpos : 0 < lw.buf.length := by omega
  have hcap : 0 < lw.cap := by omega
  have hz : lw.cap - lw.buf.length = 0 := by omega
  unfold hexLineWriter.writeByte
  rw [if_pos hl, flush_nonempty lw hpos, hz]
  simp [hexLineWriter.push, blanks, hcap]

theorem writeByte_room (cfg : Config) (lw : hexLineWriter)
    (hc : lw.cap = cfg.columnWidth) (hl : lw.buf.length < cfg.columnWidth) (ch : Nat) :
    lw.writeByte cfg ch =
      ({ lw with buf := lw.buf ++ [ch] },
        (if lw.buf.length = 0 then lw.pfx ++ [32] else []) ++ ([32] ++ fmtHex2 ch)) := by
  have hne : lw.buf.length ≠ cfg.columnWidth := by omega
  have hlt : lw.buf.length < lw.cap := by omega
  simp [hexLineWriter.writeByte, hexLineWriter.push, hne, hlt]

theorem lastBuf_length (n : Nat) (hn : 1 ≤ n) :
    ∀ (b buf : Bytes), buf.length ≤ n → (lastBuf n buf b).length ≤ n := by
  intro b
  induction b with
  | nil => intro buf h; simpa [lastBuf] using h
  | cons ch rest ih =>
    intro buf h
    by_cases hfull : buf.length = n
    · simp only [lastBuf, if_pos hfull]
      exact ih [ch] (by simpa using hn)
    · simp only [lastBuf, if_neg hfull]
      exact ih (buf ++ [ch]) (by simp; omega)

theorem write_state (cfg : Config) (hN : 1 ≤ cfg.columnWidth) :
    ∀ (b : Bytes) (lw : hexLineWriter), lw.cap = cfg.columnWidth →
      lw.buf.length ≤ cfg.columnWidth →
      (lw.write cfg b).1 = { lw with buf := lastBuf cfg.columnWidth lw.buf b } := by
  intro b
  induction b with
  | nil => intro lw _ _; rfl
  | cons ch rest ih =>
    intro lw hc hl
    by_cases hfull : lw.buf.length = cfg.columnWidth
    · have h1 := writeByte_full cfg hN lw hc hfull ch
      simp only [hexLineWriter.write, h1, lastBuf, if_pos hfull]
      exact ih { lw with buf := [ch] } hc (by simpa using hN)
    · have h1 := writeByte_room cfg lw hc (by omega) ch
      simp only [hexLineWriter.write, h1, lastBuf, if_neg hfull]
      exact ih { lw with buf := lw.buf ++ [ch] } hc (by simp; omega)

theorem partialLine_single (p : Bytes) (ch : Nat) :
    partialLine p [ch] = p ++ [32] ++ ([32] ++ fmtHex2 ch) := by
  simp [partialLine, hexCols_single]

theorem partialLine_snoc (p buf : Bytes) (ch : Nat) :
    partialLine p (buf ++ [ch]) =
      partialLine p buf ++ ((if buf.length = 0 then p ++ [32] else []) ++ ([32] ++ fmtHex2 ch)) := by
  by_cases h0 : buf.length = 0
  · have hnil : buf = [] := List.length_eq_zero.mp h0
    simp [partialLine, hnil, hexCols_single]
  · simp [partialLine, h0, hexCols_append, hexCols_single]

theorem partialLine_full (n : Nat) (hn : 1 ≤ n) (p buf : Bytes) (h : buf.length = n) :
    partialLine p buf ++ ([32] ++ buf.map dotChar ++ [10]) = rowLine n p buf ++ [10] := by
  subst h
  have hne : buf.length ≠ 0 := by omega
  simp [partialLine, hne, rowLine, blanks]

theorem write_out (cfg : Config) (hN : 1 ≤ cfg.columnWidth) :
    ∀ (b : Bytes) (lw : hexLineWriter), lw.cap = cfg.columnWidth →
      lw.buf.length ≤ cfg.columnWidth →
      partialLine lw.pfx lw.buf ++ (lw.write cfg b).2 =
        (fullRows cfg.columnWidth lw.buf b).flatMap
            (fun c => rowLine cfg.columnWidth lw.pfx c ++ [10]) ++
          partialLine lw.pfx (lastBuf cfg.columnWidth lw.buf b) := by
  intro b
  induction b with
  | nil => intro lw _ _; simp [hexLineWriter.write, fullRows, lastBuf]
  | cons ch rest ih =>
    intro lw hc hl
    by_cases hfull : lw.buf.length = cfg.columnWidth
    · have h1 := writeByte_full cfg hN lw hc hfull ch
      have ih1 := ih { lw with buf := [ch] } hc (by simpa using hN)
      simp only [hexLineWriter.write, h1, lastBuf, fullRows, if_pos hfull, List.flatMap_cons]
      simp only [List.append_assoc] at ih1 ⊢
      have key := partialLine_full cfg.columnWidth hN lw.pfx lw.buf hfull
      simp only [List.append_assoc] at key
      rw [← ih1, partialLine_single]
      simp only [List.append_assoc]
      rw [← List.append_assoc (rowLine _ _ _), ← key]
      simp
    · have h1 := writeByte_room cfg lw hc (by omega) ch
      have ih1 := ih { lw with buf := lw.buf ++ [ch] } hc (by simp; omega)
      simp only [hexLineWriter.write, h1, lastBuf, fullRows, if_neg hfull]
      simp only [List.append_assoc] at ih1 ⊢
      rw [← ih1, partialLine_snoc]
      simp

theorem fullRows_flatten (n : Nat) :
    ∀ (b buf : Bytes), (fullRows n buf b).flatten ++ lastBuf n buf b = buf ++ b := by
  intro b
  induction b with
  | nil => intro buf; simp [fullRows, lastBuf]
  | cons ch rest ih =>
    intro buf
    by_cases hfull : buf.length = n
    · simp only [fullRows, lastBuf, if_pos hfull, List.flatten_cons, List.append_assoc]
      rw [ih [ch]]
      simp
    · simp only [fullRows, lastBuf, if_neg hfull]
      rw [ih (buf ++ [ch])]
      simp

theorem fullRows_length (n : Nat) :
    ∀ (b buf : Bytes), ∀ c ∈ fullRows n buf b, c.length = n := by
  intro b
  induction b with
  | nil => intro buf c hc; simp [fullRows] at hc
  | cons ch rest ih =>
    intro buf c hc
    by_cases hfull : buf.length = n
    · simp only [fullRows, if_pos hfull, List.mem_cons] at hc
      rcases hc with rfl | hc
      · exact hfull
      · exact ih [ch] c hc
    · simp only [fullRows, if_neg hfull] at hc
      exact ih (buf ++ [ch]) c hc

theorem lastBuf_ne_nil (n : Nat) :
    ∀ (b buf : Bytes), buf ≠ [] ∨ b ≠ [] → lastBuf n buf b ≠ [] := by
  intro b
  induction b with
  | nil => intro buf h; simpa [lastBuf] using h
  | cons ch rest ih =>
    intro buf _
    by_cases hfull : buf.length = n
    · simp only [lastBuf, if_pos hfull]
      exact ih [ch] (Or.inl (by simp))
    · simp only [lastBuf, if_neg hfull]
      exact ih (buf ++ [ch]) (Or.inl (by simp))

theorem splitOn_ne_nil (sep : Nat) : ∀ (l : Bytes), splitOn sep l ≠ [] := by
  intro l
  induction l with
  | nil => simp [splitOn]
  | cons c rest ih =>
    unfold splitOn
    split_ifs
    · simp
    · split <;> simp

theorem splitOn_append_sep (sep : Nat) :
    ∀ (l rest : Bytes), sep ∉ l → splitOn sep (l ++ sep :: rest) = l :: splitOn sep rest := by
  intro l
  induction l with
  | nil => intro rest _; simp [splitOn]
  | cons c l ih =>
    intro rest h
    have hc : c ≠ sep := fun e => h (by simp [e])
    have hl : sep ∉ l := fun e => h (by simp [e])
    have e := ih rest hl
    show splitOn sep (c :: (l ++ sep :: rest)) = _
    rw [splitOn, if_neg hc, e]

theorem hexDigit_ne_newline (d : Nat) : hexDigit d ≠ 10 := by
  unfold hexDigit
  split_ifs <;> omega

theorem hexDigit_ne_space (d : Nat) : hexDigit d ≠ 32 := by
  unfold hexDigit
  split_ifs <;> omega

theorem newline_not_mem_hexCols (b : Bytes) : 10 ∉ hexCols b := by
  intro h
  obtain ⟨c, _, hc⟩ := List.mem_flatMap.mp h
  have h1 := hexDigit_ne_newline (c / 16 % 16)
  have h2 := hexDigit_ne_newline (c % 16)
  simp [fmtHex2] at hc
  rcases hc with hc | hc
  · exact h1 hc.symm
  · exact h2 hc.symm

theorem dotChar_ne_newline (c : Nat) : dotChar c ≠ 10 := by
  unfold dotChar
  split_ifs <;> omega

theorem newline_not_mem_rowLine (n : Nat) (p c : Bytes) (hp : 10 ∉ p) : 10 ∉ rowLine n p c := by
  have h1 := newline_not_mem_hexCols c
  have h2 : 10 ∉ c.map dotChar := by
    intro h
    obtain ⟨x, _, hx⟩ := List.mem_map.mp h
    exact dotChar_ne_newline x hx
  have h3 : 10 ∉ blanks (n - c.length) := by
    intro h
    have := List.eq_of_mem_replicate h
    omega
  simp [rowLine, hp, h1, h2, h3]

theorem dropLabel_append : ∀ (p l : Bytes), dropLabel p (p ++ l) = some l := by
  intro p
  induction p with
  | nil => intro l; cases l <;> rfl
  | cons a p ih => intro l; simp [dropLabel, ih]

theorem hexVal_hexDigit (d : Nat) (h : d < 16) : hexVal (hexDigit d) = some d := by
  unfold hexVal hexDigit
  by_cases h10 : d < 10
  · have h1 : 48 ≤ 48 + d ∧ 48 + d ≤ 57 := by omega
    simp [h10, h1]
  · have h1 : ¬ (48 ≤ 87 + d ∧ 87 + d ≤ 57) := by omega
    have h2 : 97 ≤ 87 + d ∧ 87 + d ≤ 102 := by omega
    simp [h10, h1, h2]

theorem hexVal_space : hexVal 32 = none := by decide

theorem decodeCols_blanks (n : Nat) (t : Bytes) (h : 1 ≤ n) (m : Nat) :
    decodeCols m (blanks n ++ t) = [] := by
  obtain ⟨k, rfl⟩ : ∃ k, n = k + 1 := ⟨n - 1, by omega⟩
  cases m with
  | zero => rfl
  | succ m =>
    have : blanks (k + 1) = 32 :: 32 :: 32 :: blanks k := by
      simp [blanks, Nat.mul_add, List.replicate_succ]
    rw [this]
    simp [decodeCols, hexVal_space]

theorem decodeCols_hexCols :
    ∀ (c : Bytes) (n : Nat) (t : Bytes), c.length ≤ n → (∀ x ∈ c, x < 256) →
      decodeCols n (hexCols c ++ (blanks (n - c.length) ++ t)) = c := by
  intro c
  induction c with
  | nil =>
    intro n t _ _
    cases n with
    | zero => rfl
    | succ n => simpa [hexCols] using decodeCols_blanks (n + 1) t (by omega) (n + 1)
  | cons x c ih =>
    intro n t hl hb
    obtain ⟨k, rfl⟩ : ∃ k, n = k + 1 := ⟨n - 1, by simp at hl; omega⟩
    have hx : x < 256 := hb x (by simp)
    have h1 := hexVal_hexDigit (x / 16 % 16) (Nat.mod_lt _ (by decide))
    have h2 := hexVal_hexDigit (x % 16) (Nat.mod_lt _ (by decide))
    have e : hexCols (x :: c) = 32 :: hexDigit (x / 16 % 16) :: hexDigit (x % 16) :: hexCols c := by
      simp [hexCols, fmtHex2]
    have hk : k + 1 - (x :: c).length = k - c.length := by simp
    rw [e, hk]
    simp only [List.cons_append, decodeCols, h1, h2, if_true, List.append_eq]
    rw [ih k t (by simp at hl; omega) (fun y hy => hb y (by simp [hy]))]
    congr 1
    omega

theorem decodeRow_rowLine (n : Nat) (p c : Bytes) (hl : c.length ≤ n) (hb : ∀ x ∈ c, x < 256) :
    decodeRow n p (rowLine n p c) = c := by
  have e : rowLine n p c = (p ++ [32]) ++ (hexCols c ++ (blanks (n - c.length) ++
      ([32] ++ c.map dotChar))) := by
    simp [rowLine]
  rw [decodeRow, e, dropLabel_append]
  exact decodeCols_hexCols c n _ hl hb

theorem decodeRow_nil (n : Nat) (p : Bytes) : decodeRow n p [] = [] := by
  cases p <;> simp [decodeRow, dropLabel]

theorem lines_rows (n : Nat) (p : Bytes) (hp : 10 ∉ p) :
    ∀ (rows : List Bytes) (t : Bytes),
      lines (rows.flatMap (fun c => rowLine n p c ++ [10]) ++ t) =
        rows.map (rowLine n p) ++ lines t := by
  intro rows
  induction rows with
  | nil => intro t; simp
  | cons c rows ih =>
    intro t
    have h := newline_not_mem_rowLine n p c hp
    have e : (c :: rows).flatMap (fun c => rowLine n p c ++ [10]) ++ t =
        rowLine n p c ++ 10 :: (rows.flatMap (fun c => rowLine n p c ++ [10]) ++ t) := by
      simp
    rw [e]
    unfold lines at ih ⊢
    rw [splitOn_append_sep 10 _ _ h, ih t]
    simp

theorem decode_rows (n : Nat) (p : Bytes) :
    ∀ (rows : List Bytes), (∀ c ∈ rows, c.length ≤ n ∧ ∀ x ∈ c, x < 256) →
      (rows.map (rowLine n p)).flatMap (decodeRow n p) = rows.flatten := by
  intro rows
  induction rows with
  | nil => intro _; rfl
  | cons c rows ih =>
    intro h
    have hc := h c (by simp)
    simp only [List.map_cons, List.flatMap_cons, List.flatten_cons]
    rw [decodeRow_rowLine n p c hc.1 hc.2, ih (fun d hd => h d (by simp [hd]))]

theorem write_append (cfg : Config) :
    ∀ (a b : Bytes) (lw : hexLineWriter),
      lw.write cfg (a ++ b) =
        (((lw.write cfg a).1.write cfg b).1, (lw.write cfg a).2 ++ ((lw.write cfg a).1.write cfg b).2) := by
  intro a
  induction a with
  | nil => intro b lw; simp [hexLineWriter.write]
  | cons ch a ih =>
    intro b lw
    simp only [List.cons_append, hexLineWriter.write, List.append_eq, ih, List.append_assoc]

theorem writes_eq_write (cfg : Config) :
    ∀ (bs : List Bytes) (lw : hexLineWriter), lw.writes cfg bs = lw.write cfg bs.flatten := by
  intro bs
  induction bs with
  | nil => intro lw; rfl
  | cons b bs ih =>
    intro lw
    simp only [hexLineWriter.writes, List.flatten_cons, write_append, ih]

theorem mem_fullRows (n : Nat) (b buf c : Bytes) (x : Nat) (hc : c ∈ fullRows n buf b)
    (hx : x ∈ c) : x ∈ buf ++ b := by
  rw [← fullRows_flatten n b buf]
  exact List.mem_append_left _ (List.mem_flatten.mpr ⟨c, hc, hx⟩)

theorem mem_lastBuf (n : Nat) (b buf : Bytes) (x : Nat) (hx : x ∈ lastBuf n buf b) :
    x ∈ buf ++ b := by
  rw [← fullRows_flatten n b buf]
  exact List.mem_append_right _ hx

/-- The whole text of a hex context: what was already on the open row, what `write` adds
for `b`, and what the closing `flush` adds, is the sequence of the finished rows. -/
theorem hex_context_text (cfg : Config) (hN : 1 ≤ cfg.columnWidth) (lw : hexLineWriter)
    (hc : lw.cap = cfg.columnWidth) (hl : lw.buf.length ≤ cfg.columnWidth) (b : Bytes) :
    partialLine lw.pfx lw.buf ++ (lw.write cfg b).2 ++ ((lw.write cfg b).1.flush).2 =
      if (lastBuf cfg.columnWidth lw.buf b).length = 0 then
        (fullRows cfg.columnWidth lw.buf b).flatMap
          (fun c => rowLine cfg.columnWidth lw.pfx c ++ [10]) ++ [10]
      else
        (fullRows cfg.columnWidth lw.buf b ++ [lastBuf cfg.columnWidth lw.buf b]).flatMap
          (fun c => rowLine cfg.columnWidth lw.pfx c ++ [10]) := by
  rw [write_out cfg hN b lw hc hl, write_state cfg hN b lw hc hl]
  by_cases h0 : (lastBuf cfg.columnWidth lw.buf b).length = 0
  · rw [if_pos h0, flush_empty _ h0]
    simp [partialLine, h0]
  · rw [if_neg h0, flush_nonempty _ (by simpa [Nat.pos_iff_ne_zero] using h0)]
    simp [partialLine, h0, rowLine, hc, List.flatMap_append]

theorem lines_newline : lines [10] = [[], []] := by decide

theorem lines_nil : lines [] = [[]] := by decide

theorem hex_decode_from (cfg : Config) (hN : 1 ≤ cfg.columnWidth) (lw : hexLineWriter)
    (hp : 10 ∉ lw.pfx) (hc : lw.cap = cfg.columnWidth) (hl : lw.buf.length ≤ cfg.columnWidth)
    (b : Bytes) (hb : ∀ x ∈ lw.buf ++ b, x < 256) :
    decodeHex cfg.columnWidth lw.pfx
        (partialLine lw.pfx lw.buf ++ (lw.write cfg b).2 ++ ((lw.write cfg b).1.flush).2) =
      lw.buf ++ b := by
  have hrows : ∀ c ∈ fullRows cfg.columnWidth lw.buf b,
      c.length ≤ cfg.columnWidth ∧ ∀ x ∈ c, x < 256 := fun c hc1 =>
    ⟨le_of_eq (fullRows_length _ b lw.buf c hc1),
      fun x hx => hb x (mem_fullRows _ b lw.buf c x hc1 hx)⟩
  have hlast : (lastBuf cfg.columnWidth lw.buf b).length ≤ cfg.columnWidth ∧
      ∀ x ∈ lastBuf cfg.columnWidth lw.buf b, x < 256 :=
    ⟨lastBuf_length _ hN b lw.buf hl, fun x hx => hb x (mem_lastBuf _ b lw.buf x hx)⟩
  rw [hex_context_text cfg hN lw hc hl b, decodeHex]
  by_cases h0 : (lastBuf cfg.columnWidth lw.buf b).length = 0
  · rw [if_pos h0, lines_rows _ _ hp, lines_newline, List.flatMap_append, decode_rows _ _ _ hrows]
    have e := fullRows_flatten cfg.columnWidth b lw.buf
    rw [List.length_eq_zero.mp h0] at e
    simp [decodeRow_nil] at e ⊢
    exact e
  · have e0 := lines_rows cfg.columnWidth lw.pfx hp
      (fullRows cfg.columnWidth lw.buf b ++ [lastBuf cfg.columnWidth lw.buf b]) []
    rw [List.append_nil] at e0
    rw [if_neg h0, e0, lines_nil, List.flatMap_append, decode_rows]
    · simp [decodeRow_nil, fullRows_flatten]
    · intro c hc1
      rcases List.mem_append.mp hc1 with h | h
      · exact hrows c h
      · rw [List.mem_singleton.mp h]
        exact hlast

/-! ## C2: the hex columns read back give the bytes written -/

/-- C2. Hex-mode round trip: with a column width of at least 1 and a label without a
newline, the bytes of the chunks `bs`, written to a fresh `hexLineWriter` by one `write`
per chunk and then flushed, are read back exactly and in order from the hex columns of the
rows (label and space removed, at most `columnWidth` columns decoded per row, padding and
ASCII column left out). -/
theorem hex_round_trip (cfg : Config) (hN : 1 ≤ cfg.columnWidth) (p : Bytes) (hp : 10 ∉ p)
    (bs : List Bytes) (hb : ∀ b ∈ bs, ∀ x ∈ b, x < 256) :
    decodeHex cfg.columnWidth p
        (((newHexLineWriter cfg p).writes cfg bs).2 ++
          (((newHexLineWriter cfg p).writes cfg bs).1.flush).2) =
      bs.flatten := by
  have hb2 : ∀ x ∈ (newHexLineWriter cfg p).buf ++ bs.flatten, x < 256 := by
    intro x hx
    simp only [newHexLineWriter, List.nil_append] at hx
    obtain ⟨b, hb1, hx1⟩ := List.mem_flatten.mp hx
    exact hb b hb1 x hx1
  have h := hex_decode_from cfg hN (newHexLineWriter cfg p) hp rfl (Nat.zero_le _) bs.flatten hb2
  rw [writes_eq_write]
  simpa [newHexLineWriter, partialLine] using h

/-- C2 at width 2: "abc" written as "ab" and "c" fills one row and starts a second. -/
theorem hex_round_trip_witness :
    (1 ≤ (cfgHex 2).columnWidth ∧ 10 ∉ str "0001 |" ∧
      ∀ b ∈ [str "ab", str "c"], ∀ x ∈ b, x < 256) ∧
    decodeHex 2 (str "0001 |")
        (((newHexLineWriter (cfgHex 2) (str "0001 |")).writes (cfgHex 2) [str "ab", str "c"]).2 ++
          (((newHexLineWriter (cfgHex 2) (str "0001 |")).writes (cfgHex 2)
            [str "ab", str "c"]).1.flush).2) =
      [str "ab", str "c"].flatten :=
  ⟨⟨by decide, by decide, by decide⟩,
    hex_round_trip (cfgHex 2) (by decide) (str "0001 |") (by decide) [str "ab", str "c"]
      (by decide)⟩

/-! ## C3: the flush of a partial row -/

/-- C3. With a column width `N` of at least 1, flushing a `hexLineWriter` made for that
width whose row holds `k` bytes, `1 ≤ k ≤ N`, writes `3 * (N - k)` blanks, one space, then
`k` characters (the byte itself from 32 to 126, a dot otherwise, in the order written) and a
newline, and leaves the row buffer empty; the `3 * k` characters of the hex columns and the
padding fill the `3 * N` characters of a full row. -/
theorem hex_flush_partial_row (cfg : Config) (lw : hexLineWriter) (k : Nat)
    (hc : lw.cap = cfg.columnWidth) (hk : lw.buf.length = k) (h1 : 1 ≤ k)
    (h2 : k ≤ cfg.columnWidth) :
    lw.flush.2 =
        List.replicate (3 * (cfg.columnWidth - k)) 32 ++ [32] ++
          lw.buf.map (fun ch => if 32 ≤ ch ∧ ch ≤ 126 then ch else 46) ++ [10] ∧
      (lw.buf.map (fun ch => if 32 ≤ ch ∧ ch ≤ 126 then ch else 46)).length = k ∧
      (hexCols lw.buf).length + (List.replicate (3 * (cfg.columnWidth - k)) 32).length =
        3 * cfg.columnWidth ∧
      lw.flush.1.buf = [] ∧ lw.flush.1.pfx = lw.pfx ∧ lw.flush.1.cap = lw.cap := by
  have hpos : 0 < lw.buf.length := by omega
  have hd : ∀ ch : Nat, dotChar ch = if 32 ≤ ch ∧ ch ≤ 126 then ch else 46 := by
    intro ch
    unfold dotChar
    by_cases h : ch < 32 ∨ 126 < ch
    · have h3 : ¬ (32 ≤ ch ∧ ch ≤ 126) := by omega
      simp [h, h3]
    · have h3 : 32 ≤ ch ∧ ch ≤ 126 := by omega
      simp [h, h3]
  have hm : lw.buf.map dotChar = lw.buf.map (fun ch => if 32 ≤ ch ∧ ch ≤ 126 then ch else 46) :=
    List.map_congr_left (fun ch _ => hd ch)
  have hcols : ∀ b : Bytes, (hexCols b).length = 3 * b.length := by
    intro b
    induction b with
    | nil => rfl
    | cons c b ih =>
      have e : hexCols (c :: b) = ([32] ++ fmtHex2 c) ++ hexCols b := by simp [hexCols]
      rw [e, List.length_append, ih]
      simp [fmtHex2]
      omega
  rw [flush_nonempty lw hpos, hm, hc, hk, hcols, hk]
  refine ⟨by simp [blanks], by simp [hk], ?_, rfl, rfl, rfl⟩
  rw [List.length_replicate]
  omega

/-- C3 at width 4 after the three bytes 'a', 0x00, 'z': one column of padding, a space,
"a.z" and a newline. -/
theorem hex_flush_partial_row_witness :
    ((newHexLineWriter (cfgHex 4) (str "0001 |")).write (cfgHex 4) [97, 0, 122]).1.cap = 4 ∧
    ((newHexLineWriter (cfgHex 4) (str "0001 |")).write (cfgHex 4) [97, 0, 122]).1.buf
      = [97, 0, 122] ∧
    (((newHexLineWriter (cfgHex 4) (str "0001 |")).write (cfgHex 4) [97, 0, 122]).1.flush).2 =
      List.replicate (3 * (4 - 3)) 32 ++ [32] ++ [97, 46, 122] ++ [10] :=
  ⟨by decide, by decide,
    (hex_flush_partial_row (cfgHex 4)
      ((newHexLineWriter (cfgHex 4) (str "0001 |")).write (cfgHex 4) [97, 0, 122]).1 3
      (by decide) (by decide) (by decide) (by decide)).1⟩

/-! ## C4: the label in text mode -/

theorem text_write_append :
    ∀ (a b : Bytes) (lw : textLineWriter),
      lw.write (a ++ b) =
        (((lw.write a).1.write b).1, (lw.write a).2 ++ ((lw.write a).1.write b).2) := by
  intro a
  induction a with
  | nil => intro b lw; simp [textLineWriter.write]
  | cons ch a ih =>
    intro b lw
    simp only [List.cons_append, textLineWriter.write, List.append_eq, ih, List.append_assoc]

theorem text_writes_eq_write :
    ∀ (bs : List Bytes) (lw : textLineWriter), lw.writes bs = lw.write bs.flatten := by
  intro bs
  induction bs with
  | nil => intro lw; rfl
  | cons b bs ih =>
    intro lw
    simp only [textLineWriter.writes, List.flatten_cons, text_write_append, ih]

theorem text_write_pfx : ∀ (b : Bytes) (lw : textLineWriter), (lw.write b).1.pfx = lw.pfx := by
  intro b
  induction b with
  | nil => intro lw; rfl
  | cons ch b ih =>
    intro lw
    simp only [textLineWriter.write, ih]
    unfold textLineWriter.writeByte
    split_ifs <;> rfl

theorem text_write_snoc_pending (lw : textLineWriter) (a : Bytes) (x : Nat) :
    (lw.write (a ++ [x])).1.isPrefixWritePending = decide (x = 10) := by
  rw [text_write_append]
  simp only [textLineWriter.write, textLineWriter.writeByte]
  split_ifs <;> simp_all

theorem textOut_single (p b : Bytes) :
    textOut p [b] = p ++ [32] ++ ((newTextLineWriter p).1.write b).2 := by
  simp [textOut, textLineWriter.writes, newTextLineWriter]

theorem textOut_snoc (p a : Bytes) (x c : Nat) :
    textOut p [a ++ [x, c]] =
      textOut p [a ++ [x]] ++ (if x = 10 then p ++ [32] else []) ++ fmtC c := by
  have e : a ++ [x, c] = (a ++ [x]) ++ [c] := by simp
  have hp := text_write_pfx (a ++ [x]) (newTextLineWriter p).1
  have hq := text_write_snoc_pending (newTextLineWriter p).1 a x
  rw [textOut_single, textOut_single, e, text_write_append (a ++ [x]) [c]]
  simp only [textLineWriter.write, textLineWriter.writeByte, hq, hp]
  by_cases hx : x = 10 <;> simp [hx, newTextLineWriter]

theorem textOut_snoc_suffix (p a : Bytes) (x : Nat) : fmtC x <:+ textOut p [a ++ [x]] := by
  rw [textOut_single, text_write_append a [x]]
  simp only [textLineWriter.write, textLineWriter.writeByte, List.append_nil]
  simp only [← List.append_assoc]
  exact List.suffix_append _ _

theorem fmtC_newline : fmtC 10 = [10] := by decide

/-- C4, as amended. For every label `p` and all chunks `bs` written to a text writer made
for `p`: the output does not depend on how the bytes are split into chunks; it starts with
the label and a space, written when the writer is made, before any byte; a newline byte is
the last thing written until a further byte arrives; when a byte follows a newline, the label
and a space are written between the two; and after a byte that is no newline the next byte
follows at once. -/
theorem text_label_emission (p : Bytes) (bs : List Bytes) :
    textOut p bs = textOut p [bs.flatten] ∧
    textOut p [] = p ++ [32] ∧
    (p ++ [32]) <+: textOut p bs ∧
    (∀ a : Bytes, [10] <:+ textOut p [a ++ [10]]) ∧
    (∀ (a : Bytes) (c : Nat),
      textOut p [a ++ [10, c]] = textOut p [a ++ [10]] ++ (p ++ [32]) ++ fmtC c) ∧
    (∀ (a : Bytes) (x c : Nat), x ≠ 10 →
      textOut p [a ++ [x, c]] = textOut p [a ++ [x]] ++ fmtC c) ∧
    (∀ a b : Bytes, textOut p [a] <+: textOut p [a ++ b]) := by
  refine ⟨?_, ?_, ?_, ?_, ?_, ?_, ?_⟩
  · simp [textOut, text_writes_eq_write]
  · simp [textOut, textLineWriter.writes, newTextLineWriter]
  · exact ⟨((newTextLineWriter p).1.writes bs).2, by simp [textOut, newTextLineWriter]⟩
  · intro a
    have h := textOut_snoc_suffix p a 10
    rwa [fmtC_newline] at h
  · intro a c
    rw [textOut_snoc]
    simp
  · intro a x c hx
    rw [textOut_snoc]
    simp [hx]
  · intro a b
    rw [textOut_single, textOut_single, text_write_append a b]
    exact ⟨((((newTextLineWriter p).1.write a).1).write b).2, by simp only [List.append_assoc]⟩

/-- C4 as stated fails after a trailing newline: when "a\n" is written, the output ends
with the newline, and what follows the newline does not begin with the label. -/
theorem text_no_label_after_trailing_newline :
    textOut (str "0001 |") [str "a\n"] = str "0001 | a\n" ∧
    afterNewline (textOut (str "0001 |") [str "a\n"]) = [] ∧
    ¬ (str "0001 |" <+: afterNewline (textOut (str "0001 |") [str "a\n"])) := by
  decide

/-! ## C5: a comment closes the open context -/

theorem hex_write_cons_label (cfg : Config) (h : 1 ≤ cfg.columnWidth) (p : Bytes) (c : Nat)
    (b : Bytes) : (p ++ [32]) <+: ((newHexLineWriter cfg p).write cfg (c :: b)).2 := by
  have hne : ¬ (0 = cfg.columnWidth) := by omega
  simp only [hexLineWriter.write, hexLineWriter.writeByte, newHexLineWriter, List.length_nil,
    if_neg hne, if_true, List.nil_append]
  simp only [List.append_assoc]
  rw [← List.append_assoc]
  exact List.prefix_append _ _

/-- C5. For every state of the multiplexer and every comment `(id, msg)`: what is written
is the flush of the open context, when there is one, and then the three lines `P`,
`P ++ " " ++ msg` and `P`, with `P` the label of `id` with the marker `*`; afterwards no
context is open; the next data message is handled as by a multiplexer that never had a
context, whatever its id and direction; and (in text mode, or in hex mode with a width of
at least 1) what is written for it, when it has bytes, starts with its label. -/
theorem comment_closes_context (cfg : Config) (st : outputState) (id : Int) (msg : Bytes) :
    (outputStep cfg st (.comment id msg)).2 =
      (match st.lw with
        | some lw => lw.flush.2
        | none => []) ++
      (makePrefix id 42 ++ [10] ++ (makePrefix id 42 ++ [32] ++ msg ++ [10]) ++
        (makePrefix id 42 ++ [10])) ∧
    (outputStep cfg st (.comment id msg)).1.lw = none ∧
    (∀ (id2 : Int) (d : Nat) (b : Bytes),
      outputStep cfg (outputStep cfg st (.comment id msg)).1 (.data id2 d b) =
        outputStep cfg outputState.init (.data id2 d b)) ∧
    (∀ (id2 : Int) (d : Nat) (b : Bytes), b ≠ [] → (cfg.isText = true ∨ 1 ≤ cfg.columnWidth) →
      (makePrefix id2 d ++ [32]) <+:
        (outputStep cfg (outputStep cfg st (.comment id msg)).1 (.data id2 d b)).2) := by
  refine ⟨?_, rfl, fun _ _ _ => rfl, ?_⟩
  · simp [outputStep, star]
  · intro id2 d b hb hcfg
    obtain ⟨c, b, rfl⟩ := List.exists_cons_of_ne_nil hb
    by_cases ht : cfg.isText = true
    · simp only [outputStep, ht, if_true, lineWriter.write, newTextLineWriter]
      exact List.prefix_append _ _
    · have hN : 1 ≤ cfg.columnWidth := by
        rcases hcfg with h | h
        · exact absurd h ht
        · exact h
      simp only [outputStep, ht, lineWriter.write, List.nil_append]
      exact hex_write_cons_label cfg hN _ c b

/-- C5 at width 4: the row of "hi" is open, the comment closes it, and "yo" of the same
connection and direction starts a row of its own with the label. -/
theorem comment_closes_context_witness :
    (output (cfgHex 4) outputState.init [.data 1 124 (str "hi"), .comment 1 (str "bye")]).1.lw
      = none ∧
    rendered (cfgHex 4) [.data 1 124 (str "hi"), .comment 1 (str "bye"), .data 1 124 (str "yo")]
      = str "0001 |  68 69       hi\n0001 *\n0001 * bye\n0001 *\n0001 |  79 6f" ∧
    (makePrefix 1 124 ++ [32]) <+:
      (outputStep (cfgHex 4)
        (outputStep (cfgHex 4) (output (cfgHex 4) outputState.init [.data 1 124 (str "hi")]).1
          (.comment 1 (str "bye"))).1 (.data 1 124 (str "yo"))).2 :=
  ⟨by decide, by decide,
    (comment_closes_context (cfgHex 4)
      (output (cfgHex 4) outputState.init [.data 1 124 (str "hi")]).1 1 (str "bye")).2.2.2
      1 124 (str "yo") (by decide) (Or.inr (by decide))⟩

/-! ## C6 and C7: the copier -/

theorem accepted_append (a b : List Effect) : accepted (a ++ b) = accepted a ++ accepted b := by
  induction a with
  | nil => rfl
  | cons e a ih => cases e <;> simp [accepted, ih]

theorem writesInRange_append (a b : List Effect) :
    writesInRange (a ++ b) = (writesInRange a && writesInRange b) := by
  induction a with
  | nil => simp [writesInRange]
  | cons e a ih => cases e <;> simp [writesInRange, ih, Bool.and_assoc]

theorem writeLoop_accepted :
    ∀ (ws : List WriteResult) (b2 : Bytes),
      accepted (writeLoop b2 ws).1 <+: b2 ∧
      ((writeLoop b2 ws).2.1 = none → accepted (writeLoop b2 ws).1 = b2) := by
  intro ws
  induction ws with
  | nil =>
    intro b2
    by_cases h : b2.length > 0
    · simp [writeLoop, h, accepted]
    · have : b2 = [] := List.length_eq_zero.mp (by omega)
      simp [writeLoop, this, accepted]
  | cons w ws ih =>
    intro b2
    by_cases h : b2.length > 0
    · by_cases he : w.err = true
      · simp only [writeLoop, h, he, if_true, accepted, List.append_nil]
        exact ⟨List.take_prefix _ _, fun h => by simp at h⟩
      · by_cases hr : w.sent < 0 ∨ (b2.length : Int) < w.sent
        · simp only [writeLoop, h, he, hr, if_true, accepted, List.append_nil]
          exact ⟨List.take_prefix _ _, fun h => by simp at h⟩
        · have ih1 := ih (b2.drop w.sent.toNat)
          simp only [writeLoop, h, he, hr, if_true, if_false, accepted]
          constructor
          · obtain ⟨t, ht⟩ := ih1.1
            exact ⟨t, by rw [List.append_assoc, ht, List.take_append_drop]⟩
          · intro hn
            rw [ih1.2 hn, List.take_append_drop]
    · have : b2 = [] := List.length_eq_zero.mp (by omega)
      simp [writeLoop, this, accepted]

theorem writeLoop_exit (ws : List WriteResult) :
    ∀ (b2 : Bytes) (e : LoopExit), (writeLoop b2 ws).2.1 = some e →
      e = .writeErr ∨ e = .badWrite ∨ e = .blockedWrite := by
  induction ws with
  | nil =>
    intro b2 e h
    by_cases hb : b2.length > 0
    · simp [writeLoop, hb] at h
      simp [← h]
    · simp [writeLoop, hb] at h
  | cons w ws ih =>
    intro b2 e h
    by_cases hb : b2.length > 0
    · by_cases he : w.err = true
      · simp [writeLoop, hb, he] at h
        simp [← h]
      · by_cases hr : w.sent < 0 ∨ (b2.length : Int) < w.sent
        · simp only [writeLoop, hb, he, hr, if_true] at h
          simp at h
          simp [← h]
        · simp only [writeLoop, hb, he, hr, if_true, if_false] at h
          exact ih _ e h
    · simp [writeLoop, hb] at h

theorem writeLoop_inRange (ws : List WriteResult) :
    ∀ (b2 : Bytes), writesInRange (writeLoop b2 ws).1 = true →
      (writeLoop b2 ws).2.1 ≠ some .badWrite := by
  induction ws with
  | nil =>
    intro b2 _
    by_cases hb : b2.length > 0 <;> simp [writeLoop, hb]
  | cons w ws ih =>
    intro b2 h
    by_cases hb : b2.length > 0
    · by_cases he : w.err = true
      · simp [writeLoop, hb, he]
      · by_cases hr : w.sent < 0 ∨ (b2.length : Int) < w.sent
        · simp only [writeLoop, hb, he, hr, if_true, writesInRange] at h
          simp at h
          omega
        · simp only [writeLoop, hb, he, hr, if_true, if_false, writesInRange] at h ⊢
          simp at h
          exact ih _ h.2
    · simp [writeLoop, hb]

theorem copyLoop_accepted (id : Int) (pfx : Nat) :
    ∀ (rs : List ReadResult) (ws : List WriteResult),
      accepted (copyLoop id pfx rs ws).1 <+: chunksRead rs ∧
      ((copyLoop id pfx rs ws).2 = .readErr ∨ (copyLoop id pfx rs ws).2 = .zeroRead ∨
          (copyLoop id pfx rs ws).2 = .blockedRead →
        accepted (copyLoop id pfx rs ws).1 = chunksRead rs) := by
  intro rs
  induction rs with
  | nil => intro ws; simp [copyLoop, accepted, chunksRead]
  | cons r rs ih =>
    intro ws
    by_cases he : r.err = true
    · simp [copyLoop, he, accepted, chunksRead]
    · by_cases hz : r.data.length = 0
      · simp [copyLoop, he, hz, accepted, chunksRead]
      · by_cases hbig : bufSize < r.data.length
        · simp [copyLoop, he, hz, hbig, accepted]
        · have hw := writeLoop_accepted ws r.data
          have hc : chunksRead (r :: rs) = r.data ++ chunksRead rs := by
            simp [chunksRead, he, hz]
          rw [hc]
          cases hx : (writeLoop r.data ws).2.1 with
          | some e =>
            have hex := writeLoop_exit ws r.data e hx
            simp only [copyLoop, he, hz, hbig, if_false, hx, accepted]
            refine ⟨hw.1.trans (List.prefix_append _ _), ?_⟩
            rintro (h | h | h) <;> rcases hex with h2 | h2 | h2 <;> rw [h2] at h <;> cases h
          | none =>
            have ih1 := ih (writeLoop r.data ws).2.2
            simp only [copyLoop, he, hz, hbig, if_false, hx, accepted, accepted_append,
              hw.2 hx]
            refine ⟨(List.prefix_append_right_inj _).mpr ih1.1, ?_⟩
            intro h
            rw [ih1.2 h]

theorem copyLoop_inRange (id : Int) (pfx : Nat) :
    ∀ (rs : List ReadResult) (ws : List WriteResult),
      writesInRange (copyLoop id pfx rs ws).1 = true →
        (copyLoop id pfx rs ws).2 ≠ .badWrite := by
  intro rs
  induction rs with
  | nil => intro ws _; simp [copyLoop]
  | cons r rs ih =>
    intro ws h
    by_cases he : r.err = true
    · simp [copyLoop, he]
    · by_cases hz : r.data.length = 0
      · simp [copyLoop, he, hz]
      · by_cases hbig : bufSize < r.data.length
        · simp [copyLoop, he, hz, hbig]
        · cases hx : (writeLoop r.data ws).2.1 with
          | some e =>
            simp [copyLoop, he, hz, hbig, hx, writesInRange] at h ⊢
            have := writeLoop_inRange ws r.data h
            rw [hx] at this
            simpa using this
          | none =>
            simp [copyLoop, he, hz, hbig, hx, writesInRange, writesInRange_append] at h ⊢
            exact ih _ h.2

theorem copyLoop_no_teardown (id : Int) (pfx : Nat) :
    ∀ (rs : List ReadResult) (ws : List WriteResult),
      (copyLoop id pfx rs ws).1.filter isTeardown = [] := by
  have hw : ∀ (ws : List WriteResult) (b2 : Bytes), (writeLoop b2 ws).1.filter isTeardown = [] := by
    intro ws
    induction ws with
    | nil => intro b2; by_cases hb : b2.length > 0 <;> simp [writeLoop, hb]
    | cons w ws ih =>
      intro b2
      by_cases hb : b2.length > 0
      · by_cases he : w.err = true
        · simp [writeLoop, hb, he, isTeardown]
        · by_cases hr : w.sent < 0 ∨ (b2.length : Int) < w.sent
          · simp only [writeLoop, hb, he, hr, if_true]
            simp [isTeardown]
          · simp only [writeLoop, hb, he, hr, if_true, if_false]
            simp [isTeardown, ih]
      · simp [writeLoop, hb]
  intro rs
  induction rs with
  | nil => intro ws; simp [copyLoop]
  | cons r rs ih =>
    intro ws
    by_cases he : r.err = true
    · simp [copyLoop, he, isTeardown]
    · by_cases hz : r.data.length = 0
      · simp [copyLoop, he, hz, isTeardown]
      · by_cases hbig : bufSize < r.data.length
        · simp [copyLoop, he, hz, hbig, isTeardown]
        · cases hx : (writeLoop r.data ws).2.1 with
          | some e => simp [copyLoop, he, hz, hbig, hx, isTeardown, hw]
          | none => simp [copyLoop, he, hz, hbig, hx, isTeardown, hw, ih]

theorem doCopy_exit (id : Int) (pfx : Nat) (peerName : Bytes) (rs : List ReadResult)
    (ws : List WriteResult) : (doCopy id pfx peerName rs ws).2 = (copyLoop id pfx rs ws).2 := by
  unfold doCopy
  cases h : (copyLoop id pfx rs ws).2 <;> simp [h]

theorem doCopy_effects (id : Int) (pfx : Nat) (peerName : Bytes) (rs : List ReadResult)
    (ws : List WriteResult) :
    (doCopy id pfx peerName rs ws).1 =
      (copyLoop id pfx rs ws).1 ++
        (if (copyLoop id pfx rs ws).2 = .blockedRead ∨ (copyLoop id pfx rs ws).2 = .blockedWrite
          then [] else [.closeFrom, .closeTo, .send peerName]) := by
  unfold doCopy
  cases h : (copyLoop id pfx rs ws).2 <;> simp [h]

theorem doCopy_accepted (id : Int) (pfx : Nat) (peerName : Bytes) (rs : List ReadResult)
    (ws : List WriteResult) :
    accepted (doCopy id pfx peerName rs ws).1 = accepted (copyLoop id pfx rs ws).1 := by
  rw [doCopy_effects, accepted_append]
  split_ifs <;> simp [accepted]

theorem doCopy_inRange (id : Int) (pfx : Nat) (peerName : Bytes) (rs : List ReadResult)
    (ws : List WriteResult) :
    writesInRange (doCopy id pfx peerName rs ws).1 = writesInRange (copyLoop id pfx rs ws).1 := by
  rw [doCopy_effects, writesInRange_append]
  split_ifs <;> simp [writesInRange]

theorem noWriteError_append (a b : List Effect) :
    noWriteError (a ++ b) = (noWriteError a && noWriteError b) := by
  induction a with
  | nil => simp [noWriteError]
  | cons e a ih => cases e <;> simp [noWriteError, ih, Bool.and_assoc]

theorem writeLoop_writeErr (ws : List WriteResult) :
    ∀ (b2 : Bytes), (writeLoop b2 ws).2.1 = some .writeErr →
      noWriteError (writeLoop b2 ws).1 = false := by
  induction ws with
  | nil =>
    intro b2 h
    by_cases hb : b2.length > 0 <;> simp [writeLoop, hb] at h
  | cons w ws ih =>
    intro b2 h
    by_cases hb : b2.length > 0
    · by_cases he : w.err = true
      · simp [writeLoop, hb, he, noWriteError]
      · by_cases hr : w.sent < 0 ∨ (b2.length : Int) < w.sent
        · simp only [writeLoop, hb, he, hr, if_true] at h
          simp at h
        · simp only [writeLoop, hb, he, hr, if_true, if_false] at h ⊢
          simp [noWriteError, ih _ h]
    · simp [writeLoop, hb] at h

theorem copyLoop_writeErr (id : Int) (pfx : Nat) :
    ∀ (rs : List ReadResult) (ws : List WriteResult),
      (copyLoop id pfx rs ws).2 = .writeErr → noWriteError (copyLoop id pfx rs ws).1 = false := by
  intro rs
  induction rs with
  | nil => intro ws h; simp [copyLoop] at h
  | cons r rs ih =>
    intro ws h
    by_cases he : r.err = true
    · simp [copyLoop, he] at h
    · by_cases hz : r.data.length = 0
      · simp [copyLoop, he, hz] at h
      · by_cases hbig : bufSize < r.data.length
        · simp [copyLoop, he, hz, hbig] at h
        · cases hx : (writeLoop r.data ws).2.1 with
          | some e =>
            simp [copyLoop, he, hz, hbig, hx] at h ⊢
            rw [h] at hx
            simp [noWriteError, writeLoop_writeErr ws r.data hx]
          | none =>
            simp [copyLoop, he, hz, hbig, hx] at h ⊢
            simp [noWriteError, noWriteError_append, ih _ h]

theorem doCopy_noWriteError (id : Int) (pfx : Nat) (peerName : Bytes) (rs : List ReadResult)
    (ws : List WriteResult) :
    noWriteError (doCopy id pfx peerName rs ws).1 = noWriteError (copyLoop id pfx rs ws).1 := by
  rw [doCopy_effects, noWriteError_append]
  split_ifs <;> simp [noWriteError]

/-- C6, as amended. Byte transparency of the copier: in every run of `doCopy` in which each
`Write` reports `0 ≤ sent ≤ len(b2)`, no slice expression `b2[sent:]` is out of range, and
the bytes accepted by the write side are a prefix of the non-empty chunks read before the
first read error or zero-length read. They are all of these bytes when no `Write` has
returned an error, the copier is outside its write loop (it has returned, or it waits in
`Read`; no `Write` is still to return or to be repeated), and no `Read` reported more bytes
than the 4096 of the buffer. -/
theorem copier_byte_transparency (id : Int) (pfx : Nat) (peerName : Bytes)
    (rs : List ReadResult) (ws : List WriteResult)
    (h : writesInRange (doCopy id pfx peerName rs ws).1 = true) :
    (doCopy id pfx peerName rs ws).2 ≠ .badWrite ∧
    accepted (doCopy id pfx peerName rs ws).1 <+: chunksRead rs ∧
    (noWriteError (doCopy id pfx peerName rs ws).1 = true →
      (doCopy id pfx peerName rs ws).2 ≠ .blockedWrite →
      (doCopy id pfx peerName rs ws).2 ≠ .badRead →
      accepted (doCopy id pfx peerName rs ws).1 = chunksRead rs) := by
  rw [doCopy_inRange] at h
  rw [doCopy_exit, doCopy_accepted, doCopy_noWriteError]
  have hbad := copyLoop_inRange id pfx rs ws h
  refine ⟨hbad, (copyLoop_accepted id pfx rs ws).1, ?_⟩
  intro hne hbw hbr
  apply (copyLoop_accepted id pfx rs ws).2
  have hwe := copyLoop_writeErr id pfx rs ws
  cases hx : (copyLoop id pfx rs ws).2 with
  | readErr => exact Or.inl rfl
  | zeroRead => exact Or.inr (Or.inl rfl)
  | blockedRead => exact Or.inr (Or.inr rfl)
  | writeErr => rw [hwe hx] at hne; cases hne
  | badRead => exact absurd hx hbr
  | badWrite => exact absurd hx hbad
  | blockedWrite => exact absurd hx hbw

/-- C6 on a run with partial writes: "abc" goes out as "a", "" and "bc", "de" at once, and
the next read reports an error. -/
theorem copier_byte_transparency_witness :
    writesInRange (doCopy 52344 124 (str "client")
      [⟨str "abc", false⟩, ⟨str "de", false⟩, ⟨[], true⟩]
      [⟨1, false⟩, ⟨0, false⟩, ⟨2, false⟩, ⟨2, false⟩]).1 = true ∧
    (doCopy 52344 124 (str "client")
      [⟨str "abc", false⟩, ⟨str "de", false⟩, ⟨[], true⟩]
      [⟨1, false⟩, ⟨0, false⟩, ⟨2, false⟩, ⟨2, false⟩]).2 = .readErr ∧
    accepted (doCopy 52344 124 (str "client")
      [⟨str "abc", false⟩, ⟨str "de", false⟩, ⟨[], true⟩]
      [⟨1, false⟩, ⟨0, false⟩, ⟨2, false⟩, ⟨2, false⟩]).1 =
      chunksRead [⟨str "abc", false⟩, ⟨str "de", false⟩, ⟨[], true⟩] ∧
    chunksRead [⟨str "abc", false⟩, ⟨str "de", false⟩, ⟨[], true⟩] = str "abcde" :=
  ⟨by decide, by decide,
    (copier_byte_transparency 52344 124 (str "client")
      [⟨str "abc", false⟩, ⟨str "de", false⟩, ⟨[], true⟩]
      [⟨1, false⟩, ⟨0, false⟩, ⟨2, false⟩, ⟨2, false⟩] (by decide)).2.2
        (by decide) (by decide) (by decide),
    by decide⟩

/-- A write side that answers every `Write` with 0 bytes and no error: the write loop calls
it again with the same slice every time, however many answers there are, and does not
end. -/
theorem writeLoop_stalled (b2 : Bytes) (hb : b2 ≠ []) (k : Nat) :
    writeLoop b2 (List.replicate k ⟨0, false⟩) =
      (List.replicate k (.write b2 0 false), some .blockedWrite, []) := by
  have hlen : b2.length > 0 := List.length_pos.mpr hb
  induction k with
  | zero => simp [writeLoop, hlen]
  | succ k ih => simp [List.replicate_succ, writeLoop, hlen, ih]

/-- A `Read` that reports more bytes than the buffer holds and no error: the slice
expression `b[:n]` panics, before the chunk is submitted or written. -/
theorem copyLoop_oversize (id : Int) (pfx : Nat) (r : ReadResult) (rs : List ReadResult)
    (ws : List WriteResult) (he : r.err = false) (hbig : bufSize < r.data.length) :
    copyLoop id pfx (r :: rs) ws = ([.read r], .badRead) := by
  have h0 : ¬ r.data.length = 0 := by omega
  simp [copyLoop, he, h0, hbig]

/-- C6 as stated fails when a `Write` stalls: the copier reads "ab", and the write side
answers `Write` with 0 bytes and no error, twice. Every `Write` is within
`0 ≤ sent ≤ len(b2)` and none returns an error, yet nothing has been accepted, so the
accepted bytes are not the chunk read; the copier is still inside its write loop. It fails
as well for a `Read` that reports 4097 bytes: `b[:n]` panics, no `Write` is called, and
nothing of the chunk is accepted. -/
theorem stalled_write_leaves_chunk_unsent :
    (writesInRange (doCopy 52344 124 (str "client") [⟨str "ab", false⟩]
        [⟨0, false⟩, ⟨0, false⟩]).1 = true ∧
      noWriteError (doCopy 52344 124 (str "client") [⟨str "ab", false⟩]
        [⟨0, false⟩, ⟨0, false⟩]).1 = true ∧
      accepted (doCopy 52344 124 (str "client") [⟨str "ab", false⟩]
        [⟨0, false⟩, ⟨0, false⟩]).1 = [] ∧
      chunksRead [⟨str "ab", false⟩] = str "ab" ∧
      accepted (doCopy 52344 124 (str "client") [⟨str "ab", false⟩]
        [⟨0, false⟩, ⟨0, false⟩]).1 ≠ chunksRead [⟨str "ab", false⟩] ∧
      (doCopy 52344 124 (str "client") [⟨str "ab", false⟩]
        [⟨0, false⟩, ⟨0, false⟩]).2 = .blockedWrite) ∧
    (doCopy 52344 124 (str "client") [⟨List.replicate 4097 65, false⟩] []).1 =
        [.read ⟨List.replicate 4097 65, false⟩, .closeFrom, .closeTo, .send (str "client")] ∧
      (doCopy 52344 124 (str "client") [⟨List.replicate 4097 65, false⟩] []).2 = .badRead ∧
      accepted (doCopy 52344 124 (str "client") [⟨List.replicate 4097 65, false⟩] []).1 = [] ∧
      chunksRead [⟨List.replicate 4097 65, false⟩] = List.replicate 4097 65 := by
  have hbig : bufSize < (ReadResult.mk (List.replicate 4097 65) false).data.length := by
    show 4 * 1024 < (List.replicate 4097 65).length
    rw [List.length_replicate]
    decide
  have hc := copyLoop_oversize 52344 124 ⟨List.replicate 4097 65, false⟩ [] [] rfl hbig
  have hd : doCopy 52344 124 (str "client") [⟨List.replicate 4097 65, false⟩] [] =
      ([.read ⟨List.replicate 4097 65, false⟩, .closeFrom, .closeTo, .send (str "client")],
        .badRead) := by
    simp only [doCopy, hc, List.singleton_append]
  have hn : ¬ (List.replicate 4097 65).length = 0 := by
    rw [List.length_replicate]
    decide
  refine ⟨by decide, ?_, ?_, ?_, ?_⟩
  · rw [hd]
  · rw [hd]
  · rw [hd]
    rfl
  · simp only [chunksRead, Bool.false_eq_true, false_or, if_neg hn, List.append_nil]

/-- C7. Whenever the loop of `doCopy` ends by one of its three `return`s (read error,
zero-length read, write error), the effects of `doCopy` end with `from.Close()`,
`to.Close()` and the send of its own `peerName`, in this order, and these are the only
closes and the only send of the run. -/
theorem copier_teardown (id : Int) (pfx : Nat) (peerName : Bytes)
    (rs : List ReadResult) (ws : List WriteResult)
    (h : (doCopy id pfx peerName rs ws).2 = .readErr ∨
      (doCopy id pfx peerName rs ws).2 = .zeroRead ∨
      (doCopy id pfx peerName rs ws).2 = .writeErr) :
    (doCopy id pfx peerName rs ws).1 =
      (copyLoop id pfx rs ws).1 ++ [.closeFrom, .closeTo, .send peerName] ∧
    (doCopy id pfx peerName rs ws).1.filter isTeardown =
      [.closeFrom, .closeTo, .send peerName] := by
  rw [doCopy_exit] at h
  have hnb : ¬ ((copyLoop id pfx rs ws).2 = .blockedRead ∨
      (copyLoop id pfx rs ws).2 = .blockedWrite) := by
    rintro (h2 | h2) <;> rw [h2] at h <;> simp at h
  rw [doCopy_effects, if_neg hnb]
  refine ⟨rfl, ?_⟩
  rw [List.filter_append, copyLoop_no_teardown]
  simp [isTeardown]

/-- C7 on the three ways out: a read error, a zero-length read, and an error of `Write`
after a partial write. -/
theorem copier_teardown_witness :
    (doCopy 52344 124 (str "client") [⟨str "abc", false⟩, ⟨[], true⟩] [⟨3, false⟩]).1.filter
        isTeardown = [.closeFrom, .closeTo, .send (str "client")] ∧
    (doCopy 52344 45 (str "server") [⟨str "abc", false⟩, ⟨[], false⟩] [⟨3, false⟩]).1.filter
        isTeardown = [.closeFrom, .closeTo, .send (str "server")] ∧
    (doCopy 52344 45 (str "server") [⟨str "abc", false⟩] [⟨1, false⟩, ⟨1, true⟩]).1.filter
        isTeardown = [.closeFrom, .closeTo, .send (str "server")] :=
  ⟨(copier_teardown 52344 124 (str "client") [⟨str "abc", false⟩, ⟨[], true⟩] [⟨3, false⟩]
      (Or.inl (by decide))).2,
    (copier_teardown 52344 45 (str "server") [⟨str "abc", false⟩, ⟨[], false⟩] [⟨3, false⟩]
      (Or.inr (Or.inl (by decide)))).2,
    (copier_teardown 52344 45 (str "server") [⟨str "abc", false⟩] [⟨1, false⟩, ⟨1, true⟩]
      (Or.inr (Or.inr (by decide)))).2⟩

/-! ## C8 and C9: the handler -/

/-- C8. When `net.Dial` fails (for a client whose remote address yields the id `id`),
`serve` submits the client-connected comment, dials, submits the dial-failure comment and
closes the client connection, and nothing else: two comments, no copier, hence no data. -/
theorem serve_dial_failure (remoteAddr raddr e : Bytes) (done : Option Bytes) (id : Int)
    (h : connId remoteAddr = .ok id) :
    serve remoteAddr raddr (.error e) done =
      [.writeComment id (str "client connected (" ++ remoteAddr ++ str ")"),
        .dial raddr,
        .writeComment id (str "failed to connect to server: " ++ e),
        .closeClient] ∧
    ((serve remoteAddr raddr (.error e) done).filter isComment).length = 2 ∧
    (serve remoteAddr raddr (.error e) done).filter isGoCopy = [] ∧
    (serve remoteAddr raddr (.error e) done).getLast? = some .closeClient := by
  have e1 : serve remoteAddr raddr (.error e) done =
      [.writeComment id (str "client connected (" ++ remoteAddr ++ str ")"),
        .dial raddr,
        .writeComment id (str "failed to connect to server: " ++ e),
        .closeClient] := by
    simp [serve, h]
  rw [e1]
  simp [isComment, isGoCopy]

/-- C8 for the client 127.0.0.1:52344 and the error text "refused". -/
theorem serve_dial_failure_witness :
    connId (str "127.0.0.1:52344") = .ok 52344 ∧
    serve (str "127.0.0.1:52344") (str "10.0.0.9:80") (.error (str "refused")) none =
      [.writeComment 52344 (str "client connected (127.0.0.1:52344)"),
        .dial (str "10.0.0.9:80"),
        .writeComment 52344 (str "failed to connect to server: refused"),
        .closeClient] :=
  ⟨by decide,
    by simpa [str, utf8] using
      (serve_dial_failure (str "127.0.0.1:52344") (str "10.0.0.9:80") (str "refused") none 52344
        (by decide)).1⟩

theorem splitOn_no_sep (sep : Nat) : ∀ (l : Bytes), sep ∉ l → splitOn sep l = [l] := by
  intro l
  induction l with
  | nil => intro _; rfl
  | cons c l ih =>
    intro h
    have hc : c ≠ sep := fun e => h (by simp [e])
    have hl : sep ∉ l := fun e => h (by simp [e])
    rw [splitOn, if_neg hc, ih hl]

theorem decimalAux_digits :
    ∀ (f n : Nat) (acc : Bytes), ∀ x ∈ decimalAux f n acc, x ∈ acc ∨ (48 ≤ x ∧ x ≤ 57) := by
  intro f
  induction f with
  | zero => intro n acc x hx; exact Or.inl (by simpa [decimalAux] using hx)
  | succ f ih =>
    intro n acc x hx
    by_cases hn : n < 10
    · simp only [decimalAux, if_pos hn, List.mem_cons] at hx
      rcases hx with rfl | hx
      · exact Or.inr (by omega)
      · exact Or.inl hx
    · simp only [decimalAux, if_neg hn] at hx
      rcases ih _ _ x hx with h | h
      · rcases List.mem_cons.mp h with rfl | h
        · exact Or.inr (by omega)
        · exact Or.inl h
      · exact Or.inr h

theorem decimalAux_ne_nil : ∀ (f n : Nat) (acc : Bytes), 0 < f → decimalAux f n acc ≠ [] := by
  intro f
  induction f with
  | zero => intro n acc h; omega
  | succ f ih =>
    intro n acc _
    by_cases hn : n < 10
    · simp [decimalAux, hn]
    · simp only [decimalAux, if_neg hn]
      cases f with
      | zero => simp [decimalAux]
      | succ g => exact ih _ _ (by omega)

theorem parseDigits_decimalAux :
    ∀ (f n : Nat) (acc : Bytes), n < 10 ^ f →
      ∃ k, ∀ a, parseDigits (decimalAux f n acc) a = parseDigits acc (a * 10 ^ k + n) := by
  intro f
  induction f with
  | zero =>
    intro n acc h
    have h0 : n = 0 := by simpa using h
    exact ⟨0, fun a => by simp [decimalAux, h0]⟩
  | succ f ih =>
    intro n acc h
    by_cases hn : n < 10
    · refine ⟨1, fun a => ?_⟩
      have hd : 48 ≤ 48 + n ∧ 48 + n ≤ 57 := by omega
      simp only [decimalAux, if_pos hn, parseDigits, if_pos hd]
      congr 1
      omega
    · have hlt : n / 10 < 10 ^ f := by
        rw [pow_succ] at h
        exact Nat.div_lt_of_lt_mul (by omega)
      obtain ⟨k, hk⟩ := ih (n / 10) ((48 + n % 10) :: acc) hlt
      refine ⟨k + 1, fun a => ?_⟩
      have hd : 48 ≤ 48 + n % 10 ∧ 48 + n % 10 ≤ 57 := by omega
      simp only [decimalAux, if_neg hn, hk, parseDigits, if_pos hd]
      congr 1
      have e := Nat.div_add_mod n 10
      rw [pow_succ]
      generalize 10 ^ k = X at *
      have e2 : 10 * (a * X + n / 10) = a * (X * 10) + 10 * (n / 10) := by ring
      omega

theorem Atoi_decimal (n : Nat) (h : n < 2 ^ 63) : Atoi (decimal n) = some (n : Int) := by
  have hne : decimal n ≠ [] := decimalAux_ne_nil _ _ _ (Nat.succ_pos n)
  have hdig : ∀ x ∈ decimal n, 48 ≤ x ∧ x ≤ 57 := fun x hx => by
    rcases decimalAux_digits _ _ _ x hx with h1 | h1
    · simp at h1
    · exact h1
  have hpow : n < 10 ^ (n + 1) :=
    lt_trans (Nat.lt_succ_self n) (Nat.lt_pow_self (by decide) (n + 1))
  obtain ⟨k, hk⟩ := parseDigits_decimalAux (n + 1) n [] hpow
  have hp : parseDigits (decimal n) 0 = some n := by
    rw [decimal, hk 0]
    simp [parseDigits]
  obtain ⟨c, rest, hcr⟩ := List.exists_cons_of_ne_nil hne
  have hc := hdig c (by rw [hcr]; simp)
  have h45 : c ≠ 45 := by omega
  have h43 : c ≠ 43 := by omega
  have h63 : n < 9223372036854775808 := by simpa using h
  unfold Atoi
  rw [hcr] at hp ⊢
  simp [h45, h43, hp, h63]

/-- For every host without a colon (a name or an IPv4 address) and every port below
`2 ^ 63` in decimal, the first lines of `serve` derive the port number as the id. -/
theorem connId_host_port (host : Bytes) (port : Nat) (hh : 58 ∉ host) (hp : port < 2 ^ 63) :
    connId (host ++ [58] ++ decimal port) = .ok (port : Int) := by
  have hdig : 58 ∉ decimal port := fun hx => by
    rcases decimalAux_digits _ _ _ 58 hx with h1 | h1
    · simp at h1
    · omega
  have e : splitOn 58 (host ++ [58] ++ decimal port) = [host, decimal port] := by
    rw [List.append_assoc, List.singleton_append, splitOn_append_sep 58 _ _ hh,
      splitOn_no_sep 58 _ hdig]
  unfold connId
  rw [e]
  simp [Atoi_decimal port hp]

/-- C9, the failing input. The remote address of an IPv6 client, "[::1]:52344", is in
host:port form with the decimal port 52344, and `strings.Split` cuts it into four parts:
`serve` panics instead of deriving the id 52344, and submits nothing. The same port of an
IPv4 client yields the id. -/
theorem serve_panics_on_ipv6_remote_address :
    splitOn 58 (str "[::1]:52344") = [str "[", str "", str "1]", str "52344"] ∧
    connId (str "[::1]:52344") = .panics .invalidRemoteAddress ∧
    serve (str "[::1]:52344") (str "10.0.0.9:80") (.ok (str "10.0.0.1:40000"))
        (some (str "client")) = [.panic .invalidRemoteAddress, .closeClient] ∧
    connId (str "127.0.0.1:52344") = .ok 52344 := by
  decide

/-! ## C10: the label -/

theorem decimalAux_lt (f n : Nat) (acc : Bytes) (hf : 0 < f) (hn : n < 10) :
    decimalAux f n acc = (48 + n) :: acc := by
  obtain ⟨g, rfl⟩ : ∃ g, f = g + 1 := ⟨f - 1, by omega⟩
  simp [decimalAux, hn]

theorem decimalAux_ge (f n : Nat) (acc : Bytes) (hf : 0 < f) (hn : 10 ≤ n) :
    decimalAux f n acc = decimalAux (f - 1) (n / 10) ((48 + n % 10) :: acc) := by
  obtain ⟨g, rfl⟩ : ∃ g, f = g + 1 := ⟨f - 1, by omega⟩
  have h : ¬ n < 10 := by omega
  simp [decimalAux, h]

theorem decimal_four (n : Nat) (h : n < 10000) :
    List.replicate (4 - (decimal n).length) 48 ++ decimal n =
      [48 + n / 1000, 48 + n / 100 % 10, 48 + n / 10 % 10, 48 + n % 10] := by
  unfold decimal
  by_cases h1 : n < 10
  · rw [decimalAux_lt _ _ _ (by omega) h1]
    have e1 : n / 1000 = 0 := by omega
    have e2 : n / 100 % 10 = 0 := by omega
    have e3 : n / 10 % 10 = 0 := by omega
    have e4 : n % 10 = n := by omega
    simp [e1, e2, e3, e4, List.replicate]
  · rw [decimalAux_ge _ _ _ (by omega) (by omega)]
    by_cases h2 : n < 100
    · rw [decimalAux_lt _ _ _ (by omega) (by omega)]
      have e1 : n / 1000 = 0 := by omega
      have e2 : n / 100 % 10 = 0 := by omega
      have e3 : n / 10 % 10 = n / 10 := by omega
      simp [e1, e2, e3, List.replicate]
    · rw [decimalAux_ge _ _ _ (by omega) (by omega)]
      by_cases h3 : n < 1000
      · rw [decimalAux_lt _ _ _ (by omega) (by omega)]
        have e1 : n / 1000 = 0 := by omega
        have e2 : n / 100 % 10 = n / 10 / 10 := by omega
        simp [e1, e2, List.replicate]
      · rw [decimalAux_ge _ _ _ (by omega) (by omega),
          decimalAux_lt _ _ _ (by omega) (by omega)]
        have e1 : n / 1000 = n / 10 / 10 / 10 := by omega
        have e2 : n / 100 % 10 = n / 10 / 10 % 10 := by omega
        simp [e1, e2]

theorem decimal_five (n : Nat) (h1 : 10000 ≤ n) (h2 : n < 100000) :
    List.replicate (4 - (decimal n).length) 48 ++ decimal n =
      [48 + n / 10000, 48 + n / 1000 % 10, 48 + n / 100 % 10, 48 + n / 10 % 10, 48 + n % 10] := by
  unfold decimal
  rw [decimalAux_ge _ _ _ (by omega) (by omega), decimalAux_ge _ _ _ (by omega) (by omega),
    decimalAux_ge _ _ _ (by omega) (by omega), decimalAux_ge _ _ _ (by omega) (by omega),
    decimalAux_lt _ _ _ (by omega) (by omega)]
  have e0 : n / 10000 = n / 10 / 10 / 10 / 10 := by omega
  have e1 : n / 1000 % 10 = n / 10 / 10 / 10 % 10 := by omega
  have e2 : n / 100 % 10 = n / 10 / 10 % 10 := by omega
  simp [e0, e1, e2]

theorem fmtC_ascii (c : Nat) (h : c < 128) : fmtC c = [c] := by
  have h2 : c % 256 = c := Nat.mod_eq_of_lt (by omega)
  simp [fmtC, utf8, h2, h]

theorem fmtInt44_nat (n : Nat) :
    fmtInt44 (n : Int) = List.replicate (4 - (decimal n).length) 48 ++ decimal n := by
  have h : ¬ ((n : Int) < 0) := by omega
  simp [fmtInt44, h]

theorem newline_not_mem_rowTail (n : Nat) (c : Bytes) :
    10 ∉ hexCols c ++ (blanks (n - c.length) ++ ([32] ++ c.map dotChar)) := by
  have h := newline_not_mem_rowLine n [] c (by simp)
  intro h2
  apply h
  simp only [rowLine, List.nil_append, List.append_assoc] at h2 ⊢
  exact List.mem_append_right _ h2

theorem makePrefix_four (id c : Nat) (h : id < 10000) (hc : c < 128) :
    makePrefix id c =
      [48 + id / 1000, 48 + id / 100 % 10, 48 + id / 10 % 10, 48 + id % 10, 32, c] := by
  simp only [makePrefix, fmtInt44_nat, decimal_four id h, fmtC_ascii c hc]
  simp

theorem makePrefix_five (id c : Nat) (h1 : 10000 ≤ id) (h2 : id < 100000) (hc : c < 128) :
    makePrefix id c =
      [48 + id / 10000, 48 + id / 1000 % 10, 48 + id / 100 % 10, 48 + id / 10 % 10,
        48 + id % 10, 32, c] := by
  simp only [makePrefix, fmtInt44_nat, decimal_five id h1 h2, fmtC_ascii c hc]
  simp

/-! ## C1: lines and contexts -/

/-- C1, the failing input, in text mode. The client of connection 52344 sends "hi", the
server answers "ok\n", then a comment follows: the first line of the output holds the bytes
of both directions, since `textLineWriter.flush` writes nothing where
`hexLineWriter.flush` ends the row. In the same way a comment lands on the line of an
unfinished text row. -/
theorem text_mode_line_mixes_contexts :
    rendered (cfgText 18)
        [.data 52344 124 (str "hi"), .data 52344 45 (str "ok\n"), .comment 52344 (str "bye")] =
      str "52344 | hi52344 - ok\n52344 *\n52344 * bye\n52344 *\n" ∧
    lines (rendered (cfgText 18)
        [.data 52344 124 (str "hi"), .data 52344 45 (str "ok\n"), .comment 52344 (str "bye")]) =
      [str "52344 | hi52344 - ok", str "52344 *", str "52344 * bye", str "52344 *", str ""] ∧
    lines (rendered (cfgText 18) [.data 52344 124 (str "hi"), .comment 52344 (str "bye")]) =
      [str "52344 | hi52344 *", str "52344 * bye", str "52344 *", str ""] ∧
    lines (rendered (cfgHex 18) [.data 52344 124 (str "hi"), .data 52344 45 (str "ok\n"),
        .comment 52344 (str "bye")]) =
      [str "52344 |  68 69                                                 hi",
        str "52344 -  6f 6b 0a                                              ok.",
        str "52344 *", str "52344 * bye", str "52344 *", str ""] := by
  decide

/-! ## The output of hex mode, block by block and line by line -/

theorem written_closing (cfg : Config) (hN : 1 ≤ cfg.columnWidth)
    (cur : Option (Int × Nat × Bytes)) (st : outputState) (h : openState cfg cur st) :
    written cfg cur ++ closing st = (closeBlock cur).flatMap (renderBlock cfg.columnWidth) := by
  match cur, h with
  | none, h =>
    have h1 : st.lw = none := h
    simp [written, closing, closeBlock, h1]
  | some (i, d, b), h =>
    have h1 : st.lw = some (.hex ((newHexLineWriter cfg (makePrefix i d)).write cfg b).1) := h.2.2
    have ht := hex_context_text cfg hN (newHexLineWriter cfg (makePrefix i d)) rfl
      (Nat.zero_le _) b
    simp only [newHexLineWriter, partialLine, List.length_nil, if_true, List.nil_append] at ht
    simp only [written, closing, h1, lineWriter.flush, closeBlock, List.flatMap_cons,
      List.flatMap_nil, List.append_nil, renderBlock, hexRows, newHexLineWriter]
    exact ht

/-- In hex mode with a width of at least 1, the output for the messages `ms`, closed by the
flush of the context left open, is the text of the blocks of `ms`, one after the other:
every comment is a block of its own, and the rows of a context hold the bytes of the data
messages of one `(id, direction)` only. -/
theorem hex_output_blocks (cfg : Config) (hT : cfg.isText = false) (hN : 1 ≤ cfg.columnWidth) :
    ∀ (ms : List Msg) (cur : Option (Int × Nat × Bytes)) (st : outputState),
      openState cfg cur st →
      written cfg cur ++ (output cfg st ms).2 ++ closing (output cfg st ms).1 =
        (blocksFrom cur ms).flatMap (renderBlock cfg.columnWidth) := by
  intro ms
  induction ms with
  | nil =>
    intro cur st h
    simpa [output, blocksFrom] using written_closing cfg hN cur st h
  | cons m ms ih =>
    intro cur st h
    cases m with
    | comment id s =>
      have hc := written_closing cfg hN cur st h
      have ih1 := ih none (outputStep cfg st (.comment id s)).1 (by simp [openState, outputStep])
      simp only [written, List.nil_append] at ih1
      have e : (outputStep cfg st (.comment id s)).2 =
          closing st ++ renderBlock cfg.columnWidth (.comment id s) := by
        simp [outputStep, closing, renderBlock, star]
      simp only [output, blocksFrom, List.flatMap_append, List.flatMap_cons, ← hc, ← ih1, e]
      simp only [List.append_assoc]
    | data id d b =>
      match cur, h with
      | none, h =>
        have h1 : st.lw = none := h
        have hs : outputStep cfg st (.data id d b) =
            ({ curId := id, curPrefix := d,
                lw := some (.hex ((newHexLineWriter cfg (makePrefix id d)).write cfg b).1) },
              ((newHexLineWriter cfg (makePrefix id d)).write cfg b).2) := by
          simp [outputStep, h1, hT, lineWriter.write]
        have ih1 := ih (some (id, d, b)) (outputStep cfg st (.data id d b)).1
          (by rw [hs]; exact ⟨rfl, rfl, rfl⟩)
        simp only [output, blocksFrom, written, List.nil_append, ← ih1, hs, List.append_assoc]
      | some (i, d0, b0), h =>
        obtain ⟨h1, h2, h3⟩ := h
        by_cases hsame : i = id ∧ d0 = d
        · obtain ⟨rfl, rfl⟩ := hsame
          have hw := write_append cfg b0 b (newHexLineWriter cfg (makePrefix i d0))
          have hs : outputStep cfg st (.data i d0 b) =
              ({ st with lw := some (.hex ((newHexLineWriter cfg (makePrefix i d0)).write cfg
                  (b0 ++ b)).1) },
                (((newHexLineWriter cfg (makePrefix i d0)).write cfg b0).1.write cfg b).2) := by
            simp [outputStep, h1, h2, h3, lineWriter.write, hw]
          have ih1 := ih (some (i, d0, b0 ++ b)) (outputStep cfg st (.data i d0 b)).1
            (by rw [hs]; exact ⟨h1, h2, rfl⟩)
          simp only [output, blocksFrom, and_self, if_true, ← ih1, written, hw, hs,
            List.append_assoc]
        · have hne : ¬ (st.curId = id ∧ st.curPrefix = d) := by rw [h1, h2]; exact hsame
          have hc := written_closing cfg hN (some (i, d0, b0)) st ⟨h1, h2, h3⟩
          have hs : outputStep cfg st (.data id d b) =
              ({ curId := id, curPrefix := d,
                  lw := some (.hex ((newHexLineWriter cfg (makePrefix id d)).write cfg b).1) },
                closing st ++ ((newHexLineWriter cfg (makePrefix id d)).write cfg b).2) := by
            simp [outputStep, h3, hne, hT, lineWriter.write, closing]
          have ih1 := ih (some (id, d, b)) (outputStep cfg st (.data id d b)).1
            (by rw [hs]; exact ⟨rfl, rfl, rfl⟩)
          simp only [closeBlock, List.flatMap_cons, List.flatMap_nil, List.append_nil] at hc
          simp only [output, blocksFrom, if_neg hsame, List.flatMap_cons, ← ih1, ← hc, hs]
          simp only [written, List.append_assoc]

theorem newline_not_mem_makePrefix (id : Int) (d : Nat) (h : d % 256 ≠ 10) :
    10 ∉ makePrefix id d := by
  have h1 : 10 ∉ decimal id.natAbs := fun hx => by
    rcases decimalAux_digits _ _ _ 10 hx with h2 | h2
    · simp at h2
    · omega
  have h2 : 10 ∉ fmtC d := by
    unfold fmtC utf8
    split_ifs <;> simp <;> omega
  have h3 : 10 ∉ (if id < 0 then [45] else ([] : Bytes)) := by
    split_ifs <;> simp
  have h4 : 10 ∉ List.replicate (4 - (decimal id.natAbs).length) 48 := fun hx => by
    have := List.eq_of_mem_replicate hx
    omega
  simp only [makePrefix, fmtInt44, List.mem_append, List.mem_singleton, not_or]
  exact ⟨⟨⟨⟨h3, h4⟩, h1⟩, by decide⟩, h2⟩

theorem lines_flatMap_newline :
    ∀ (ls : List Bytes), (∀ l ∈ ls, 10 ∉ l) →
      lines (ls.flatMap (fun l => l ++ [10])) = ls ++ [[]] := by
  intro ls
  induction ls with
  | nil => intro _; rfl
  | cons l ls ih =>
    intro h
    have e : (l :: ls).flatMap (fun l => l ++ [10]) = l ++ 10 :: ls.flatMap (fun l => l ++ [10]) := by
      simp
    have ih1 := ih (fun x hx => h x (by simp [hx]))
    unfold lines at ih1 ⊢
    rw [e, splitOn_append_sep 10 _ _ (h l (by simp)), ih1]
    simp

theorem renderBlock_lines (n : Nat) (blk : Block) (h : plainBlock blk) :
    renderBlock n blk = (blockLines n blk).flatMap (fun l => l ++ [10]) ∧
      ∀ l ∈ blockLines n blk, 10 ∉ l := by
  cases blk with
  | comment id s =>
    have hp := newline_not_mem_makePrefix id 42 (by decide)
    have hs : 10 ∉ s := h
    refine ⟨by simp [renderBlock, blockLines], ?_⟩
    intro l hl
    simp only [blockLines, List.mem_cons, List.mem_singleton, List.not_mem_nil, or_false] at hl
    rcases hl with rfl | rfl | rfl
    · exact hp
    · simp [hp, hs]
    · exact hp
  | context id d b =>
    obtain ⟨hb, hd⟩ : b ≠ [] ∧ d % 256 ≠ 10 := h
    have hp := newline_not_mem_makePrefix id d hd
    have hlast := lastBuf_ne_nil n b [] (Or.inr hb)
    have h0 : ¬ (lastBuf n [] b).length = 0 := fun h => hlast (List.length_eq_zero.mp h)
    refine ⟨by simp [renderBlock, blockLines, hexRows, h0, List.flatMap_map], ?_⟩
    intro l hl
    obtain ⟨c, _, rfl⟩ := List.mem_map.mp hl
    exact newline_not_mem_rowLine n _ c hp

theorem blocksFrom_plain :
    ∀ (ms : List Msg) (cur : Option (Int × Nat × Bytes)),
      (∀ m ∈ ms, plainMsg m) → (∀ blk ∈ closeBlock cur, plainBlock blk) →
      ∀ blk ∈ blocksFrom cur ms, plainBlock blk := by
  intro ms
  induction ms with
  | nil => intro cur _ hc blk hb; exact hc blk (by simpa [blocksFrom] using hb)
  | cons m ms ih =>
    intro cur hm hc blk hb
    have hms : ∀ x ∈ ms, plainMsg x := fun x hx => hm x (by simp [hx])
    have hm0 : plainMsg m := hm m (by simp)
    cases m with
    | comment id s =>
      simp only [blocksFrom, List.mem_append, List.mem_cons] at hb
      rcases hb with hb | rfl | hb
      · exact hc blk hb
      · exact hm0
      · exact ih none hms (by simp [closeBlock]) blk hb
    | data id d b =>
      have hnew : ∀ x ∈ closeBlock (some (id, d, b)), plainBlock x := by
        intro x hx
        simp only [closeBlock, List.mem_singleton] at hx
        rw [hx]
        exact hm0
      match cur, hc with
      | none, _ => exact ih _ hms hnew blk (by simpa [blocksFrom] using hb)
      | some (i, d0, b0), hc =>
        have hcur : plainBlock (.context i d0 b0) := hc _ (by simp [closeBlock])
        by_cases hsame : i = id ∧ d0 = d
        · simp only [blocksFrom, if_pos hsame] at hb
          refine ih _ hms ?_ blk hb
          intro x hx
          simp only [closeBlock, List.mem_singleton] at hx
          rw [hx]
          exact ⟨by simp [hcur.1], hcur.2⟩
        · simp only [blocksFrom, if_neg hsame, List.mem_cons] at hb
          rcases hb with rfl | hb
          · exact hcur
          · exact ih _ hms hnew blk hb

/-- In hex mode with a width of at least 1, for comments without newline and data messages
with at least one byte: the lines of the output, closed by the flush of the context left
open, are the lines of the blocks of the messages, in order, and an empty last line. Every
line is one of the three lines of a comment or a row of one context, made of the label of
that context and of bytes of its data messages. -/
theorem hex_output_lines (cfg : Config) (hT : cfg.isText = false) (hN : 1 ≤ cfg.columnWidth)
    (ms : List Msg) (hm : ∀ m ∈ ms, plainMsg m) :
    lines (rendered cfg ms ++ closing (output cfg outputState.init ms).1) =
      (blocksFrom none ms).flatMap (blockLines cfg.columnWidth) ++ [[]] := by
  have hb := hex_output_blocks cfg hT hN ms none outputState.init rfl
  simp only [written, List.nil_append] at hb
  have hp := blocksFrom_plain ms none hm (by simp [closeBlock])
  have e : (blocksFrom none ms).flatMap (renderBlock cfg.columnWidth) =
      ((blocksFrom none ms).flatMap (blockLines cfg.columnWidth)).flatMap
        (fun l => l ++ [10]) := by
    rw [List.flatMap_assoc]
    exact List.flatMap_congr (fun blk hblk => (renderBlock_lines _ blk (hp blk hblk)).1)
  rw [rendered, hb, e]
  apply lines_flatMap_newline
  intro l hl
  obtain ⟨blk, hblk, hl2⟩ := List.mem_flatMap.mp hl
  exact (renderBlock_lines _ blk (hp blk hblk)).2 l hl2

/-! ## C16: chunk boundaries -/

theorem lineWriter_write_append (cfg : Config) (lw : lineWriter) (a b : Bytes) :
    lw.write cfg (a ++ b) =
      (((lw.write cfg a).1.write cfg b).1, (lw.write cfg a).2 ++ ((lw.write cfg a).1.write cfg b).2) := by
  cases lw with
  | hex w => simp [lineWriter.write, write_append cfg a b w]
  | text w => simp [lineWriter.write, text_write_append a b w]

theorem output_two_chunks (cfg : Config) (st : outputState) (id : Int) (d : Nat)
    (b1 b2 : Bytes) :
    output cfg st [.data id d b1, .data id d b2] = output cfg st [.data id d (b1 ++ b2)] := by
  cases hlw : st.lw with
  | none =>
    simp [output, outputStep, hlw, lineWriter_write_append]
  | some lw =>
    by_cases hsame : st.curId = id ∧ st.curPrefix = d
    · simp [output, outputStep, hlw, hsame, lineWriter_write_append]
    · simp [output, outputStep, hlw, hsame, lineWriter_write_append]

/-- C16. Chunk-boundary independence: in either style and from every state of the
multiplexer, the two data messages `(id, d, b1)` and `(id, d, b2)`, one after the other,
leave the same state and write the same bytes as the one data message `(id, d, b1 ++ b2)`. -/
theorem chunk_boundary_independence (cfg : Config) (st : outputState) (id : Int) (d : Nat)
    (b1 b2 : Bytes) :
    output cfg st [.data id d b1, .data id d b2] = output cfg st [.data id d (b1 ++ b2)] :=
  output_two_chunks cfg st id d b1 b2

/-! ## C15: the width of hex rows -/

/-- C15. Hex row width: with a column width `N` of at least 1, what a hex context writes
for the chunks `bs` and its closing flush is one row for each of the lists `fullRows` and
then one for `lastBuf` (an empty line when there are no bytes at all); every row before the
last holds exactly `N` bytes, the last one at most `N` and at least one; each row shows as
many hex values as it holds bytes; and the rows together hold the bytes written, in order. -/
theorem hex_row_width (cfg : Config) (hN : 1 ≤ cfg.columnWidth) (p : Bytes) (bs : List Bytes)
    (hb : ∀ b ∈ bs, ∀ x ∈ b, x < 256) :
    (bs.flatten ≠ [] →
      ((newHexLineWriter cfg p).writes cfg bs).2 ++
          (((newHexLineWriter cfg p).writes cfg bs).1.flush).2 =
        (fullRows cfg.columnWidth [] bs.flatten ++ [lastBuf cfg.columnWidth [] bs.flatten]).flatMap
          (fun c => rowLine cfg.columnWidth p c ++ [10])) ∧
    (bs.flatten = [] →
      ((newHexLineWriter cfg p).writes cfg bs).2 ++
          (((newHexLineWriter cfg p).writes cfg bs).1.flush).2 = [10]) ∧
    (∀ c ∈ fullRows cfg.columnWidth [] bs.flatten, c.length = cfg.columnWidth) ∧
    (lastBuf cfg.columnWidth [] bs.flatten).length ≤ cfg.columnWidth ∧
    (bs.flatten ≠ [] → 1 ≤ (lastBuf cfg.columnWidth [] bs.flatten).length) ∧
    (∀ c ∈ fullRows cfg.columnWidth [] bs.flatten ++ [lastBuf cfg.columnWidth [] bs.flatten],
      (decodeRow cfg.columnWidth p (rowLine cfg.columnWidth p c)).length = c.length ∧
        (hexCols c).length = 3 * c.length) ∧
    (fullRows cfg.columnWidth [] bs.flatten).flatten ++ lastBuf cfg.columnWidth [] bs.flatten =
      bs.flatten := by
  have hbytes : ∀ x ∈ bs.flatten, x < 256 := by
    intro x hx
    obtain ⟨b, hb1, hx1⟩ := List.mem_flatten.mp hx
    exact hb b hb1 x hx1
  have htext := hex_context_text cfg hN (newHexLineWriter cfg p) rfl (Nat.zero_le _) bs.flatten
  simp only [newHexLineWriter, partialLine, List.length_nil, if_true, List.nil_append] at htext
  have hlen := lastBuf_length cfg.columnWidth hN bs.flatten [] (Nat.zero_le _)
  have hfull := fullRows_length cfg.columnWidth bs.flatten []
  have hflat := fullRows_flatten cfg.columnWidth bs.flatten []
  simp only [List.nil_append] at hflat
  have hcols : ∀ c : Bytes, (hexCols c).length = 3 * c.length := by
    intro c
    induction c with
    | nil => rfl
    | cons x c ih =>
      have e : hexCols (x :: c) = ([32] ++ fmtHex2 x) ++ hexCols c := by simp [hexCols]
      rw [e, List.length_append, ih]
      simp [fmtHex2]
      omega
  refine ⟨?_, ?_, hfull, hlen, ?_, ?_, hflat⟩
  · intro hne
    have h0 : ¬ (lastBuf cfg.columnWidth [] bs.flatten).length = 0 := fun h =>
      lastBuf_ne_nil cfg.columnWidth bs.flatten [] (Or.inr hne) (List.length_eq_zero.mp h)
    rw [writes_eq_write]
    simpa [newHexLineWriter, h0] using htext
  · intro he
    rw [writes_eq_write, he]
    simp [hexLineWriter.write, newHexLineWriter, hexLineWriter.flush]
  · intro hne
    have := lastBuf_ne_nil cfg.columnWidth bs.flatten [] (Or.inr hne)
    exact Nat.pos_of_ne_zero (fun h => this (List.length_eq_zero.mp h))
  · intro c hc
    have hcl : c.length ≤ cfg.columnWidth ∧ ∀ x ∈ c, x < 256 := by
      rcases List.mem_append.mp hc with h | h
      · exact ⟨le_of_eq (hfull c h), fun x hx => hbytes x (by
          have := mem_fullRows cfg.columnWidth bs.flatten [] c x h hx
          simpa using this)⟩
      · rw [List.mem_singleton.mp h]
        exact ⟨hlen, fun x hx => hbytes x (by
          have := mem_lastBuf cfg.columnWidth bs.flatten [] x hx
          simpa using this)⟩
    rw [decodeRow_rowLine cfg.columnWidth p c hcl.1 hcl.2]
    exact ⟨rfl, hcols c⟩

/-- C15 at width 2 for "abc" written as "ab" and "c": a full row "ab" and a last row "c". -/
theorem hex_row_width_witness :
    fullRows 2 [] [str "ab", str "c"].flatten = [str "ab"] ∧
    lastBuf 2 [] [str "ab", str "c"].flatten = str "c" ∧
    ((newHexLineWriter (cfgHex 2) (str "0001 |")).writes (cfgHex 2) [str "ab", str "c"]).2 ++
        (((newHexLineWriter (cfgHex 2) (str "0001 |")).writes (cfgHex 2)
          [str "ab", str "c"]).1.flush).2 =
      (fullRows 2 [] [str "ab", str "c"].flatten ++
          [lastBuf 2 [] [str "ab", str "c"].flatten]).flatMap
        (fun c => rowLine 2 (str "0001 |") c ++ [10]) :=
  ⟨by decide, by decide,
    (hex_row_width (cfgHex 2) (by decide) (str "0001 |") [str "ab", str "c"] (by decide)).1
      (by decide)⟩

/-! ## C18: the write loop ends -/

/-- C18. The loop `for len(b2) > 0` of `doCopy`, for every chunk `b2` and all results `ws`
of the calls of `Write`: when every call made returned an error or reported
`1 ≤ sent ≤ len` of its slice, no `b2[sent:]` is out of range, the loop makes at most
`len(b2)` calls of `Write` (and does nothing else), and with `len(b2)` results at hand it
has ended, by running to its end or at an error of `Write`. -/
theorem write_loop_terminates (b2 : Bytes) (ws : List WriteResult)
    (h : writesProgress (writeLoop b2 ws).1 = true) :
    (writeLoop b2 ws).2.1 ≠ some .badWrite ∧
    (writeLoop b2 ws).1.length ≤ b2.length ∧
    (writeLoop b2 ws).1.filter isWrite = (writeLoop b2 ws).1 ∧
    (b2.length ≤ ws.length →
      (writeLoop b2 ws).2.1 = none ∨ (writeLoop b2 ws).2.1 = some .writeErr) := by
  induction ws generalizing b2 with
  | nil =>
    by_cases hb : b2.length > 0
    · simp [writeLoop, hb]
      intro e
      simp [e] at hb
    · simp [writeLoop, hb]
  | cons w ws ih =>
    by_cases hb : b2.length > 0
    · by_cases he : w.err = true
      · simp [writeLoop, hb, he, isWrite]
        omega
      · by_cases hr : w.sent < 0 ∨ (b2.length : Int) < w.sent
        · simp only [writeLoop, hb, he, hr, if_true, writesProgress] at h
          simp [he] at h
          omega
        · have hwl : writeLoop b2 (w :: ws) =
              (.write b2 w.sent false :: (writeLoop (b2.drop w.sent.toNat) ws).1,
                (writeLoop (b2.drop w.sent.toNat) ws).2.1,
                (writeLoop (b2.drop w.sent.toNat) ws).2.2) := by
            simp [writeLoop, hb, he, hr]
          rw [hwl] at h ⊢
          simp [writesProgress] at h
          obtain ⟨⟨h1, _⟩, h3⟩ := h
          have ih1 := ih (b2.drop w.sent.toNat) h3
          have hlen : (b2.drop w.sent.toNat).length + 1 ≤ b2.length := by
            rw [List.length_drop]
            omega
          refine ⟨ih1.1, ?_, ?_, ?_⟩
          · simp only [List.length_cons]
            omega
          · simp [isWrite, ih1.2.2.1]
          · intro hws
            exact ih1.2.2.2 (by simp only [List.length_cons] at hws; omega)
    · simp [writeLoop, hb]

/-- C18 on the chunk "abcde" with writes of 2, 1 and 2 bytes: three calls, and the loop
has run to its end. -/
theorem write_loop_terminates_witness :
    writesProgress (writeLoop (str "abcde") [⟨2, false⟩, ⟨1, false⟩, ⟨2, false⟩, ⟨9, false⟩,
      ⟨0, false⟩]).1 = true ∧
    (writeLoop (str "abcde") [⟨2, false⟩, ⟨1, false⟩, ⟨2, false⟩, ⟨9, false⟩,
      ⟨0, false⟩]).1.length = 3 ∧
    ((writeLoop (str "abcde") [⟨2, false⟩, ⟨1, false⟩, ⟨2, false⟩, ⟨9, false⟩,
        ⟨0, false⟩]).2.1 = none ∨
      (writeLoop (str "abcde") [⟨2, false⟩, ⟨1, false⟩, ⟨2, false⟩, ⟨9, false⟩,
        ⟨0, false⟩]).2.1 = some .writeErr) :=
  ⟨by decide, by decide,
    (write_loop_terminates (str "abcde") [⟨2, false⟩, ⟨1, false⟩, ⟨2, false⟩, ⟨9, false⟩,
      ⟨0, false⟩] (by decide)).2.2.2 (by decide)⟩

/-! ## C12: tee before forward -/

theorem writeLoop_only_writes (ws : List WriteResult) :
    ∀ (b2 : Bytes), ∀ e ∈ (writeLoop b2 ws).1, isWrite e = true := by
  induction ws with
  | nil => intro b2 e he; by_cases hb : b2.length > 0 <;> simp [writeLoop, hb] at he
  | cons w ws ih =>
    intro b2 e he
    by_cases hb : b2.length > 0
    · by_cases herr : w.err = true
      · simp [writeLoop, hb, herr] at he
        simp [he, isWrite]
      · by_cases hr : w.sent < 0 ∨ (b2.length : Int) < w.sent
        · simp only [writeLoop, hb, herr, hr, if_true] at he
          simp at he
          simp [he, isWrite]
        · have hwl : writeLoop b2 (w :: ws) =
              (.write b2 w.sent false :: (writeLoop (b2.drop w.sent.toNat) ws).1,
                (writeLoop (b2.drop w.sent.toNat) ws).2.1,
                (writeLoop (b2.drop w.sent.toNat) ws).2.2) := by
            simp [writeLoop, hb, herr, hr]
          rw [hwl] at he
          rcases List.mem_cons.mp he with rfl | he
          · rfl
          · exact ih _ e he
    · simp [writeLoop, hb] at he

theorem dataEvents_writes : ∀ (es : List Effect), (∀ e ∈ es, isWrite e = true) →
    dataEvents es = [] ∧ readsDone es = [] := by
  intro es
  induction es with
  | nil => intro _; exact ⟨rfl, rfl⟩
  | cons e es ih =>
    intro h
    have h1 := h e (by simp)
    have h2 := ih (fun x hx => h x (by simp [hx]))
    cases e <;> simp [isWrite] at h1
    simp [dataEvents, readsDone, h2]

theorem dataEvents_append (a b : List Effect) :
    dataEvents (a ++ b) = dataEvents a ++ dataEvents b := by
  induction a with
  | nil => rfl
  | cons e a ih => cases e <;> simp [dataEvents, ih]

theorem readsDone_append (a b : List Effect) :
    readsDone (a ++ b) = readsDone a ++ readsDone b := by
  induction a with
  | nil => rfl
  | cons e a ih => cases e <;> simp [readsDone, ih]

theorem logged_append (a b : List Effect) : logged (a ++ b) = logged a ++ logged b := by
  simp [logged, dataEvents_append]

theorem accepted_take_initial (es : List Effect) (k : Nat) :
    accepted (es.take k) <+: accepted es := by
  have h := accepted_append (es.take k) (es.drop k)
  rw [List.take_append_drop] at h
  rw [h]
  exact List.prefix_append _ _

theorem logged_writes (es : List Effect) (h : ∀ e ∈ es, isWrite e = true) (k : Nat) :
    logged (es.take k) = [] := by
  have h2 := dataEvents_writes (es.take k) (fun e he => h e (List.mem_of_mem_take he))
  simp [logged, h2.1]

theorem copyLoop_events (id : Int) (pfx : Nat) :
    ∀ (rs : List ReadResult) (ws : List WriteResult), (∀ r ∈ rs, r.data.length ≤ bufSize) →
      readsDone (copyLoop id pfx rs ws).1 <+: rs ∧
      dataEvents (copyLoop id pfx rs ws).1 =
        ((readsDone (copyLoop id pfx rs ws).1).filter isChunk).map
          (fun r => (id, pfx, r.data)) := by
  intro rs
  induction rs with
  | nil => intro ws _; simp [copyLoop, readsDone, dataEvents]
  | cons r rs ih =>
    intro ws hfit
    have hfit2 : ∀ x ∈ rs, x.data.length ≤ bufSize := fun x hx => hfit x (by simp [hx])
    by_cases he : r.err = true
    · simp [copyLoop, he, readsDone, dataEvents, isChunk]
    · by_cases hz : r.data.length = 0
      · simp [copyLoop, he, hz, readsDone, dataEvents, isChunk]
      · have hbig : ¬ bufSize < r.data.length := by
          have := hfit r (by simp)
          omega
        have hchunk : isChunk r = true := by simp [isChunk, he, hz]
        have hw := dataEvents_writes _ (writeLoop_only_writes ws r.data)
        cases hx : (writeLoop r.data ws).2.1 with
        | some e =>
          simp [copyLoop, he, hz, hbig, hx, readsDone, dataEvents, hw.1, hw.2, hchunk]
        | none =>
          have ih1 := ih (writeLoop r.data ws).2.2 hfit2
          simp only [copyLoop, he, hz, hbig, if_false, hx, readsDone, dataEvents,
            readsDone_append, dataEvents_append, hw.1, hw.2, List.nil_append]
          refine ⟨(List.prefix_cons_inj r).mpr ih1.1, ?_⟩
          rw [List.filter_cons_of_pos hchunk, List.map_cons, ← ih1.2]

theorem copyLoop_tee_first (id : Int) (pfx : Nat) :
    ∀ (rs : List ReadResult) (ws : List WriteResult) (k : Nat),
      accepted ((copyLoop id pfx rs ws).1.take k) <+: logged ((copyLoop id pfx rs ws).1.take k) := by
  intro rs
  induction rs with
  | nil => intro ws k; simp [copyLoop, accepted]
  | cons r rs ih =>
    intro ws k
    have hone : ∀ k : Nat, accepted (([Effect.read r] : List Effect).take k) <+:
        logged (([Effect.read r] : List Effect).take k) := by
      intro k
      cases k with
      | zero => simp [accepted]
      | succ k => simp [accepted]
    by_cases he : r.err = true
    · simpa [copyLoop, he] using hone k
    · by_cases hz : r.data.length = 0
      · simpa [copyLoop, he, hz] using hone k
      · by_cases hbig : bufSize < r.data.length
        · simpa [copyLoop, he, hz, hbig] using hone k
        · have hw := writeLoop_accepted ws r.data
          have hwr := writeLoop_only_writes ws r.data
          have key : ∀ (T : List Effect) (j : Nat),
              accepted (T.take j) <+: r.data ++ logged (T.take j) →
              accepted ((Effect.read r :: Effect.writeData id pfx r.data :: T).take (j + 2)) <+:
                logged ((Effect.read r :: Effect.writeData id pfx r.data :: T).take (j + 2)) := by
            intro T j h
            simpa [accepted, logged, dataEvents] using h
          have small : ∀ (T : List Effect) (k : Nat), k < 2 →
              accepted ((Effect.read r :: Effect.writeData id pfx r.data :: T).take k) <+:
                logged ((Effect.read r :: Effect.writeData id pfx r.data :: T).take k) := by
            intro T k hk
            obtain rfl | rfl : k = 0 ∨ k = 1 := by omega
            · simp [accepted]
            · simp [accepted]
          cases hx : (writeLoop r.data ws).2.1 with
          | some e =>
            have htr : (copyLoop id pfx (r :: rs) ws).1 =
                Effect.read r :: Effect.writeData id pfx r.data :: (writeLoop r.data ws).1 := by
              simp [copyLoop, he, hz, hbig, hx]
            rw [htr]
            by_cases hk : k < 2
            · exact small _ k hk
            · obtain ⟨j, rfl⟩ : ∃ j, k = j + 2 := ⟨k - 2, by omega⟩
              apply key
              exact ((accepted_take_initial _ j).trans hw.1).trans (List.prefix_append _ _)
          | none =>
            have htr : (copyLoop id pfx (r :: rs) ws).1 =
                Effect.read r :: Effect.writeData id pfx r.data ::
                  ((writeLoop r.data ws).1 ++ (copyLoop id pfx rs (writeLoop r.data ws).2.2).1) := by
              simp [copyLoop, he, hz, hbig, hx]
            rw [htr]
            by_cases hk : k < 2
            · exact small _ k hk
            · obtain ⟨j, rfl⟩ : ∃ j, k = j + 2 := ⟨k - 2, by omega⟩
              apply key
              rw [List.take_append_eq_append_take, accepted_append, logged_append,
                logged_writes _ hwr j, List.nil_append]
              by_cases hj : j ≤ (writeLoop r.data ws).1.length
              · have h0 : j - (writeLoop r.data ws).1.length = 0 := by omega
                rw [h0]
                simp only [List.take_zero, accepted, List.append_nil]
                exact ((accepted_take_initial _ j).trans hw.1).trans (List.prefix_append _ _)
              · rw [List.take_of_length_le (by omega), hw.2 hx]
                exact (List.prefix_append_right_inj _).mpr (ih _ _)

theorem teardown_silent : ∀ (es : List Effect), (∀ e ∈ es, isTeardown e = true) →
    accepted es = [] ∧ dataEvents es = [] ∧ readsDone es = [] := by
  intro es
  induction es with
  | nil => intro _; exact ⟨rfl, rfl, rfl⟩
  | cons e es ih =>
    intro h
    have h1 := h e (by simp)
    have h2 := ih (fun x hx => h x (by simp [hx]))
    cases e <;> simp [isTeardown] at h1 <;> simp [accepted, dataEvents, readsDone, h2]

/-- C12. Tee before forward: in every run of `doCopy` (with reads that fit the buffer), the
reads made are the first of the read results; the data messages submitted are, in read
order and one for one, the chunks read without error and with at least one byte, each
tagged with the `id` and the direction of this copier; and at every moment of the run the
bytes accepted by the write side are a prefix of the bytes of the messages submitted so
far. -/
theorem tee_before_forward (id : Int) (pfx : Nat) (peerName : Bytes) (rs : List ReadResult)
    (ws : List WriteResult) (hfit : ∀ r ∈ rs, r.data.length ≤ bufSize) :
    readsDone (doCopy id pfx peerName rs ws).1 <+: rs ∧
    dataEvents (doCopy id pfx peerName rs ws).1 =
      ((readsDone (doCopy id pfx peerName rs ws).1).filter isChunk).map
        (fun r => (id, pfx, r.data)) ∧
    ∀ k : Nat, accepted ((doCopy id pfx peerName rs ws).1.take k) <+:
      logged ((doCopy id pfx peerName rs ws).1.take k) := by
  have hev := copyLoop_events id pfx rs ws hfit
  have htd : ∀ e ∈ (if (copyLoop id pfx rs ws).2 = .blockedRead ∨
      (copyLoop id pfx rs ws).2 = .blockedWrite then ([] : List Effect)
      else [.closeFrom, .closeTo, .send peerName]), isTeardown e = true := by
    intro e he
    split_ifs at he
    · simp at he
    · simp only [List.mem_cons, List.mem_singleton, List.not_mem_nil, or_false] at he
      rcases he with rfl | rfl | rfl <;> rfl
  have hs := teardown_silent _ htd
  rw [doCopy_effects]
  refine ⟨?_, ?_, ?_⟩
  · rw [readsDone_append, hs.2.2, List.append_nil]
    exact hev.1
  · rw [readsDone_append, dataEvents_append, hs.2.2, hs.2.1, List.append_nil, List.append_nil]
    exact hev.2
  · intro k
    have hs2 := teardown_silent
      ((if (copyLoop id pfx rs ws).2 = .blockedRead ∨
        (copyLoop id pfx rs ws).2 = .blockedWrite then ([] : List Effect)
        else [.closeFrom, .closeTo, .send peerName]).take (k - (copyLoop id pfx rs ws).1.length))
      (fun e he => htd e (List.mem_of_mem_take he))
    rw [List.take_append_eq_append_take, accepted_append, logged_append, hs2.1]
    simp only [logged, hs2.2.1, List.flatMap_nil, List.append_nil]
    exact copyLoop_tee_first id pfx rs ws k

/-- C12 on a run that reads "abc" and "de", forwards "abc" in two writes and "d" in one,
and then finds the write side closed. -/
theorem tee_before_forward_witness :
    dataEvents (doCopy 52344 124 (str "client")
        [⟨str "abc", false⟩, ⟨str "de", false⟩, ⟨[], true⟩]
        [⟨1, false⟩, ⟨2, false⟩, ⟨1, false⟩, ⟨0, true⟩]).1 =
      [(52344, 124, str "abc"), (52344, 124, str "de")] ∧
    accepted (doCopy 52344 124 (str "client")
        [⟨str "abc", false⟩, ⟨str "de", false⟩, ⟨[], true⟩]
        [⟨1, false⟩, ⟨2, false⟩, ⟨1, false⟩, ⟨0, true⟩]).1 = str "abcd" ∧
    accepted ((doCopy 52344 124 (str "client")
        [⟨str "abc", false⟩, ⟨str "de", false⟩, ⟨[], true⟩]
        [⟨1, false⟩, ⟨2, false⟩, ⟨1, false⟩, ⟨0, true⟩]).1.take 4) <+:
      logged ((doCopy 52344 124 (str "client")
        [⟨str "abc", false⟩, ⟨str "de", false⟩, ⟨[], true⟩]
        [⟨1, false⟩, ⟨2, false⟩, ⟨1, false⟩, ⟨0, true⟩]).1.take 4) :=
  ⟨by decide, by decide,
    (tee_before_forward 52344 124 (str "client")
      [⟨str "abc", false⟩, ⟨str "de", false⟩, ⟨[], true⟩]
      [⟨1, false⟩, ⟨2, false⟩, ⟨1, false⟩, ⟨0, true⟩] (by decide)).2.2 4⟩

/-! ## C11: the bytes of text mode -/

theorem text_write_cons (p : Bytes) (pend : Bool) (c : Nat) (rest : Bytes) :
    (textLineWriter.write { pfx := p, isPrefixWritePending := pend } (c :: rest)).2 =
      (if pend = true then p ++ [32] else []) ++ fmtC c ++
        (textLineWriter.write { pfx := p, isPrefixWritePending := decide (c = 10) } rest).2 := by
  cases pend <;> by_cases hc : c = 10 <;>
    simp [textLineWriter.write, textLineWriter.writeByte, hc]

theorem joinLines_cons (l : Bytes) (ls : List Bytes) (h : ls ≠ []) :
    joinLines (l :: ls) = l ++ [10] ++ joinLines ls := by
  obtain ⟨l2, ls2, rfl⟩ := List.exists_cons_of_ne_nil h
  rfl

theorem stripLabel_label (p x : Bytes) : stripLabel p (p ++ [32] ++ x) = x := by
  unfold stripLabel
  rw [dropLabel_append]

theorem stripLabel_nil (p : Bytes) : stripLabel p [] = [] := by
  cases p <;> simp [stripLabel, dropLabel]

theorem newline_not_mem_fmtC (c : Nat) (h : c < 256) (hc : c ≠ 10) : 10 ∉ fmtC c := by
  have h2 : c % 256 = c := Nat.mod_eq_of_lt h
  unfold fmtC utf8
  rw [h2]
  split_ifs <;> simp <;> omega

theorem unlabel_line_start (p : Bytes) (hp : 10 ∉ p) (x rest : Bytes) (hx : 10 ∉ x) :
    unlabel p (p ++ [32] ++ x ++ 10 :: rest) = x ++ [10] ++ unlabel p rest := by
  have h : 10 ∉ p ++ [32] ++ x := by simp [hp, hx]
  unfold unlabel lines
  rw [splitOn_append_sep 10 _ _ h, List.map_cons, stripLabel_label,
    joinLines_cons _ _ (by simpa using splitOn_ne_nil 10 rest)]

theorem unlabel_text :
    ∀ (b : Bytes) (p : Bytes), 10 ∉ p → (∀ x ∈ b, x < 256) →
      (∀ x : Bytes, 10 ∉ x →
        unlabel p (p ++ [32] ++ x ++
          (textLineWriter.write { pfx := p, isPrefixWritePending := false } b).2) =
          x ++ b.flatMap fmtC) ∧
      unlabel p (textLineWriter.write { pfx := p, isPrefixWritePending := true } b).2 =
        b.flatMap fmtC := by
  intro b
  induction b with
  | nil =>
    intro p hp _
    constructor
    · intro x hx
      have h : 10 ∉ p ++ [32] ++ x := by simp [hp, hx]
      simp only [textLineWriter.write, List.append_nil, List.flatMap_nil]
      unfold unlabel lines
      rw [splitOn_no_sep 10 _ h, List.map_cons, stripLabel_label]
      rfl
    · simp [textLineWriter.write, unlabel, lines, splitOn, joinLines, stripLabel_nil]
  | cons c rest ih =>
    intro p hp hb
    have hc : c < 256 := hb c (by simp)
    have ih1 := ih p hp (fun x hx => hb x (by simp [hx]))
    constructor
    · intro x hx
      rw [text_write_cons]
      by_cases h10 : c = 10
      · subst h10
        have e : p ++ [32] ++ x ++ ((if false = true then p ++ [32] else []) ++ fmtC 10 ++
            (textLineWriter.write { pfx := p, isPrefixWritePending := decide (10 = 10) } rest).2) =
            p ++ [32] ++ x ++ 10 :: (textLineWriter.write
              { pfx := p, isPrefixWritePending := true } rest).2 := by
          simp [fmtC_newline]
        rw [e, unlabel_line_start p hp x _ hx, ih1.2]
        simp [fmtC_newline]
      · have hf := newline_not_mem_fmtC c hc h10
        have e : p ++ [32] ++ x ++ ((if false = true then p ++ [32] else []) ++ fmtC c ++
            (textLineWriter.write { pfx := p, isPrefixWritePending := decide (c = 10) } rest).2) =
            p ++ [32] ++ (x ++ fmtC c) ++ (textLineWriter.write
              { pfx := p, isPrefixWritePending := false } rest).2 := by
          simp [h10]
        rw [e, ih1.1 (x ++ fmtC c) (by simp [hx, hf])]
        simp
    · rw [text_write_cons]
      by_cases h10 : c = 10
      · subst h10
        have e : (if true = true then p ++ [32] else []) ++ fmtC 10 ++
            (textLineWriter.write { pfx := p, isPrefixWritePending := decide (10 = 10) } rest).2 =
            p ++ [32] ++ [] ++ 10 :: (textLineWriter.write
              { pfx := p, isPrefixWritePending := true } rest).2 := by
          simp [fmtC_newline]
        rw [e, unlabel_line_start p hp [] _ (by simp), ih1.2]
        simp [fmtC_newline]
      · have hf := newline_not_mem_fmtC c hc h10
        have e : (if true = true then p ++ [32] else []) ++ fmtC c ++
            (textLineWriter.write { pfx := p, isPrefixWritePending := decide (c = 10) } rest).2 =
            p ++ [32] ++ fmtC c ++ (textLineWriter.write
              { pfx := p, isPrefixWritePending := false } rest).2 := by
          simp [h10]
        rw [e, ih1.1 (fmtC c) hf]
        simp

theorem charsOf_ascii (c : Nat) (l : Bytes) (h : c < 128) : charsOf (c :: l) = c :: charsOf l := by
  cases l with
  | nil => rfl
  | cons c2 rest => simp [charsOf, h]

theorem charsOf_fmtC : ∀ (b : Bytes), (∀ x ∈ b, x < 256) → charsOf (b.flatMap fmtC) = b := by
  intro b
  induction b with
  | nil => intro _; rfl
  | cons c rest ih =>
    intro hb
    have hc : c < 256 := hb c (by simp)
    have ih1 := ih (fun x hx => hb x (by simp [hx]))
    have h2 : c % 256 = c := Nat.mod_eq_of_lt hc
    by_cases h128 : c < 128
    · have e : fmtC c = [c] := fmtC_ascii c h128
      rw [List.flatMap_cons, e, List.singleton_append, charsOf_ascii c _ h128, ih1]
    · have e : fmtC c = [192 + c / 64, 128 + c % 64] := by
        have h800 : c < 2048 := by omega
        simp [fmtC, utf8, h2, h128, h800]
      have hn : ¬ (192 + c / 64 < 128) := by omega
      rw [List.flatMap_cons, e]
      have hv : (192 + c / 64 - 192) * 64 + (128 + c % 64 - 128) = c := by omega
      simp only [List.cons_append, List.nil_append, charsOf, if_neg hn, hv, List.append_eq,
        ih1]

theorem flatMap_fmtC_ascii : ∀ (b : Bytes), (∀ x ∈ b, x < 128) → b.flatMap fmtC = b := by
  intro b
  induction b with
  | nil => intro _; rfl
  | cons c rest ih =>
    intro hb
    rw [List.flatMap_cons, fmtC_ascii c (hb c (by simp)), ih (fun x hx => hb x (by simp [hx]))]
    rfl

/-- C11, as amended. Text-mode character fidelity: for every label without a newline and
all chunks of bytes, what text mode writes, once the label and its space are removed from
the start of every line, is in order the UTF-8 encoding of the character with the number of
each byte: the byte itself below 128, two bytes from 128 on. Read as UTF-8 it gives back the
bytes, and for bytes below 128 it is the bytes themselves. -/
theorem text_character_fidelity (p : Bytes) (hp : 10 ∉ p) (bs : List Bytes)
    (hb : ∀ b ∈ bs, ∀ x ∈ b, x < 256) :
    unlabel p (textOut p bs) = bs.flatten.flatMap fmtC ∧
    charsOf (unlabel p (textOut p bs)) = bs.flatten ∧
    ((∀ b ∈ bs, ∀ x ∈ b, x < 128) → unlabel p (textOut p bs) = bs.flatten) := by
  have hbytes : ∀ x ∈ bs.flatten, x < 256 := by
    intro x hx
    obtain ⟨b, hb1, hx1⟩ := List.mem_flatten.mp hx
    exact hb b hb1 x hx1
  have h1 : unlabel p (textOut p bs) = bs.flatten.flatMap fmtC := by
    have e : textOut p bs = p ++ [32] ++ [] ++
        (textLineWriter.write { pfx := p, isPrefixWritePending := false } bs.flatten).2 := by
      simp [textOut, text_writes_eq_write, newTextLineWriter]
    rw [e, (unlabel_text bs.flatten p hp hbytes).1 [] (by simp)]
    rfl
  refine ⟨h1, ?_, ?_⟩
  · rw [h1, charsOf_fmtC _ hbytes]
  · intro hascii
    rw [h1]
    apply flatMap_fmtC_ascii
    intro x hx
    obtain ⟨b, hb1, hx1⟩ := List.mem_flatten.mp hx
    exact hascii b hb1 x hx1

/-- C11 for "é\n!" as the Latin-1 bytes E9 0A 21. -/
theorem text_character_fidelity_witness :
    (10 ∉ str "0001 |" ∧ ∀ b ∈ [[233, 10, 33]], ∀ x ∈ b, x < 256) ∧
    unlabel (str "0001 |") (textOut (str "0001 |") [[233, 10, 33]]) =
      [[233, 10, 33]].flatten.flatMap fmtC :=
  ⟨⟨by decide, by decide⟩,
    (text_character_fidelity (str "0001 |") (by decide) [[233, 10, 33]] (by decide)).1⟩

/-- C11 as stated fails from byte value 128 on: the one byte E9 is written as the two
bytes C3 A9, so the output without its label is not the input byte. -/
theorem text_mode_writes_two_bytes_for_byte_233 :
    textOut (str "0001 |") [[233]] = str "0001 | " ++ [195, 169] ∧
    unlabel (str "0001 |") (textOut (str "0001 |") [[233]]) = [195, 169] ∧
    unlabel (str "0001 |") (textOut (str "0001 |") [[233]]) ≠ [233] := by
  decide

/-! ## C14: labels tell contexts apart -/

theorem dropLabel_some : ∀ (p l r : Bytes), dropLabel p l = some r → l = p ++ r := by
  intro p
  induction p with
  | nil => intro l r h; cases l <;> simp [dropLabel] at h <;> simp [h]
  | cons a p ih =>
    intro l r h
    cases l with
    | nil => simp [dropLabel] at h
    | cons b l =>
      by_cases hab : a = b
      · subst hab
        simp only [dropLabel, if_true] at h
        rw [ih l r h]
        rfl
      · simp [dropLabel, hab] at h

theorem split_at_first (sep : Nat) :
    ∀ (a b x y : Bytes), sep ∉ a → sep ∉ b → a ++ sep :: x = b ++ sep :: y → a = b ∧ x = y := by
  intro a
  induction a with
  | nil =>
    intro b x y _ hb h
    cases b with
    | nil => simpa using h
    | cons c b =>
      simp only [List.nil_append, List.cons_append, List.cons.injEq] at h
      exact absurd (by simp [h.1]) hb
  | cons c a ih =>
    intro b x y ha hb h
    cases b with
    | nil =>
      simp only [List.nil_append, List.cons_append, List.cons.injEq] at h
      exact absurd (by simp [h.1]) ha
    | cons e b =>
      simp only [List.cons_append, List.cons.injEq] at h
      obtain ⟨h1, h2⟩ := ih b x y (fun hm => ha (by simp [hm])) (fun hm => hb (by simp [hm])) h.2
      exact ⟨by rw [h.1, h1], h2⟩

theorem parseDigits_zeros (k : Nat) (l : Bytes) :
    parseDigits (List.replicate k 48 ++ l) 0 = parseDigits l 0 := by
  induction k with
  | zero => rfl
  | succ k ih =>
    rw [List.replicate_succ, List.cons_append]
    simp only [parseDigits]
    simpa using ih

theorem parseDigits_decimal (n : Nat) : parseDigits (decimal n) 0 = some n := by
  have hpow : n < 10 ^ (n + 1) :=
    lt_trans (Nat.lt_succ_self n) (Nat.lt_pow_self (by decide) (n + 1))
  obtain ⟨k, hk⟩ := parseDigits_decimalAux (n + 1) n [] hpow
  rw [decimal, hk 0]
  simp [parseDigits]

theorem digits_padded (n : Nat) :
    ∀ x ∈ List.replicate (4 - (decimal n).length) 48 ++ decimal n, 48 ≤ x ∧ x ≤ 57 := by
  intro x hx
  rcases List.mem_append.mp hx with h | h
  · have := List.eq_of_mem_replicate h
    omega
  · rcases decimalAux_digits _ _ _ x h with h1 | h1
    · simp at h1
    · exact h1

theorem padded_ne_nil (n : Nat) :
    List.replicate (4 - (decimal n).length) 48 ++ decimal n ≠ [] := by
  have := decimalAux_ne_nil (n + 1) n [] (Nat.succ_pos n)
  intro h
  exact this (List.append_eq_nil.mp h).2

theorem fmtInt44_injective (a b : Int) (h : fmtInt44 a = fmtInt44 b) : a = b := by
  have key : ∀ n m : Nat,
      List.replicate (4 - (decimal n).length) 48 ++ decimal n =
        List.replicate (4 - (decimal m).length) 48 ++ decimal m → n = m := by
    intro n m hnm
    have h1 := parseDigits_zeros (4 - (decimal n).length) (decimal n)
    have h2 := parseDigits_zeros (4 - (decimal m).length) (decimal m)
    rw [hnm, h2, parseDigits_decimal] at h1
    rw [parseDigits_decimal] at h1
    exact (Option.some.inj h1).symm
  have hhead : ∀ n m : Nat,
      [45] ++ (List.replicate (4 - (decimal n).length) 48 ++ decimal n) ≠
        List.replicate (4 - (decimal m).length) 48 ++ decimal m := by
    intro n m hnm
    obtain ⟨c, rest, hc⟩ := List.exists_cons_of_ne_nil (padded_ne_nil m)
    have hd := digits_padded m c (by rw [hc]; simp)
    rw [hc] at hnm
    simp only [List.singleton_append, List.cons.injEq] at hnm
    omega
  unfold fmtInt44 at h
  by_cases ha : a < 0 <;> by_cases hb : b < 0
  · simp only [ha, hb, if_true, List.append_assoc, List.append_cancel_left_eq] at h
    have := key _ _ h
    omega
  · simp only [ha, hb, if_true, if_false, List.nil_append, List.append_assoc] at h
    exact absurd h (hhead _ _)
  · simp only [ha, hb, if_true, if_false, List.nil_append, List.append_assoc] at h
    exact absurd h.symm (hhead _ _)
  · simp only [ha, hb, if_false, List.nil_append] at h
    have := key _ _ h
    omega

theorem space_not_mem_fmtInt44 (a : Int) : 32 ∉ fmtInt44 a := by
  intro h
  unfold fmtInt44 at h
  rw [List.append_assoc] at h
  rcases List.mem_append.mp h with h1 | h1
  · split_ifs at h1 <;> simp at h1
  · have := digits_padded a.natAbs 32 h1
    omega

theorem fmtC_prefix_inj (d d2 : Nat) (hd : d < 256) (hd2 : d2 < 256) (x y : Bytes)
    (h : fmtC d ++ x = fmtC d2 ++ y) : d = d2 := by
  have e1 : d % 256 = d := Nat.mod_eq_of_lt hd
  have e2 : d2 % 256 = d2 := Nat.mod_eq_of_lt hd2
  have h800 : d < 2048 := by omega
  have h802 : d2 < 2048 := by omega
  unfold fmtC utf8 at h
  rw [e1, e2] at h
  by_cases h1 : d < 128 <;> by_cases h2 : d2 < 128
  · simp [h1, h2] at h
    exact h.1
  · simp [h1, h2, h802] at h
    omega
  · simp [h1, h2, h800] at h
    omega
  · simp [h1, h2, h800, h802] at h
    omega

/-- A line that starts with the label of `(id, d)` and a space does not start with the
label of another context, nor, when `d` is not the marker `*`, with the label of a comment. -/
theorem labels_apart (id id2 : Int) (d d2 : Nat) (hd : d < 256) (hd2 : d2 < 256) (t r : Bytes)
    (h : dropLabel (makePrefix id d ++ [32]) (makePrefix id2 d2 ++ t) = some r) :
    id = id2 ∧ d = d2 := by
  have e := dropLabel_some _ _ _ h
  simp only [makePrefix, List.append_assoc, List.singleton_append] at e
  obtain ⟨h1, h2⟩ := split_at_first 32 _ _ _ _ (space_not_mem_fmtInt44 id2)
    (space_not_mem_fmtInt44 id) e
  exact ⟨(fmtInt44_injective _ _ h1).symm, (fmtC_prefix_inj d2 d hd2 hd _ _ h2).symm⟩

theorem hexRows_lines (n : Nat) (p b : Bytes) (hp : 10 ∉ p) :
    hexRows n p b = (hexRowLines n p b).flatMap (fun l => l ++ [10]) ∧
      ∀ l ∈ hexRowLines n p b, 10 ∉ l := by
  unfold hexRows hexRowLines
  by_cases h0 : (lastBuf n [] b).length = 0
  · rw [if_pos h0, if_pos h0]
    refine ⟨by simp [List.flatMap_append, List.flatMap_map], ?_⟩
    intro l hl
    rcases List.mem_append.mp hl with h | h
    · obtain ⟨c, _, rfl⟩ := List.mem_map.mp h
      exact newline_not_mem_rowLine n p c hp
    · simp at h
      simp [h]
  · rw [if_neg h0, if_neg h0]
    refine ⟨by simp [List.flatMap_map], ?_⟩
    intro l hl
    obtain ⟨c, _, rfl⟩ := List.mem_map.mp hl
    exact newline_not_mem_rowLine n p c hp

theorem hexRowLines_decode_own (n : Nat) (hn : 1 ≤ n) (p b : Bytes) (hb : ∀ x ∈ b, x < 256) :
    (hexRowLines n p b).flatMap (decodeRow n p) = b := by
  have hrows : ∀ c ∈ fullRows n [] b, c.length ≤ n ∧ ∀ x ∈ c, x < 256 := fun c hc =>
    ⟨le_of_eq (fullRows_length n b [] c hc),
      fun x hx => hb x (by simpa using mem_fullRows n b [] c x hc hx)⟩
  have hlast : (lastBuf n [] b).length ≤ n ∧ ∀ x ∈ lastBuf n [] b, x < 256 :=
    ⟨lastBuf_length n hn b [] (Nat.zero_le _),
      fun x hx => hb x (by simpa using mem_lastBuf n b [] x hx)⟩
  have hflat := fullRows_flatten n b []
  simp only [List.nil_append] at hflat
  unfold hexRowLines
  by_cases h0 : (lastBuf n [] b).length = 0
  · rw [if_pos h0, List.flatMap_append, decode_rows n p _ hrows]
    rw [List.length_eq_zero.mp h0, List.append_nil] at hflat
    simp [decodeRow_nil, hflat]
  · rw [if_neg h0, decode_rows n p]
    · simp [hflat]
    · intro c hc
      rcases List.mem_append.mp hc with h | h
      · exact hrows c h
      · rw [List.mem_singleton.mp h]
        exact hlast

theorem decodeRow_other (n : Nat) (label l : Bytes) (h : dropLabel (label ++ [32]) l = none) :
    decodeRow n label l = [] := by
  simp [decodeRow, h]

theorem hexRowLines_decode_other (n : Nat) (id id2 : Int) (d d2 : Nat) (hd : d < 256)
    (hd2 : d2 < 256) (hne : ¬ (id2 = id ∧ d2 = d)) (b : Bytes) :
    (hexRowLines n (makePrefix id2 d2) b).flatMap (decodeRow n (makePrefix id d)) = [] := by
  have hrow : ∀ c : Bytes,
      decodeRow n (makePrefix id d) (rowLine n (makePrefix id2 d2) c) = [] := by
    intro c
    apply decodeRow_other
    cases hx : dropLabel (makePrefix id d ++ [32]) (rowLine n (makePrefix id2 d2) c) with
    | none => rfl
    | some r =>
      have e : rowLine n (makePrefix id2 d2) c = makePrefix id2 d2 ++
          ([32] ++ hexCols c ++ (blanks (n - c.length) ++ [32] ++ c.map dotChar)) := by
        simp [rowLine]
      rw [e] at hx
      have := labels_apart id id2 d d2 hd hd2 _ r hx
      exact absurd ⟨this.1.symm, this.2.symm⟩ hne
  have hall : ∀ l ∈ hexRowLines n (makePrefix id2 d2) b, decodeRow n (makePrefix id d) l = [] := by
    intro l hl
    unfold hexRowLines at hl
    split_ifs at hl
    · rcases List.mem_append.mp hl with h | h
      · obtain ⟨c, _, rfl⟩ := List.mem_map.mp h
        exact hrow c
      · simp at h
        rw [h]
        exact decodeRow_nil n _
    · obtain ⟨c, _, rfl⟩ := List.mem_map.mp hl
      exact hrow c
  rw [List.flatMap_eq_nil_iff]
  exact hall

theorem renderBlock_rows (n : Nat) (blk : Block) (h : lineBlock blk) :
    renderBlock n blk = (blockRows n blk).flatMap (fun l => l ++ [10]) ∧
      ∀ l ∈ blockRows n blk, 10 ∉ l := by
  cases blk with
  | comment id s =>
    have hp := newline_not_mem_makePrefix id 42 (by decide)
    have hs : 10 ∉ s := h
    refine ⟨by simp [renderBlock, blockRows], ?_⟩
    intro l hl
    simp only [blockRows, List.mem_cons, List.mem_singleton, List.not_mem_nil, or_false] at hl
    rcases hl with rfl | rfl | rfl
    · exact hp
    · simp [hp, hs]
    · exact hp
  | context id d b =>
    obtain ⟨hd, hd10, _⟩ : d < 256 ∧ d ≠ 10 ∧ ∀ x ∈ b, x < 256 := h
    have hp := newline_not_mem_makePrefix id d (by rw [Nat.mod_eq_of_lt hd]; exact hd10)
    exact hexRows_lines n _ b hp

theorem blockRows_decode (n : Nat) (hn : 1 ≤ n) (id : Int) (d : Nat) (hd : d < 256)
    (hstar : d ≠ 42) (blk : Block) (h : lineBlock blk) :
    (blockRows n blk).flatMap (decodeRow n (makePrefix id d)) = pick id d blk := by
  cases blk with
  | comment id2 s =>
    have hline : ∀ t : Bytes, decodeRow n (makePrefix id d) (makePrefix id2 42 ++ t) = [] := by
      intro t
      apply decodeRow_other
      cases hx : dropLabel (makePrefix id d ++ [32]) (makePrefix id2 42 ++ t) with
      | none => rfl
      | some r => exact absurd (labels_apart id id2 d 42 hd (by decide) t r hx).2 hstar
    have h1 := hline []
    have h2 := hline (32 :: s)
    rw [List.append_nil] at h1
    simp [blockRows, pick, h1, h2]
  | context id2 d2 b =>
    obtain ⟨hd2, _, hb⟩ : d2 < 256 ∧ d2 ≠ 10 ∧ ∀ x ∈ b, x < 256 := h
    by_cases hsame : id2 = id ∧ d2 = d
    · obtain ⟨rfl, rfl⟩ := hsame
      simp [blockRows, pick, hexRowLines_decode_own n hn _ b hb]
    · simp only [blockRows, pick, if_neg hsame]
      exact hexRowLines_decode_other n id id2 d d2 hd hd2 hsame b

theorem blocksFrom_line :
    ∀ (ms : List Msg) (cur : Option (Int × Nat × Bytes)),
      (∀ m ∈ ms, lineMsg m) → (∀ blk ∈ closeBlock cur, lineBlock blk) →
      ∀ blk ∈ blocksFrom cur ms, lineBlock blk := by
  intro ms
  induction ms with
  | nil => intro cur _ hc blk hb; exact hc blk (by simpa [blocksFrom] using hb)
  | cons m ms ih =>
    intro cur hm hc blk hb
    have hms : ∀ x ∈ ms, lineMsg x := fun x hx => hm x (by simp [hx])
    have hm0 : lineMsg m := hm m (by simp)
    cases m with
    | comment id s =>
      simp only [blocksFrom, List.mem_append, List.mem_cons] at hb
      rcases hb with hb | rfl | hb
      · exact hc blk hb
      · exact hm0
      · exact ih none hms (by simp [closeBlock]) blk hb
    | data id d b =>
      have hnew : ∀ x ∈ closeBlock (some (id, d, b)), lineBlock x := by
        intro x hx
        simp only [closeBlock, List.mem_singleton] at hx
        rw [hx]
        exact hm0
      match cur, hc with
      | none, _ => exact ih _ hms hnew blk (by simpa [blocksFrom] using hb)
      | some (i, d0, b0), hc =>
        have hcur : lineBlock (.context i d0 b0) := hc _ (by simp [closeBlock])
        by_cases hsame : i = id ∧ d0 = d
        · simp only [blocksFrom, if_pos hsame] at hb
          refine ih _ hms ?_ blk hb
          intro x hx
          simp only [closeBlock, List.mem_singleton] at hx
          rw [hx]
          obtain ⟨h1, h2, h3⟩ : d0 < 256 ∧ d0 ≠ 10 ∧ ∀ x ∈ b0, x < 256 := hcur
          obtain ⟨_, _, h6⟩ : d < 256 ∧ d ≠ 10 ∧ ∀ x ∈ b, x < 256 := hm0
          refine ⟨h1, h2, fun y hy => ?_⟩
          rcases List.mem_append.mp hy with hy | hy
          · exact h3 y hy
          · exact h6 y hy
        · simp only [blocksFrom, if_neg hsame, List.mem_cons] at hb
          rcases hb with rfl | hb
          · exact hcur
          · exact ih _ hms hnew blk hb

theorem blocksFrom_pick (id : Int) (d : Nat) :
    ∀ (ms : List Msg) (cur : Option (Int × Nat × Bytes)),
      (blocksFrom cur ms).flatMap (pick id d) =
        (closeBlock cur).flatMap (pick id d) ++ chunksOf id d ms := by
  intro ms
  induction ms with
  | nil => intro cur; simp [blocksFrom, chunksOf]
  | cons m ms ih =>
    intro cur
    cases m with
    | comment i s =>
      simp [blocksFrom, chunksOf, List.flatMap_append, ih none, closeBlock, pick]
    | data i d2 b =>
      match cur with
      | none =>
        simp [blocksFrom, chunksOf, ih, closeBlock, pick]
      | some (j, d0, b0) =>
        by_cases hsame : j = i ∧ d0 = d2
        · obtain ⟨rfl, rfl⟩ := hsame
          by_cases hp : j = id ∧ d0 = d
          · simp [blocksFrom, chunksOf, ih, closeBlock, pick, hp]
          · simp [blocksFrom, chunksOf, ih, closeBlock, pick, hp]
        · simp [blocksFrom, chunksOf, hsame, ih, closeBlock, pick]

theorem chunksOf_append (id : Int) (d : Nat) (a b : List Msg) :
    chunksOf id d (a ++ b) = chunksOf id d a ++ chunksOf id d b := by
  induction a with
  | nil => rfl
  | cons m a ih => cases m <;> simp [chunksOf, ih]

theorem output_append (cfg : Config) :
    ∀ (a b : List Msg) (st : outputState),
      output cfg st (a ++ b) =
        ((output cfg (output cfg st a).1 b).1, (output cfg st a).2 ++ (output cfg (output cfg st a).1 b).2) := by
  intro a
  induction a with
  | nil => intro b st; simp [output]
  | cons m a ih =>
    intro b st
    simp only [List.cons_append, output, List.append_eq, ih, List.append_assoc]

theorem output_ends_with_comment (cfg : Config) (st : outputState) (ms : List Msg) (id : Int)
    (s : Bytes) : (output cfg st (ms ++ [.comment id s])).1.lw = none := by
  rw [output_append]
  simp [output, outputStep]

/-- C14, as amended. Lossless logging by context in hex mode: for every width of at least
1 and every sequence of messages that ends with a comment, in which no comment text holds a
newline and every data message has bytes as chunk and a direction byte other than the
newline: the hex columns of the output rows that carry the label of `(id, d)`, for a
direction `d` other than the comment marker `*`, give back exactly the chunks of the data
messages of `(id, d)`, one after the other in the order of submission. -/
theorem hex_context_lossless (cfg : Config) (hT : cfg.isText = false)
    (hN : 1 ≤ cfg.columnWidth) (ms : List Msg) (id0 : Int) (s0 : Bytes)
    (hm : ∀ m ∈ ms ++ [.comment id0 s0], lineMsg m) (id : Int) (d : Nat) (hd : d < 256)
    (hstar : d ≠ 42) :
    decodeHex cfg.columnWidth (makePrefix id d) (rendered cfg (ms ++ [.comment id0 s0])) =
      chunksOf id d ms := by
  have hb := hex_output_blocks cfg hT hN (ms ++ [.comment id0 s0]) none outputState.init rfl
  have hclose : closing (output cfg outputState.init (ms ++ [.comment id0 s0])).1 = [] := by
    simp [closing, output_ends_with_comment]
  simp only [written, List.nil_append, hclose, List.append_nil] at hb
  have hl := blocksFrom_line (ms ++ [.comment id0 s0]) none hm (by simp [closeBlock])
  have e : (blocksFrom none (ms ++ [.comment id0 s0])).flatMap (renderBlock cfg.columnWidth) =
      ((blocksFrom none (ms ++ [.comment id0 s0])).flatMap (blockRows cfg.columnWidth)).flatMap
        (fun l => l ++ [10]) := by
    rw [List.flatMap_assoc]
    exact List.flatMap_congr (fun blk hblk => (renderBlock_rows _ blk (hl blk hblk)).1)
  have hlines : lines (rendered cfg (ms ++ [.comment id0 s0])) =
      (blocksFrom none (ms ++ [.comment id0 s0])).flatMap (blockRows cfg.columnWidth) ++ [[]] := by
    rw [rendered, hb, e]
    apply lines_flatMap_newline
    intro l hl2
    obtain ⟨blk, hblk, hl3⟩ := List.mem_flatMap.mp hl2
    exact (renderBlock_rows _ blk (hl blk hblk)).2 l hl3
  have hdec : ((blocksFrom none (ms ++ [.comment id0 s0])).flatMap
      (blockRows cfg.columnWidth)).flatMap (decodeRow cfg.columnWidth (makePrefix id d)) =
      (blocksFrom none (ms ++ [.comment id0 s0])).flatMap (pick id d) := by
    rw [List.flatMap_assoc]
    exact List.flatMap_congr (fun blk hblk =>
      blockRows_decode _ hN id d hd hstar blk (hl blk hblk))
  rw [decodeHex, hlines, List.flatMap_append, hdec, blocksFrom_pick, chunksOf_append]
  simp [closeBlock, chunksOf, decodeRow_nil]

/-- C14 at width 2: two connections take turns, and the bytes of connection 1 toward the
server come back as "abcd". -/
theorem hex_context_lossless_witness :
    decodeHex 2 (makePrefix 1 124)
        (rendered (cfgHex 2)
          ([.data 1 124 (str "abc"), .data 2 124 (str "xy"), .data 1 45 (str "k"),
              .data 1 124 (str "d")] ++ [.comment 1 (str "bye")])) =
      chunksOf 1 124
        [.data 1 124 (str "abc"), .data 2 124 (str "xy"), .data 1 45 (str "k"),
          .data 1 124 (str "d")] ∧
    chunksOf 1 124
        [.data 1 124 (str "abc"), .data 2 124 (str "xy"), .data 1 45 (str "k"),
          .data 1 124 (str "d")] = str "abcd" :=
  ⟨hex_context_lossless (cfgHex 2) rfl (by decide)
      [.data 1 124 (str "abc"), .data 2 124 (str "xy"), .data 1 45 (str "k"),
        .data 1 124 (str "d")] 1 (str "bye")
      (by
        intro m hm
        simp only [List.mem_append, List.mem_cons, List.mem_singleton, List.not_mem_nil,
          or_false] at hm
        rcases hm with (rfl | rfl | rfl | rfl) | rfl <;> simp [lineMsg] <;> decide)
      1 124 (by decide) (by decide),
    by decide⟩

/-- C14 as stated fails for a comment whose text holds a newline: the second line of the
text "x\n0001 |  41" is written as a line of its own and reads as a row of connection 1
with the byte 41, which no data message of that context has sent. It fails as well for a
context whose direction byte is the comment marker: the line of the comment " 41" reads as
a row of the context `(1, '*')`. -/
theorem comment_text_forges_a_row :
    lines (rendered (cfgHex 4)
        [.comment 1 (str "x\n0001 |  41"), .data 1 124 (str "hi"), .comment 1 (str "bye")]) =
      [str "0001 *", str "0001 * x", str "0001 |  41", str "0001 *",
        str "0001 |  68 69       hi", str "0001 *", str "0001 * bye", str "0001 *", str ""] ∧
    decodeHex 4 (makePrefix 1 124)
        (rendered (cfgHex 4)
          [.comment 1 (str "x\n0001 |  41"), .data 1 124 (str "hi"), .comment 1 (str "bye")]) =
      [65, 104, 105] ∧
    chunksOf 1 124
        [.comment 1 (str "x\n0001 |  41"), .data 1 124 (str "hi"), .comment 1 (str "bye")] =
      [104, 105] ∧
    decodeHex 4 (makePrefix 1 42)
        (rendered (cfgHex 4)
          [.comment 1 (str " 41"), .data 1 42 (str "hi"), .comment 1 (str "bye")]) =
      [65, 104, 105] ∧
    chunksOf 1 42 [.comment 1 (str " 41"), .data 1 42 (str "hi"), .comment 1 (str "bye")] =
      [104, 105] := by
  decide

/-! ## C17: the chunk of a data message is the buffer of the copier -/

/-- C17, the failing run. The client sends "AAAA" and then "BBBB". `doCopy` reads "AAAA",
sends `b[:4]`, forwards it and reads "BBBB" into the same array before `output` has run its
loop over `msg.b`: the message was sent with the chunk "AAAA", and `output` renders "BBBB"
for it (`42` is the hex value of 'B'). When `output` runs its loop before the second read,
it renders "AAAA". At the end of the failing run "AAAABBBB" has been forwarded and the log
shows "BBBBBBBB". -/
theorem rendering_reads_the_next_chunk :
    (sharedRun (cfgHex 18) 1 124
        (sharedInit [⟨str "AAAA", false⟩, ⟨str "BBBB", false⟩] [⟨4, false⟩, ⟨4, false⟩])
        [.copier, .copier, .copier, .copier, .mux, .mux, .mux, .mux, .mux]).submitted =
      [str "AAAA"] ∧
    (sharedRun (cfgHex 18) 1 124
        (sharedInit [⟨str "AAAA", false⟩, ⟨str "BBBB", false⟩] [⟨4, false⟩, ⟨4, false⟩])
        [.copier, .copier, .copier, .copier, .mux, .mux, .mux, .mux, .mux]).forwarded =
      str "AAAA" ∧
    (sharedRun (cfgHex 18) 1 124
        (sharedInit [⟨str "AAAA", false⟩, ⟨str "BBBB", false⟩] [⟨4, false⟩, ⟨4, false⟩])
        [.copier, .copier, .copier, .copier, .mux, .mux, .mux, .mux, .mux]).ranged =
      str "BBBB" ∧
    (sharedRun (cfgHex 18) 1 124
        (sharedInit [⟨str "AAAA", false⟩, ⟨str "BBBB", false⟩] [⟨4, false⟩, ⟨4, false⟩])
        [.copier, .copier, .copier, .copier, .mux, .mux, .mux, .mux, .mux]).sink =
      str "0001 |  42 42 42 42" ∧
    (sharedRun (cfgHex 18) 1 124
        (sharedInit [⟨str "AAAA", false⟩, ⟨str "BBBB", false⟩] [⟨4, false⟩, ⟨4, false⟩])
        [.copier, .copier, .mux, .mux, .mux, .mux, .mux, .copier, .copier]).ranged =
      str "AAAA" ∧
    (sharedRun (cfgHex 18) 1 124
        (sharedInit [⟨str "AAAA", false⟩, ⟨str "BBBB", false⟩] [⟨4, false⟩, ⟨4, false⟩])
        [.copier, .copier, .mux, .mux, .mux, .mux, .mux, .copier, .copier]).sink =
      str "0001 |  41 41 41 41" ∧
    (sharedRun (cfgHex 18) 1 124
        (sharedInit [⟨str "AAAA", false⟩, ⟨str "BBBB", false⟩] [⟨4, false⟩, ⟨4, false⟩])
        [.copier, .copier, .copier, .copier, .mux, .mux, .mux, .mux, .mux,
          .copier, .copier, .mux, .mux, .mux, .mux, .mux]).forwarded = str "AAAABBBB" ∧
    (sharedRun (cfgHex 18) 1 124
        (sharedInit [⟨str "AAAA", false⟩, ⟨str "BBBB", false⟩] [⟨4, false⟩, ⟨4, false⟩])
        [.copier, .copier, .copier, .copier, .mux, .mux, .mux, .mux, .mux,
          .copier, .copier, .mux, .mux, .mux, .mux, .mux]).sink =
      str "0001 |  42 42 42 42 42 42 42 42" := by
  decide

/-- The steps into which `sharedStep` cuts the `data` case of `output` give, on bytes that
stay as they are, the state and the output of the whole case: the case for the chunk
without bytes, then the case for each byte by itself, is the case for the chunk. -/
theorem range_loop_bytewise (cfg : Config) (id : Int) (pfx : Nat) :
    ∀ (c b : Bytes) (st : outputState),
      output cfg st (.data id pfx b :: c.map (fun ch => Msg.data id pfx [ch])) =
        output cfg st [.data id pfx (b ++ c)] := by
  intro c
  induction c with
  | nil => intro b st; simp
  | cons x c ih =>
    intro b st
    have h1 := output_append cfg [.data id pfx b, .data id pfx [x]]
      (c.map (fun ch => Msg.data id pfx [ch])) st
    have h2 := output_append cfg [.data id pfx (b ++ [x])]
      (c.map (fun ch => Msg.data id pfx [ch])) st
    have h3 := output_two_chunks cfg st id pfx b [x]
    simp only [List.cons_append, List.nil_append] at h1 h2
    rw [List.map_cons, h1, h3, ← h2, ih (b ++ [x]) st]
    simp

/-! ## C10: the label at the start of every line -/

theorem labelled_single (p l : Bytes) (h : l = [] ∨ (p ++ [32]) <+: l) : labelled p [l] := by
  constructor
  · intro x hx
    simp at hx
  · intro x hx
    simp only [List.getLast?_singleton, Option.mem_def, Option.some.injEq] at hx
    rw [← hx]
    exact h

theorem labelled_cons (p l : Bytes) (ls : List Bytes) (hne : ls ≠ [])
    (hl : (p ++ [32]) <+: l) (h : labelled p ls) : labelled p (l :: ls) := by
  obtain ⟨a, t, rfl⟩ := List.exists_cons_of_ne_nil hne
  constructor
  · intro x hx
    simp only [List.dropLast_cons₂, List.mem_cons] at hx
    rcases hx with rfl | hx
    · exact hl
    · exact h.1 x hx
  · intro x hx
    rw [List.getLast?_cons_cons] at hx
    exact h.2 x hx

theorem text_lines_labelled :
    ∀ (b : Bytes) (p : Bytes), 10 ∉ p → (∀ x ∈ b, x < 256) →
      (∀ x : Bytes, 10 ∉ x →
        labelled p (lines (p ++ [32] ++ x ++
          (textLineWriter.write { pfx := p, isPrefixWritePending := false } b).2))) ∧
      labelled p (lines (textLineWriter.write { pfx := p, isPrefixWritePending := true } b).2) := by
  intro b
  induction b with
  | nil =>
    intro p hp _
    constructor
    · intro x hx
      have h : 10 ∉ p ++ [32] ++ x := by simp [hp, hx]
      simp only [textLineWriter.write, List.append_nil]
      unfold lines
      rw [splitOn_no_sep 10 _ h]
      exact labelled_single p _ (Or.inr ⟨x, rfl⟩)
    · simp only [textLineWriter.write, lines_nil]
      exact labelled_single p _ (Or.inl rfl)
  | cons c rest ih =>
    intro p hp hb
    have hc : c < 256 := hb c (by simp)
    have ih1 := ih p hp (fun x hx => hb x (by simp [hx]))
    constructor
    · intro x hx
      rw [text_write_cons]
      by_cases h10 : c = 10
      · subst h10
        have e : p ++ [32] ++ x ++ ((if false = true then p ++ [32] else []) ++ fmtC 10 ++
            (textLineWriter.write { pfx := p, isPrefixWritePending := decide (10 = 10) } rest).2) =
            (p ++ [32] ++ x) ++ 10 :: (textLineWriter.write
              { pfx := p, isPrefixWritePending := true } rest).2 := by
          simp [fmtC_newline]
        have h : 10 ∉ p ++ [32] ++ x := by simp [hp, hx]
        rw [e]
        unfold lines
        rw [splitOn_append_sep 10 _ _ h]
        exact labelled_cons p _ _ (splitOn_ne_nil 10 _) ⟨x, rfl⟩ ih1.2
      · have hf := newline_not_mem_fmtC c hc h10
        have e : p ++ [32] ++ x ++ ((if false = true then p ++ [32] else []) ++ fmtC c ++
            (textLineWriter.write { pfx := p, isPrefixWritePending := decide (c = 10) } rest).2) =
            p ++ [32] ++ (x ++ fmtC c) ++ (textLineWriter.write
              { pfx := p, isPrefixWritePending := false } rest).2 := by
          simp [h10]
        rw [e]
        exact ih1.1 (x ++ fmtC c) (by simp [hx, hf])
    · rw [text_write_cons]
      by_cases h10 : c = 10
      · subst h10
        have e : (if true = true then p ++ [32] else []) ++ fmtC 10 ++
            (textLineWriter.write { pfx := p, isPrefixWritePending := decide (10 = 10) } rest).2 =
            (p ++ [32]) ++ 10 :: (textLineWriter.write
              { pfx := p, isPrefixWritePending := true } rest).2 := by
          simp [fmtC_newline]
        have h : 10 ∉ p ++ [32] := by simp [hp]
        rw [e]
        unfold lines
        rw [splitOn_append_sep 10 _ _ h]
        exact labelled_cons p _ _ (splitOn_ne_nil 10 _) (List.prefix_refl _) ih1.2
      · have hf := newline_not_mem_fmtC c hc h10
        have e : (if true = true then p ++ [32] else []) ++ fmtC c ++
            (textLineWriter.write { pfx := p, isPrefixWritePending := decide (c = 10) } rest).2 =
            p ++ [32] ++ fmtC c ++ (textLineWriter.write
              { pfx := p, isPrefixWritePending := false } rest).2 := by
          simp [h10]
        rw [e]
        exact ih1.1 (fmtC c) hf

/-- In text mode, for a label without newline: every line that a context writes for its
bytes starts with the label and a space; the piece after the last newline is empty when the
last byte of the context was a newline. -/
theorem textOut_labelled (p : Bytes) (hp : 10 ∉ p) (bs : List Bytes)
    (hb : ∀ b ∈ bs, ∀ x ∈ b, x < 256) : labelled p (lines (textOut p bs)) := by
  have hbytes : ∀ x ∈ bs.flatten, x < 256 := by
    intro x hx
    obtain ⟨b, hb1, hx1⟩ := List.mem_flatten.mp hx
    exact hb b hb1 x hx1
  have e : textOut p bs = p ++ [32] ++ [] ++
      (textLineWriter.write { pfx := p, isPrefixWritePending := false } bs.flatten).2 := by
    simp [textOut, text_writes_eq_write, newTextLineWriter]
  rw [e]
  exact (text_lines_labelled bs.flatten p hp hbytes).1 [] (by simp)

theorem blockLines_label (n : Nat) (blk : Block) :
    ∀ l ∈ blockLines n blk, blockLabel blk <+: l := by
  cases blk with
  | comment id s =>
    intro l hl
    simp only [blockLines, List.mem_cons, List.mem_singleton, List.not_mem_nil, or_false] at hl
    rcases hl with rfl | rfl | rfl
    · exact List.prefix_refl _
    · exact ⟨[32] ++ s, by simp [blockLabel, star]⟩
    · exact List.prefix_refl _
  | context id d b =>
    intro l hl
    obtain ⟨c, _, rfl⟩ := List.mem_map.mp hl
    exact ⟨[32] ++ hexCols c ++ (blanks (n - c.length) ++ [32] ++ c.map dotChar), by
      simp [blockLabel, rowLine]⟩

theorem blocksFrom_labels (L : List Bytes) :
    ∀ (ms : List Msg) (cur : Option (Int × Nat × Bytes)),
      (∀ m ∈ ms, msgLabel m ∈ L) → (∀ blk ∈ closeBlock cur, blockLabel blk ∈ L) →
      ∀ blk ∈ blocksFrom cur ms, blockLabel blk ∈ L := by
  intro ms
  induction ms with
  | nil => intro cur _ hc blk hb; exact hc blk (by simpa [blocksFrom] using hb)
  | cons m ms ih =>
    intro cur hm hc blk hb
    have hms : ∀ x ∈ ms, msgLabel x ∈ L := fun x hx => hm x (by simp [hx])
    have hm0 : msgLabel m ∈ L := hm m (by simp)
    cases m with
    | comment id s =>
      simp only [blocksFrom, List.mem_append, List.mem_cons] at hb
      rcases hb with hb | rfl | hb
      · exact hc blk hb
      · exact hm0
      · exact ih none hms (by simp [closeBlock]) blk hb
    | data id d b =>
      have hnew : ∀ x ∈ closeBlock (some (id, d, b)), blockLabel x ∈ L := by
        intro x hx
        simp only [closeBlock, List.mem_singleton] at hx
        rw [hx]
        exact hm0
      match cur, hc with
      | none, _ => exact ih _ hms hnew blk (by simpa [blocksFrom] using hb)
      | some (i, d0, b0), hc =>
        have hcur : blockLabel (.context i d0 b0) ∈ L := hc _ (by simp [closeBlock])
        by_cases hsame : i = id ∧ d0 = d
        · simp only [blocksFrom, if_pos hsame] at hb
          refine ih _ hms ?_ blk hb
          intro x hx
          simp only [closeBlock, List.mem_singleton] at hx
          rw [hx]
          exact hcur
        · simp only [blocksFrom, if_neg hsame, List.mem_cons] at hb
          rcases hb with rfl | hb
          · exact hcur
          · exact ih _ hms hnew blk hb

/-- Every block of a sequence of messages carries the label of one of the messages. -/
theorem blocksFrom_label_of_msg (ms : List Msg) :
    ∀ blk ∈ blocksFrom none ms, ∃ m ∈ ms, msgLabel m = blockLabel blk := by
  intro blk hb
  have h := blocksFrom_labels (ms.map msgLabel) ms none
    (fun m hm => List.mem_map.mpr ⟨m, hm, rfl⟩) (by simp [closeBlock]) blk hb
  obtain ⟨m, hm, e⟩ := List.mem_map.mp h
  exact ⟨m, hm, e⟩

/-- C10, as amended. For a connection id from a TCP port (0 to 65535) and an ASCII marker
or direction character `c` other than the newline: up to 9999 the label is the id as four
zero-padded decimal digits, a space and `c`, six characters; from 10000 on it is the five
digits of the id, a space and `c`, seven characters; it holds no newline.
* A comment is written, after what the flush of the open context writes, as the label of its
  id and `*` with a newline, the label with a space, the text and a newline, and the label
  with a newline; for a text without newline these are three lines that start with the label.
* What a hex context (width at least 1) writes for at least one byte, flush included, is a
  sequence of rows, each the label, a space, a rest without newline, and a newline.
* What a text context writes starts with the label and a space; for bytes (values below
  256), every line of it starts with the label and a space, and the piece after the last
  newline is empty or starts with them.
* In hex mode with a width of at least 1, for a sequence of comments without newline in
  their text and of data messages with at least one byte and a direction character other
  than the newline: the lines of the output, the open row flushed, are the lines of the
  blocks of the sequence and an empty piece after the last newline; each block carries the
  label of one of the messages, and each of its lines starts with that label. -/
theorem label_format (id c : Nat) (hid : id ≤ 65535) (hc : c < 128) (hnl : c ≠ 10) :
    (id < 10000 → makePrefix id c =
      [48 + id / 1000, 48 + id / 100 % 10, 48 + id / 10 % 10, 48 + id % 10, 32, c]) ∧
    (10000 ≤ id → makePrefix id c =
      [48 + id / 10000, 48 + id / 1000 % 10, 48 + id / 100 % 10, 48 + id / 10 % 10,
        48 + id % 10, 32, c]) ∧
    10 ∉ makePrefix id c ∧
    (∀ (cfg : Config) (st : outputState) (msg : Bytes),
      (outputStep cfg st (.comment id msg)).2 =
        closing st ++ (makePrefix id 42 ++ [10]) ++ (makePrefix id 42 ++ ([32] ++ msg) ++ [10]) ++
          (makePrefix id 42 ++ [10])) ∧
    (∀ msg : Bytes, 10 ∉ msg →
      lines ((makePrefix id 42 ++ [10]) ++ (makePrefix id 42 ++ ([32] ++ msg) ++ [10]) ++
          (makePrefix id 42 ++ [10])) =
        [makePrefix id 42, makePrefix id 42 ++ ([32] ++ msg), makePrefix id 42, []]) ∧
    (∀ (cfg : Config), 1 ≤ cfg.columnWidth → ∀ b : Bytes, b ≠ [] →
      ∃ rows : List Bytes, rows ≠ [] ∧ (∀ r ∈ rows, 10 ∉ r) ∧
        ((newHexLineWriter cfg (makePrefix id c)).write cfg b).2 ++
            (((newHexLineWriter cfg (makePrefix id c)).write cfg b).1.flush).2 =
          rows.flatMap (fun r => makePrefix id c ++ [32] ++ r ++ [10])) ∧
    (∀ bs : List Bytes, (makePrefix id c ++ [32]) <+: textOut (makePrefix id c) bs) ∧
    (∀ bs : List Bytes, (∀ b ∈ bs, ∀ x ∈ b, x < 256) →
      (∀ l ∈ (lines (textOut (makePrefix id c) bs)).dropLast, (makePrefix id c ++ [32]) <+: l) ∧
      (∀ l ∈ (lines (textOut (makePrefix id c) bs)).getLast?,
        l = [] ∨ (makePrefix id c ++ [32]) <+: l)) ∧
    (∀ (cfg : Config), cfg.isText = false → 1 ≤ cfg.columnWidth →
      ∀ ms : List Msg, (∀ m ∈ ms, plainMsg m) →
        lines (rendered cfg ms ++ closing (output cfg outputState.init ms).1) =
          (blocksFrom none ms).flatMap (blockLines cfg.columnWidth) ++ [[]] ∧
        ∀ blk ∈ blocksFrom none ms, (∃ m ∈ ms, msgLabel m = blockLabel blk) ∧
          ∀ l ∈ blockLines cfg.columnWidth blk, blockLabel blk <+: l) := by
  have hp : 10 ∉ makePrefix id c := by
    apply newline_not_mem_makePrefix
    have h2 : c % 256 = c := Nat.mod_eq_of_lt (by omega)
    omega
  have hstar : 10 ∉ makePrefix id 42 := newline_not_mem_makePrefix id 42 (by decide)
  refine ⟨fun h => makePrefix_four id c h hc, fun h => makePrefix_five id c h (by omega) hc,
    hp, ?_, ?_, ?_, ?_, ?_, ?_⟩
  · intro cfg st msg
    simp [outputStep, star, closing]
  · intro msg hmsg
    have h := lines_flatMap_newline
      [makePrefix id 42, makePrefix id 42 ++ ([32] ++ msg), makePrefix id 42] (by
        intro l hl
        simp only [List.mem_cons, List.mem_singleton, List.not_mem_nil, or_false] at hl
        rcases hl with rfl | rfl | rfl
        · exact hstar
        · simp [hstar, hmsg]
        · exact hstar)
    simpa using h
  · intro cfg hN b hb
    have hlast := lastBuf_ne_nil cfg.columnWidth b [] (Or.inr hb)
    have h0 : ¬ (lastBuf cfg.columnWidth [] b).length = 0 := fun h =>
      hlast (List.length_eq_zero.mp h)
    have htext := hex_context_text cfg hN (newHexLineWriter cfg (makePrefix id c)) rfl
      (Nat.zero_le _) b
    simp only [newHexLineWriter, partialLine, List.length_nil, if_true, List.nil_append,
      if_neg h0] at htext
    refine ⟨(fullRows cfg.columnWidth [] b ++ [lastBuf cfg.columnWidth [] b]).map
      (fun c => hexCols c ++ (blanks (cfg.columnWidth - c.length) ++ ([32] ++ c.map dotChar))),
      by simp, ?_, ?_⟩
    · intro r hr
      obtain ⟨x, _, rfl⟩ := List.mem_map.mp hr
      exact newline_not_mem_rowTail _ x
    · simp only [newHexLineWriter]
      rw [htext, List.flatMap_map]
      simp [rowLine]
  · intro bs
    exact ⟨((newTextLineWriter (makePrefix id c)).1.writes bs).2, by
      simp [textOut, newTextLineWriter]⟩
  · intro bs hbs
    exact textOut_labelled (makePrefix id c) hp bs hbs
  · intro cfg hT hN ms hm
    refine ⟨hex_output_lines cfg hT hN ms hm, ?_⟩
    intro blk hblk
    exact ⟨blocksFrom_label_of_msg ms blk hblk, blockLines_label cfg.columnWidth blk⟩

/-- C10 for the port 52344 of a client and the direction '|', for the id 80, and for the
lines of a session of connection 52344 in hex mode at width 4. -/
theorem label_format_witness :
    makePrefix 52344 124 = [53, 50, 51, 52, 52, 32, 124] ∧
    makePrefix 80 124 = [48, 48, 56, 48, 32, 124] ∧
    lines (rendered (cfgHex 4) [.comment 52344 (str "hi"), .data 52344 124 (str "abcde")] ++
        closing (output (cfgHex 4) outputState.init
          [.comment 52344 (str "hi"), .data 52344 124 (str "abcde")]).1) =
      (blocksFrom none [.comment 52344 (str "hi"), .data 52344 124 (str "abcde")]).flatMap
        (blockLines (cfgHex 4).columnWidth) ++ [[]] ∧
    (blocksFrom none [.comment 52344 (str "hi"), .data 52344 124 (str "abcde")]).flatMap
        (blockLines 4) =
      [str "52344 *", str "52344 * hi", str "52344 *", str "52344 |  61 62 63 64 abcd",
        str "52344 |  65          e"] :=
  ⟨by simpa using (label_format 52344 124 (by decide) (by decide) (by decide)).2.1 (by decide),
    by simpa using (label_format 80 124 (by decide) (by decide) (by decide)).1 (by decide),
    ((label_format 52344 124 (by decide) (by decide) (by decide)).2.2.2.2.2.2.2.2 (cfgHex 4) rfl
      (by decide) [.comment 52344 (str "hi"), .data 52344 124 (str "abcde")] (by
        intro m hm
        simp only [List.mem_cons, List.mem_singleton, List.not_mem_nil, or_false] at hm
        rcases hm with rfl | rfl <;> simp [plainMsg] <;> decide)).1,
    by decide⟩

/-- C10 as stated fails in four ways.
* From id 10000 on the label has five digits and seven characters: the label of port 52344
  is "52344 |", not four digits and six characters.
* The text of a comment is written as it is: of the comment "x\ny" of connection 1 the line
  "y" does not start with the label "0001 *".
* A data message without bytes leaves, in hex mode, an empty line where its row would be.
* With the newline as direction character the label itself ends the line, and the row of
  the byte 41 starts with two spaces. -/
theorem seven_character_label_and_lines_without_label :
    (makePrefix 52344 124 = str "52344 |" ∧ (makePrefix 52344 124).length = 7 ∧
      (makePrefix 52344 124).length ≠ 6) ∧
    (lines (rendered (cfgHex 4) [.comment 1 (str "x\ny")]) =
        [str "0001 *", str "0001 * x", str "y", str "0001 *", str ""] ∧
      makePrefix 1 42 = str "0001 *" ∧ ¬ (str "0001 *" <+: str "y")) ∧
    (lines (rendered (cfgHex 4) [.data 1 124 [], .comment 1 (str "x")]) =
        [str "", str "0001 *", str "0001 * x", str "0001 *", str ""] ∧
      makePrefix 1 124 = str "0001 |" ∧ ¬ (str "0001 |" <+: str "")) ∧
    (lines (rendered (cfgHex 4) [.data 1 10 (str "A"), .comment 1 (str "x")]) =
        [str "0001 ", str "  41          A", str "0001 *", str "0001 * x", str "0001 *",
          str ""] ∧
      makePrefix 1 10 = str "0001 \n" ∧ ¬ (str "0001 \n" <+: str "  41          A")) := by
  have h : makePrefix 52344 124 = [53, 50, 51, 52, 52, 32, 124] := by
    simpa using makePrefix_five 52344 124 (by decide) (by decide) (by decide)
  refine ⟨?_, by decide, by decide, by decide⟩
  rw [h]
  decide

end Tcpproxy
